import Mathlib

/-!
# A transparent, time-bounded price cache (`src/cache.go`)

Shallow embedding of `TransparentCache` and its operations.

Modelling conventions.
* Instants are the `UnixNano` readings of `time.Now()`, durations are nanosecond counts;
  both are integers.  Every operation receives the clock reading(s) it takes as arguments.
* `Write` adds `maxAge` to the clock reading exactly.  The code holds the sum in an `int64`,
  which wraps around: that is `Machine.Write` (and `Machine.GetPriceFor`, which calls it).
  The two agree whenever the sum is an `int64` (`Machine.Write_eq`); what the code does when
  it is not is evaluated on `Machine.Write`.
* The Go map `prices` is represented by its lookup function `String → Option Data`
  (`none` = no entry); insertion and `delete` are `Function.update`.
* A Go `error` is represented by its message; `none` is the `nil` error.
* `PriceService` is an interface in the source: its behaviour is a parameter.  The answer
  of the service may depend on everything it was asked before, and the list of item codes
  it was asked is kept so that calls to it can be counted.
-/

namespace Sample1

/-- Data data representation to be cached with its expiration instant. -/
structure Data where
  Value : Float
  Expiration : Int

/-- The external price service: `respond asked itemCode` is the `(price, err)` pair it
answers when asked for `itemCode` after having been asked for the item codes `asked`. -/
structure PriceService where
  respond : List String → String → Float × Option String
  asked : List String

/-- One call of the interface method `PriceService.GetPriceFor`. -/
def PriceService.GetPriceFor (s : PriceService) (itemCode : String) :
    (Float × Option String) × PriceService :=
  (s.respond s.asked itemCode, { s with asked := s.asked ++ [itemCode] })

/-- The cache wrapping the actual service (the mutex is modelled in `MxEvent` below). -/
structure TransparentCache where
  actualPriceService : PriceService
  maxAge : Int
  prices : String → Option Data

/-- The constructor `NewTransparentCache`. -/
def NewTransparentCache (actualPriceService : PriceService) (maxAge : Int) : TransparentCache :=
  { actualPriceService := actualPriceService, maxAge := maxAge, prices := fun _ => none }

/-- The method `Read`, `now` being the reading of `time.Now().UnixNano()`. -/
def Read (c : TransparentCache) (k : String) (now : Int) : (Float × Bool) × TransparentCache :=
  match c.prices k with
  | none => ((0, false), c)
  | some data =>
    if now > data.Expiration then
      ((0, false), { c with prices := Function.update c.prices k none })
    else
      ((data.Value, true), c)

/-- The method `Write`, `now` being the reading of `time.Now()`, with the sum
`now + maxAge` taken exactly (see `Machine.Write` for the `int64` of the code). -/
def Write (c : TransparentCache) (k : String) (v : Float) (now : Int) : TransparentCache :=
  { c with prices := Function.update c.prices k (some { Value := v, Expiration := now + c.maxAge }) }

/-- The method `GetPriceFor`: `nowR` is the clock reading of its `Read`, `nowW` the one of
its `Write`. -/
def GetPriceFor (c : TransparentCache) (itemCode : String) (nowR nowW : Int) :
    (Float × Option String) × TransparentCache :=
  match Read c itemCode nowR with
  | ((price, true), c1) => ((price, none), c1)
  | ((_, false), c1) =>
    match c1.actualPriceService.GetPriceFor itemCode with
    | ((_, some err), svc) =>
      ((0, some ("getting price from service : " ++ err)), { c1 with actualPriceService := svc })
    | ((price, none), svc) =>
      ((price, none), Write { c1 with actualPriceService := svc } itemCode price nowW)

/-! ## The mutex discipline of `Read` and `Write` -/

/-- What one call does to the mutex `mx` and to the map `prices`, in program order. -/
inductive MxEvent where
  | RLock
  | RUnlock
  | Lock
  | Unlock
  | mapGet (k : String)
  | mapDelete (k : String)
  | mapSet (k : String) (d : Data)

/-- How the calling goroutine holds `mx`. -/
inductive LockMode where
  | unlocked
  | shared
  | exclusive

/-- The statements of `Read` that touch `mx` or `prices`, in the order they are executed. -/
def ReadEvents (c : TransparentCache) (k : String) (now : Int) : List MxEvent :=
  match c.prices k with
  | none => [.RLock, .mapGet k, .RUnlock]
  | some data =>
    if now > data.Expiration then
      [.RLock, .mapGet k, .mapDelete k, .RUnlock]
    else
      [.RLock, .mapGet k, .RUnlock]

/-- The statements of `Write` that touch `mx` or `prices`, in the order they are executed. -/
def WriteEvents (c : TransparentCache) (k : String) (v : Float) (now : Int) : List MxEvent :=
  [.Lock, .mapSet k { Value := v, Expiration := now + c.maxAge }, .Unlock]

/-- The lock mode of the goroutine after an event. -/
def LockMode.after (m : LockMode) : MxEvent → LockMode
  | .RLock => .shared
  | .Lock => .exclusive
  | .RUnlock => .unlocked
  | .Unlock => .unlocked
  | _ => m

/-- Whether an event changes the map. -/
def MxEvent.mutates : MxEvent → Bool
  | .mapDelete _ => true
  | .mapSet _ _ => true
  | _ => false

/-- Whether every change of the map in `evs` happens while `mx` is held exclusively,
starting in lock mode `m`. -/
def mutationsExclusive (m : LockMode) : List MxEvent → Bool
  | [] => true
  | e :: evs =>
    (match e.mutates, m with
      | true, .exclusive => true
      | true, _ => false
      | false, _ => true) && mutationsExclusive (m.after e) evs

/-- The changes of the map in `evs` applied to a map. -/
def applyEvents (prices : String → Option Data) : List MxEvent → String → Option Data
  | [] => prices
  | .mapDelete k :: evs => applyEvents (Function.update prices k none) evs
  | .mapSet k d :: evs => applyEvents (Function.update prices k (some d)) evs
  | _ :: evs => applyEvents prices evs

/-! ## `GetPricesFor`: one goroutine per position

`Read` and `Write` are taken as the atomic steps of a goroutine (`mx` is there to make them
so; how `Read` holds it is the matter of `ReadEvents`); the call of the service is a third
step.  A run of `GetPricesFor` is an interleaving of the steps of its goroutines. -/

/-- Where the goroutine of one position stands inside its call of `GetPriceFor`. -/
inductive Task where
  | reading (itemCode : String)
  | fetching (itemCode : String)
  | writing (itemCode : String) (price : Float)
  | finished (price : Float) (err : Option String)

/-- The state shared by the goroutines of one `GetPricesFor`: the cache, the goroutines,
the slice `results` and the first error kept by the `errgroup`. -/
structure Group where
  cache : TransparentCache
  tasks : List Task
  results : List Float
  err : Option String

/-- The first error wins (`errgroup` keeps it with a `sync.Once`). -/
def firstError (old : Option String) (new : String) : Option String :=
  match old with
  | none => some new
  | some e => some e

/-- One atomic step of goroutine `i` at clock reading `now`. -/
def Group.step (g : Group) (i : Nat) (now : Int) : Group :=
  match g.tasks[i]? with
  | none => g
  | some (.reading k) =>
    match Read g.cache k now with
    | ((price, true), c) =>
      { g with cache := c, tasks := g.tasks.set i (.finished price none),
               results := g.results.set i price }
    | ((_, false), c) =>
      { g with cache := c, tasks := g.tasks.set i (.fetching k) }
  | some (.fetching k) =>
    match g.cache.actualPriceService.GetPriceFor k with
    | ((_, some err), svc) =>
      { g with cache := { g.cache with actualPriceService := svc },
               tasks := g.tasks.set i (.finished 0 (some ("getting price from service : " ++ err))),
               err := firstError g.err ("getting price from service : " ++ err) }
    | ((price, none), svc) =>
      { g with cache := { g.cache with actualPriceService := svc },
               tasks := g.tasks.set i (.writing k price) }
  | some (.writing k price) =>
    { g with cache := Write g.cache k price now, tasks := g.tasks.set i (.finished price none),
             results := g.results.set i price }
  | some (.finished _ _) => g

/-- The steps of a schedule, one after the other. -/
def Group.run (g : Group) (steps : List (Nat × Int)) : Group :=
  steps.foldl (fun g s => g.step s.1 s.2) g

/-- Three steps for each of `n` goroutines in turn: enough to finish every one of them. -/
def drain (n : Nat) (now : Int) : List (Nat × Int) :=
  (List.range n).flatMap fun i => [(i, now), (i, now), (i, now)]

/-- The state of `GetPricesFor` when its goroutines are started. -/
def Group.start (c : TransparentCache) (itemCodes : List String) : Group :=
  { cache := c, tasks := itemCodes.map Task.reading,
    results := List.replicate itemCodes.length 0, err := none }

/-- Every step of a run of `GetPricesFor`: the interleaving `sched` (goroutine, clock
reading), after which `g.Wait()` lets the goroutines that have not finished run to their
end at `nowEnd`. -/
def GetPricesFor.steps (itemCodes : List String) (sched : List (Nat × Int)) (nowEnd : Int) :
    List (Nat × Int) :=
  sched ++ drain itemCodes.length nowEnd

/-- The method `GetPricesFor` under the interleaving `sched`; a `nil` slice is `none`. -/
def GetPricesFor (c : TransparentCache) (itemCodes : List String) (sched : List (Nat × Int))
    (nowEnd : Int) : (Option (List Float) × Option String) × TransparentCache :=
  let g := (Group.start c itemCodes).run (GetPricesFor.steps itemCodes sched nowEnd)
  match g.err with
  | some err => ((none, some err), g.cache)
  | none => ((some g.results, none), g.cache)

/-! ## Sequences of calls and what they return -/

/-- A call of one of the four methods, with the clock readings it takes. -/
inductive Call where
  | Write (k : String) (v : Float) (now : Int)
  | Read (k : String) (now : Int)
  | GetPriceFor (itemCode : String) (nowR nowW : Int)
  | GetPricesFor (itemCodes : List String) (sched : List (Nat × Int)) (nowEnd : Int)

/-- The cache after a call. -/
def Call.exec (c : TransparentCache) : Call → TransparentCache
  | .Write k v now => Sample1.Write c k v now
  | .Read k now => (Sample1.Read c k now).2
  | .GetPriceFor itemCode nowR nowW => (Sample1.GetPriceFor c itemCode nowR nowW).2
  | .GetPricesFor itemCodes sched nowEnd => (Sample1.GetPricesFor c itemCodes sched nowEnd).2

/-- The cache after a sequence of calls. -/
def runCalls (c : TransparentCache) (calls : List Call) : TransparentCache :=
  calls.foldl Call.exec c

/-- The clock readings of a call, in the order they are taken. -/
def Call.clock : Call → List Int
  | .Write _ _ now => [now]
  | .Read _ now => [now]
  | .GetPriceFor _ nowR nowW => [nowR, nowW]
  | .GetPricesFor itemCodes sched nowEnd =>
    (GetPricesFor.steps itemCodes sched nowEnd).map Prod.snd

/-- Whether a call may store a price for `k`. -/
def Call.mayWrite (k : String) : Call → Bool
  | .Write j _ _ => j == k
  | .Read _ _ => false
  | .GetPriceFor itemCode _ _ => itemCode == k
  | .GetPricesFor itemCodes _ _ => itemCodes.contains k

/-- What is observed of the cache: a price stored by `Write` at an instant, a price
returned with `found = true` by `Read` at an instant, a price returned with a `nil` error by
`GetPriceFor` at an instant (the last clock reading of the call). -/
inductive Event where
  | wrote (k : String) (v : Float) (t : Int)
  | found (k : String) (v : Float) (t : Int)
  | got (k : String) (v : Float) (t : Int)

/-- The events of a `Read`. -/
def Read.events (c : TransparentCache) (k : String) (now : Int) : List Event :=
  match Read c k now with
  | ((price, true), _) => [.found k price now]
  | ((_, false), _) => []

/-- The events of a `GetPriceFor`. -/
def GetPriceFor.events (c : TransparentCache) (itemCode : String) (nowR nowW : Int) :
    List Event :=
  match Read c itemCode nowR with
  | ((price, true), _) => [.found itemCode price nowR, .got itemCode price nowR]
  | ((_, false), c1) =>
    match c1.actualPriceService.GetPriceFor itemCode with
    | ((_, some _), _) => []
    | ((price, none), _) => [.wrote itemCode price nowW, .got itemCode price nowW]

/-- The events of one step of a goroutine of `GetPricesFor`. -/
def Group.stepEvents (g : Group) (i : Nat) (now : Int) : List Event :=
  match g.tasks[i]? with
  | some (.reading k) =>
    match Read g.cache k now with
    | ((price, true), _) => [.found k price now, .got k price now]
    | ((_, false), _) => []
  | some (.writing k price) => [.wrote k price now, .got k price now]
  | _ => []

/-- The events of a schedule. -/
def Group.runEvents (g : Group) : List (Nat × Int) → List Event
  | [] => []
  | s :: steps => g.stepEvents s.1 s.2 ++ (g.step s.1 s.2).runEvents steps

/-- The events of a call. -/
def Call.events (c : TransparentCache) : Call → List Event
  | .Write k v now => [.wrote k v now]
  | .Read k now => Read.events c k now
  | .GetPriceFor itemCode nowR nowW => GetPriceFor.events c itemCode nowR nowW
  | .GetPricesFor itemCodes sched nowEnd =>
    (Group.start c itemCodes).runEvents (GetPricesFor.steps itemCodes sched nowEnd)

/-- The events of a sequence of calls, oldest first. -/
def history (c : TransparentCache) : List Call → List Event
  | [] => []
  | call :: calls => call.events c ++ history (call.exec c) calls

/-- An event that returns a price is justified by the events before it when a `Write` of
that price to that key is among them, at an instant `t` with `t ≤ t' ≤ t + maxAge`, `t'`
being the instant of the event. -/
def Event.justified (maxAge : Int) (before : List Event) : Event → Prop
  | .wrote _ _ _ => True
  | .found k v t' => ∃ t, Event.wrote k v t ∈ before ∧ t ≤ t' ∧ t' ≤ t + maxAge
  | .got k v t' => ∃ t, Event.wrote k v t ∈ before ∧ t ≤ t' ∧ t' ≤ t + maxAge

/-- Every event of `evs` is justified by the events before it, `before` coming first. -/
def allJustified (maxAge : Int) : List Event → List Event → Prop
  | _, [] => True
  | before, e :: evs => e.justified maxAge before ∧ allJustified maxAge (before ++ [e]) evs

/-- Every entry of the map was stored by a `Write` of the events `log`, at an instant `t`
that gives its expiration and that no clock reading to come (`fut`) precedes. -/
def Backed (maxAge : Int) (c : TransparentCache) (log : List Event) (fut : List Int) : Prop :=
  c.maxAge = maxAge ∧
  ∀ k d, c.prices k = some d →
    ∃ t, Event.wrote k d.Value t ∈ log ∧ d.Expiration = t + maxAge ∧ ∀ u ∈ fut, t ≤ u

/-- Whether a call operates on `k`. -/
def Call.mentions (k : String) : Call → Bool
  | .Write j _ _ => j == k
  | .Read j _ => j == k
  | .GetPriceFor itemCode _ _ => itemCode == k
  | .GetPricesFor itemCodes _ _ => itemCodes.contains k

/-- The goroutines of `GetPricesFor`, and what they share, when `g.Wait()` returns. -/
def GetPricesFor.group (c : TransparentCache) (itemCodes : List String)
    (sched : List (Nat × Int)) (nowEnd : Int) : Group :=
  (Group.start c itemCodes).run (GetPricesFor.steps itemCodes sched nowEnd)

/-- The error with which the `GetPriceFor` of goroutine `i` returns in the step that the
goroutine takes next, when that step is its call of the service and the service fails
(`GetPriceFor` then returns at once): the position and the error. -/
def Group.stepFailure (g : Group) (i : Nat) : Option (Nat × String) :=
  match g.tasks[i]? with
  | some (.fetching k) =>
    match g.cache.actualPriceService.respond g.cache.actualPriceService.asked k with
    | (_, some err) => some (i, "getting price from service : " ++ err)
    | (_, none) => none
  | _ => none

/-- The goroutines whose `GetPriceFor` returns an error along a schedule, because their
call of the service failed, in the order they return: the position and the error. -/
def Group.failures (g : Group) : List (Nat × Int) → List (Nat × String)
  | [] => []
  | s :: steps => (g.stepFailure s.1).toList ++ (g.step s.1 s.2).failures steps

/-- The calls `GetPriceFor(k)` for the keys of a list, one after the other at the clock
reading `now`: what each returns, and the cache after the last. -/
def GetPriceFor.each (c : TransparentCache) (now : Int) :
    List String → List (Float × Option String) × TransparentCache
  | [] => ([], c)
  | k :: ks =>
    ((Sample1.GetPriceFor c k now now).1 ::
        (GetPriceFor.each (Sample1.GetPriceFor c k now now).2 now ks).1,
      (GetPriceFor.each (Sample1.GetPriceFor c k now now).2 now ks).2)

/-- The state of a batch started on `c` in which position `i` asks for a key `k` that has
no entry and for which the service fails: `k` still has no entry, the service answers as it
does in `c`, no goroutine is about to write `k`, and the goroutine of position `i` is about
to read or to fetch `k`, or has finished with an error. -/
def Group.Failing (c : TransparentCache) (k : String) (i : Nat) (g : Group) : Prop :=
  g.cache.prices k = none ∧
  g.cache.actualPriceService.respond = c.actualPriceService.respond ∧
  (∀ t ∈ g.tasks, ∀ p, t ≠ Task.writing k p) ∧
  (g.tasks[i]? = some (Task.reading k) ∨ g.tasks[i]? = some (Task.fetching k) ∨
    ∃ p e, g.tasks[i]? = some (Task.finished p (some e)))

/-- How many steps a goroutine still has to take at most. -/
def Task.rank : Task → Nat
  | .reading _ => 3
  | .fetching _ => 2
  | .writing _ _ => 1
  | .finished _ _ => 0

/-- What the goroutines share agrees with how they finished: a goroutine that finished
without error has stored its price at its position of `results`, and the error kept by the
`errgroup` is the error of a goroutine, kept as soon as one has failed. -/
def Group.Sound (g : Group) : Prop :=
  g.results.length = g.tasks.length ∧
  (∀ (i : Nat) p, g.tasks[i]? = some (Task.finished p none) → g.results[i]? = some p) ∧
  (∀ e, g.err = some e →
    ∃ (i : Nat) (p : Float), g.tasks[i]? = some (Task.finished p (some e))) ∧
  (∀ (i : Nat) p e, g.tasks[i]? = some (Task.finished p (some e)) → g.err ≠ none)

/-- Whether `k` has no entry in `c`, or one that has expired at `now`. -/
def staleAt (c : TransparentCache) (now : Int) (k : String) : Bool :=
  match c.prices k with
  | some d => decide (now > d.Expiration)
  | none => true

/-- The price that position `k` of a batch gets when the service is the function `f` of
the key: the cached value if `k` is fresh in `c` at `now`, otherwise the price of `f`. -/
def expectedPrice (c : TransparentCache) (f : String → Float × Option String) (now : Int)
    (k : String) : Float :=
  match c.prices k with
  | some d => if now > d.Expiration then (f k).1 else d.Value
  | none => (f k).1

/-- A goroutine for the key `k` is where it can be when the service is `f`: it fetches or
writes only if `k` was stale in `c`, it writes the price of `f`, and it finishes without
error only with the expected price. -/
def Task.okFor (c : TransparentCache) (f : String → Float × Option String) (now : Int)
    (k : String) : Task → Prop
  | .reading j => j = k
  | .fetching j => j = k ∧ staleAt c now k = true
  | .writing j p => j = k ∧ p = (f k).1 ∧ staleAt c now k = true
  | .finished p none => p = expectedPrice c f now k
  | .finished _ (some _) => True

/-- The state of a batch started on `c` for `keys`, when the service is the function `f` of
the key: an entry of a requested key is the one of `c`, or `k` was stale in `c` and the entry
is gone or holds the price of `f`; and every goroutine is where it can be. -/
def Group.Det (c : TransparentCache) (f : String → Float × Option String) (now : Int)
    (keys : List String) (g : Group) : Prop :=
  (∀ asked k, g.cache.actualPriceService.respond asked k = f k) ∧
  (∀ k ∈ keys, g.cache.prices k = c.prices k ∨
    (staleAt c now k = true ∧
      (g.cache.prices k = none ∨ ∃ d, g.cache.prices k = some d ∧ d.Value = (f k).1))) ∧
  (∀ (i : Nat) t, g.tasks[i]? = some t → ∃ k, keys[i]? = some k ∧ t.okFor c f now k)

/-- Whether the text `part` occurs in the text `s`. -/
def containsText (s part : String) : Bool :=
  s.data.tails.any fun t => part.data.isPrefixOf t

/-- A goroutine for the key `k` works on `k`, and if it finished with an error, it returns
0 with what `GetPriceFor` makes of an error that the service gave for `k`. -/
def Task.fromKey (svc : PriceService) (k : String) : Task → Prop
  | .reading j => j = k
  | .fetching j => j = k
  | .writing j _ => j = k
  | .finished _ none => True
  | .finished p (some e) =>
    p = 0 ∧ ∃ asked x msg, svc.respond asked k = (x, some msg) ∧
      e = "getting price from service : " ++ msg

/-- In a batch started on `c` for `keys`, the service answers as it does in `c` and the
goroutine of each position works on the key of that position. -/
def Group.Prov (c : TransparentCache) (keys : List String) (g : Group) : Prop :=
  g.cache.actualPriceService.respond = c.actualPriceService.respond ∧
  ∀ (i : Nat) t, g.tasks[i]? = some t →
    ∃ k, keys[i]? = some k ∧ t.fromKey c.actualPriceService k

/-- The last `Write` to `k` among the events: its price and its instant. -/
def lastWrite (k : String) : List Event → Option (Float × Int)
  | [] => none
  | e :: evs =>
    match lastWrite k evs with
    | some w => some w
    | none =>
      match e with
      | .wrote j v t => if j = k then some (v, t) else none
      | _ => none

/-- A property `I` of the cache, of the events so far and of the clock readings to come
is kept by everything the methods are made of: the passing of time, a `Read` that finds a
price (with its event), the return of a price, the effect of a `Read` on the map, a call of
the service, and a `Write` at a reading that is in relation `R` to the readings after it. -/
structure Preserved (R : Int → Int → Prop)
    (I : TransparentCache → List Event → List Int → Prop) : Prop where
  tick : ∀ c log now fut, I c log (now :: fut) → I c log fut
  hit : ∀ c log now fut k v, I c log (now :: fut) → (Read c k now).1 = (v, true) →
    I c (log ++ [Event.found k v now]) (now :: fut)
  got : ∀ c log fut k v t, I c log fut → I c (log ++ [Event.got k v t]) fut
  miss : ∀ c log now fut k, I c log (now :: fut) → I (Read c k now).2 log (now :: fut)
  asked : ∀ c log fut s, I c log fut → I { c with actualPriceService := s } log fut
  write : ∀ c log now fut k v, I c log (now :: fut) → (∀ u ∈ fut, R now u) →
    I (Write c k v now) (log ++ [Event.wrote k v now]) (now :: fut)

/-- The entry of `k` is gone, or it is what the last `Write` to `k` among the events
stored, or, when there is no such `Write`, it is the entry `before`. -/
def Latest (maxAge : Int) (k : String) (before : Option Data) (c : TransparentCache)
    (log : List Event) : Prop :=
  c.maxAge = maxAge ∧
  (c.prices k = none ∨
    match lastWrite k log with
    | some (v, t) => c.prices k = some { Value := v, Expiration := t + maxAge }
    | none => c.prices k = before)

/-- With a negative `maxAge`: every entry was written at an instant (its expiration less
`maxAge`) that no clock reading to come precedes, and no `Read` has found a price. -/
def NeverFound (maxAge : Int) (c : TransparentCache) (log : List Event) (fut : List Int) :
    Prop :=
  c.maxAge = maxAge ∧
  (∀ k d, c.prices k = some d → ∀ u ∈ fut, d.Expiration - maxAge ≤ u) ∧
  (∀ k v t, Event.found k v t ∉ log)

/-- A goroutine of a race for `k` whose fetches return `p1` or `p2`: it works on `k`, writes
`p1` or `p2`, and finishes without error with `p1` or `p2`. -/
def Task.racing (k : String) (p1 p2 : Float) : Task → Prop
  | .reading j => j = k
  | .fetching j => j = k
  | .writing j p => j = k ∧ (p = p1 ∨ p = p2)
  | .finished p none => p = p1 ∨ p = p2
  | .finished _ (some _) => False

/-- The cache `c1` holds for `k` an entry with the price `p1` or `p2`, written at one of the
clock `readings`, in a race started on `c`. -/
def wonBy (c : TransparentCache) (k : String) (p1 p2 : Float) (readings : List Int)
    (c1 : TransparentCache) : Prop :=
  ∃ d w, c1.prices k = some d ∧ (d.Value = p1 ∨ d.Value = p2) ∧ w ∈ readings ∧
    d.Expiration = w + c.maxAge

/-- The state of a race for `k` started on `c`: the entry of `k` is the one of `c`, or is
gone, or was written in the race; the goroutines are racing; and as long as no entry
written in the race is in the map, some goroutine has not finished. -/
def Group.Race (c : TransparentCache) (k : String) (p1 p2 : Float) (readings : List Int)
    (g : Group) : Prop :=
  g.cache.maxAge = c.maxAge ∧
  g.cache.actualPriceService.respond = c.actualPriceService.respond ∧
  (g.cache.prices k = c.prices k ∨ g.cache.prices k = none ∨
    wonBy c k p1 p2 readings g.cache) ∧
  (∀ t ∈ g.tasks, t.racing k p1 p2) ∧
  (wonBy c k p1 p2 readings g.cache ∨ ∃ t ∈ g.tasks, ∀ p e, t ≠ Task.finished p e)

/-- A service that answers 12.0 the first time it is asked and 13.0 afterwards. -/
def twoPriceService : PriceService :=
  { respond := fun asked _ => if asked.length = 0 then (12.0, none) else (13.0, none),
    asked := [] }

/-! ## The expiration as the machine holds it

`Data.Expiration` is an `int64`, and so is the `time.Duration` `maxAge`.  In
`time.Now().Add(c.maxAge).UnixNano()` the instant `time.Now().Add(c.maxAge)` is exact (a
`time.Time` counts seconds in an `int64` of its own, which a sum of two nanosecond counts
cannot exceed), and `UnixNano()` returns its nanoseconds since 1970, `sec*1e9 + nsec`,
computed in `int64`: the exact count when an `int64` can hold it, wrapped around when not. -/

/-- The `int64` that two's complement arithmetic leaves for the exact result `x`. -/
def int64 (x : Int) : Int :=
  (x + 9223372036854775808) % 18446744073709551616 - 9223372036854775808

/-- The constant `math.MaxInt64`, the largest `time.Duration`. -/
def MaxInt64 : Int := 9223372036854775807

/-- The method `Write` with the expiration as it is stored,
`time.Now().Add(c.maxAge).UnixNano()`; `now` is the reading of `time.Now()`. -/
def Machine.Write (c : TransparentCache) (k : String) (v : Float) (now : Int) :
    TransparentCache :=
  { c with prices :=
      Function.update c.prices k (some { Value := v, Expiration := int64 (now + c.maxAge) }) }

/-- The method `GetPriceFor` with the `Write` of the machine. -/
def Machine.GetPriceFor (c : TransparentCache) (itemCode : String) (nowR nowW : Int) :
    (Float × Option String) × TransparentCache :=
  match Read c itemCode nowR with
  | ((price, true), c1) => ((price, none), c1)
  | ((_, false), c1) =>
    match c1.actualPriceService.GetPriceFor itemCode with
    | ((_, some err), svc) =>
      ((0, some ("getting price from service : " ++ err)), { c1 with actualPriceService := svc })
    | ((price, none), svc) =>
      ((price, none), Machine.Write { c1 with actualPriceService := svc } itemCode price nowW)

/-! ## `GetPriceFor` statement by statement, with the mutex

For calls that run at the same time, finer than the steps of `Group`: a caller stands
before one of the statements of `Read` and `Write` that touch `mx`, the map or the clock.
`mx` is held shared by the callers that stand between `RLock` and `RUnlock`, exclusively by
the caller that stands between `Lock` and `Unlock`; `RLock` waits while it is held
exclusively, `Lock` waits while it is held at all.  A step of a caller that waits changes
nothing.

`mx` orders an access to the map made under `Lock` with every other access, and leaves two
accesses made under `RLock` unordered.  When one of two such accesses is the `delete` of
`Read`, they are a data race: Go defines no outcome for it, and its runtime stops the
process when it detects one (`fatal error: concurrent map read and map write`,
`fatal error: concurrent map writes`).  The run then ends where it is, with `raced` set. -/

/-- Where a caller of `GetPriceFor` stands. -/
inductive Pc where
  | start (k : String)
  | rlocked (k : String)
  | looked (k : String) (data : Option Data)
  | expired (k : String)
  | deleted (k : String)
  | fresh (v : Float)
  | fetching (k : String)
  | writing (k : String) (p : Float)
  | wlocked (k : String) (p : Float)
  | stored (p : Float)
  | finished (p : Float) (err : Option String)

/-- The caller is between `c.mx.RLock()` and `c.mx.RUnlock()`. -/
def Pc.holdsShared : Pc → Bool
  | .rlocked _ => true
  | .looked _ _ => true
  | .expired _ => true
  | .deleted _ => true
  | .fresh _ => true
  | _ => false

/-- The caller is between `c.mx.Lock()` and `c.mx.Unlock()`. -/
def Pc.holdsExclusive : Pc → Bool
  | .wlocked _ _ => true
  | .stored _ => true
  | _ => false

/-- The caller has run `delete(c.prices, k)` and not yet `c.mx.RUnlock()`. -/
def Pc.hasDeleted : Pc → Bool
  | .deleted _ => true
  | _ => false

/-- The cache and the callers that run at the same time; `raced` is set when a data race on
the map has ended the run. -/
structure Fine where
  cache : TransparentCache
  pcs : List Pc
  raced : Bool

/-- The next statement of caller `i`, at clock reading `now`:
`start`: `c.mx.RLock()`; `rlocked`: `data, found := c.prices[k]`;
`looked`: `if !found` (then `RUnlock` and `return 0, false`), else the test
`time.Now().UnixNano() > data.Expiration`; `expired`: `delete(c.prices, k)`;
`deleted`: `RUnlock` and `return 0, false`; `fresh`: `RUnlock` and `return data.Value, true`;
`fetching`: the call of the service; `writing`: `c.mx.Lock()`; `wlocked`: the assignment
to `c.prices[k]`; `stored`: `Unlock` and `return price, nil`.

The lookup is a data race when another caller has deleted and still holds `mx` shared; the
`delete` is one when another caller holds `mx` shared (its lookup is done or still to
come). -/
def Fine.step (f : Fine) (i : Nat) (now : Int) : Fine :=
  if f.raced then f
  else
    match f.pcs[i]? with
    | none => f
    | some (.start k) =>
      if f.pcs.any Pc.holdsExclusive then f
      else { f with pcs := f.pcs.set i (.rlocked k) }
    | some (.rlocked k) =>
      if (f.pcs.eraseIdx i).any Pc.hasDeleted then { f with raced := true }
      else { f with pcs := f.pcs.set i (.looked k (f.cache.prices k)) }
    | some (.looked k none) => { f with pcs := f.pcs.set i (.fetching k) }
    | some (.looked k (some data)) =>
      if now > data.Expiration then { f with pcs := f.pcs.set i (.expired k) }
      else { f with pcs := f.pcs.set i (.fresh data.Value) }
    | some (.expired k) =>
      if (f.pcs.eraseIdx i).any Pc.holdsShared then { f with raced := true }
      else
        { f with cache := { f.cache with prices := Function.update f.cache.prices k none },
                 pcs := f.pcs.set i (.deleted k) }
    | some (.deleted k) => { f with pcs := f.pcs.set i (.fetching k) }
    | some (.fresh v) => { f with pcs := f.pcs.set i (.finished v none) }
    | some (.fetching k) =>
      match f.cache.actualPriceService.GetPriceFor k with
      | ((_, some err), svc) =>
        { f with cache := { f.cache with actualPriceService := svc },
                 pcs := f.pcs.set i
                   (.finished 0 (some ("getting price from service : " ++ err))) }
      | ((price, none), svc) =>
        { f with cache := { f.cache with actualPriceService := svc },
                 pcs := f.pcs.set i (.writing k price) }
    | some (.writing k p) =>
      if f.pcs.any (fun t => t.holdsShared || t.holdsExclusive) then f
      else { f with pcs := f.pcs.set i (.wlocked k p) }
    | some (.wlocked k p) =>
      { f with cache := Machine.Write f.cache k p now, pcs := f.pcs.set i (.stored p) }
    | some (.stored p) => { f with pcs := f.pcs.set i (.finished p none) }
    | some (.finished _ _) => f

/-- The steps of a schedule, one after the other. -/
def Fine.run (f : Fine) (steps : List (Nat × Int)) : Fine :=
  steps.foldl (fun f s => f.step s.1 s.2) f

/-- Callers of `GetPriceFor`, one for each key, about to start. -/
def Fine.start (c : TransparentCache) (keys : List String) : Fine :=
  { cache := c, pcs := keys.map Pc.start, raced := false }

/-! ## Caches used in examples -/

/-- A service that always fails with the message `down`. -/
def downService : PriceService :=
  { respond := fun _ _ => (0, some "down"), asked := [] }

/-- A service that fails with the message `down` for the key `B` and answers 12.0 for
every other key. -/
def downForB : PriceService :=
  { respond := fun _ k => if k = "B" then (0, some "down") else (12.0, none), asked := [] }

/-- A service that always answers the price `p`. -/
def fixedService (p : Float) : PriceService :=
  { respond := fun _ _ => (p, none), asked := [] }

/-- A cache whose only entry, for `A`, expires at instant 1. -/
def staleCache : TransparentCache :=
  { actualPriceService := downService, maxAge := 1,
    prices := fun j => if j = "A" then some { Value := 10.0, Expiration := 1 } else none }

/-- The scenario of the specification: `maxAge` is one second, the service answers 12.0,
and `Write("A", 10.0)` happens at instant 0. -/
def scenarioCache : TransparentCache :=
  Write (NewTransparentCache (fixedService 12.0) 1000000000) "A" 10.0 0

/-- A new cache with the largest `maxAge` there is, `time.Duration(math.MaxInt64)`, on the
service that answers 12.0 first and 13.0 afterwards. -/
def maxAgeCache : TransparentCache :=
  NewTransparentCache twoPriceService MaxInt64

/-- A clock reading: 10 November 2009, 23:00:07.50100003 UTC. -/
def clock2009 : Int := 1257894007501000030

/-- The scenario of the specification on the machine, with the service that answers 12.0
first and 13.0 afterwards: `maxAge` is one second and `Write("A", 10.0)` happens at instant
0, so that the entry of `A` expires at 1 s. -/
def raceCache : TransparentCache :=
  Machine.Write (NewTransparentCache twoPriceService 1000000000) "A" 10.0 0

/-! ## Basic facts about `Read` and `Write` -/

@[simp] theorem Read_maxAge (c : TransparentCache) (k : String) (now : Int) :
    (Read c k now).2.maxAge = c.maxAge := by
  unfold Read; split
  · rfl
  · split <;> rfl

@[simp] theorem Read_service (c : TransparentCache) (k : String) (now : Int) :
    (Read c k now).2.actualPriceService = c.actualPriceService := by
  unfold Read; split
  · rfl
  · split <;> rfl

@[simp] theorem Write_maxAge (c : TransparentCache) (k : String) (v : Float) (now : Int) :
    (Write c k v now).maxAge = c.maxAge := rfl

@[simp] theorem Write_service (c : TransparentCache) (k : String) (v : Float) (now : Int) :
    (Write c k v now).actualPriceService = c.actualPriceService := rfl

@[simp] theorem Write_prices_same (c : TransparentCache) (k : String) (v : Float) (now : Int) :
    (Write c k v now).prices k = some { Value := v, Expiration := now + c.maxAge } := by
  simp [Write]

theorem Write_prices_other (c : TransparentCache) (k j : String) (v : Float) (now : Int)
    (h : j ≠ k) : (Write c k v now).prices j = c.prices j := by
  simp [Write, Function.update_noteq h]

theorem Read_absent (c : TransparentCache) (k : String) (now : Int) (h : c.prices k = none) :
    Read c k now = ((0, false), c) := by
  simp [Read, h]

theorem Read_expired (c : TransparentCache) (k : String) (now : Int) (d : Data)
    (h : c.prices k = some d) (hexp : now > d.Expiration) :
    Read c k now = ((0, false), { c with prices := Function.update c.prices k none }) := by
  simp [Read, h, hexp]

theorem Read_fresh (c : TransparentCache) (k : String) (now : Int) (d : Data)
    (h : c.prices k = some d) (hfresh : ¬ now > d.Expiration) :
    Read c k now = ((d.Value, true), c) := by
  simp only [Read, h, hfresh, if_false]

theorem Read_prices_other (c : TransparentCache) (k j : String) (now : Int) (h : j ≠ k) :
    (Read c k now).2.prices j = c.prices j := by
  unfold Read; split
  · rfl
  · split
    · simp [Function.update_noteq h]
    · rfl

/-- The entry of a key after a `Read` of any key is the entry before, or is gone. -/
theorem Read_prices_cases (c : TransparentCache) (k j : String) (now : Int) :
    (Read c k now).2.prices j = c.prices j ∨ (Read c k now).2.prices j = none := by
  by_cases h : j = k
  · subst h
    unfold Read; split
    · exact Or.inl rfl
    · split
      · right; simp
      · exact Or.inl rfl
  · exact Or.inl (Read_prices_other c k j now h)

/-- A `Read` that finds a price leaves the cache as it is, and the price is that of an
entry that has not expired. -/
theorem Read_found (c : TransparentCache) (k : String) (now : Int) (v : Float)
    (h : (Read c k now).1 = (v, true)) :
    Read c k now = ((v, true), c) ∧
      ∃ d, c.prices k = some d ∧ d.Value = v ∧ ¬ now > d.Expiration := by
  cases hk : c.prices k with
  | none => rw [Read_absent c k now hk] at h; simp at h
  | some d =>
    by_cases hexp : now > d.Expiration
    · rw [Read_expired c k now d hk hexp] at h; simp at h
    · rw [Read_fresh c k now d hk hexp] at h ⊢
      simp only [Prod.mk.injEq, and_true] at h
      subst h
      exact ⟨rfl, d, rfl, rfl, hexp⟩

/-- A `Read` that finds nothing leaves no entry for the key and touches no other key. -/
theorem Read_not_found (c : TransparentCache) (k : String) (now : Int) (v : Float)
    (h : (Read c k now).1 = (v, false)) :
    (Read c k now).2.prices k = none ∧
      (c.prices k = none ∨ ∃ d, c.prices k = some d ∧ now > d.Expiration) := by
  cases hk : c.prices k with
  | none => rw [Read_absent c k now hk]; exact ⟨hk, Or.inl rfl⟩
  | some d =>
    by_cases hexp : now > d.Expiration
    · rw [Read_expired c k now d hk hexp]; exact ⟨by simp, Or.inr ⟨d, rfl, hexp⟩⟩
    · rw [Read_fresh c k now d hk hexp] at h; simp at h

/-! ## Basic facts about `GetPriceFor` -/

/-- `GetPriceFor` after a `Read` that found a price. -/
theorem GetPriceFor_of_hit (c : TransparentCache) (k : String) (nowR nowW : Int) (v : Float)
    (h : (Read c k nowR).1 = (v, true)) : GetPriceFor c k nowR nowW = ((v, none), c) := by
  have hr := (Read_found c k nowR v h).1
  simp [GetPriceFor, hr]

/-- The `Read` of `GetPriceFor` misses exactly when the key is absent or expired. -/
theorem Read_of_miss (c : TransparentCache) (k : String) (now : Int)
    (hmiss : c.prices k = none ∨ ∃ d, c.prices k = some d ∧ now > d.Expiration) :
    Read c k now = ((0, false), { c with prices := Function.update c.prices k none }) := by
  rcases hmiss with h | ⟨d, hd, hexp⟩
  · rw [Read_absent c k now h]
    have : Function.update c.prices k none = c.prices := by
      rw [← h]; exact Function.update_eq_self k c.prices
    rw [this]
  · exact Read_expired c k now d hd hexp

/-- The two outcomes of `GetPriceFor` after a `Read` that missed. -/
theorem GetPriceFor_of_miss (c : TransparentCache) (k : String) (nowR nowW : Int)
    (hmiss : c.prices k = none ∨ ∃ d, c.prices k = some d ∧ nowR > d.Expiration) :
    (∀ x err, c.actualPriceService.respond c.actualPriceService.asked k = (x, some err) →
      GetPriceFor c k nowR nowW =
        ((0, some ("getting price from service : " ++ err)),
          { c with prices := Function.update c.prices k none,
                   actualPriceService :=
                     { c.actualPriceService with asked := c.actualPriceService.asked ++ [k] } })) ∧
    (∀ p, c.actualPriceService.respond c.actualPriceService.asked k = (p, none) →
      GetPriceFor c k nowR nowW =
        ((p, none),
          Write { c with prices := Function.update c.prices k none,
                         actualPriceService :=
                           { c.actualPriceService with asked := c.actualPriceService.asked ++ [k] } }
            k p nowW)) := by
  have hr := Read_of_miss c k nowR hmiss
  constructor
  · intro x err hresp
    simp only [GetPriceFor, hr, PriceService.GetPriceFor, hresp]
  · intro p hresp
    simp only [GetPriceFor, hr, PriceService.GetPriceFor, hresp]

/-- An error of `GetPriceFor` means that its `Read` missed and the service failed. -/
theorem GetPriceFor_error (c : TransparentCache) (k : String) (nowR nowW : Int) (e : String)
    (h : (GetPriceFor c k nowR nowW).1.2 = some e) :
    (c.prices k = none ∨ ∃ d, c.prices k = some d ∧ nowR > d.Expiration) ∧
    (GetPriceFor c k nowR nowW).2 =
      { c with prices := Function.update c.prices k none,
               actualPriceService :=
                 { c.actualPriceService with asked := c.actualPriceService.asked ++ [k] } } := by
  have hmiss : c.prices k = none ∨ ∃ d, c.prices k = some d ∧ nowR > d.Expiration := by
    cases hk : c.prices k with
    | none => exact Or.inl rfl
    | some d =>
      by_cases hexp : nowR > d.Expiration
      · exact Or.inr ⟨d, rfl, hexp⟩
      · simp [GetPriceFor, Read_fresh c k nowR d hk hexp] at h
  refine ⟨hmiss, ?_⟩
  rcases hresp : c.actualPriceService.respond c.actualPriceService.asked k with ⟨x, _ | err⟩
  · rw [(GetPriceFor_of_miss c k nowR nowW hmiss).2 x hresp] at h
    simp at h
  · rw [(GetPriceFor_of_miss c k nowR nowW hmiss).1 x err hresp]

theorem scenario_read_fresh :
    Read scenarioCache "A" 500000000 = ((10.0, true), scenarioCache) := by
  apply Read_fresh scenarioCache "A" 500000000 { Value := 10.0, Expiration := 1000000000 }
  · simp [scenarioCache, Write, NewTransparentCache]
  · decide

theorem scenario_read_expired :
    (Read scenarioCache "A" 1500000000).1 = (0, false) ∧
    (Read scenarioCache "A" 1500000000).2.prices "A" = none ∧
    (Read scenarioCache "A" 1500000000).2.maxAge = 1000000000 ∧
    (Read scenarioCache "A" 1500000000).2.actualPriceService = fixedService 12.0 := by
  rw [Read_expired scenarioCache "A" 1500000000 { Value := 10.0, Expiration := 1000000000 }
    (by simp [scenarioCache, Write, NewTransparentCache]) (by decide)]
  simp [scenarioCache, Write, NewTransparentCache]

theorem staleCache_error :
    GetPriceFor staleCache "A" 2 2 =
      ((0, some "getting price from service : down"),
        { staleCache with
            prices := Function.update staleCache.prices "A" none,
            actualPriceService := { downService with asked := ["A"] } }) := by
  have hmiss : staleCache.prices "A" = none ∨
      ∃ d, staleCache.prices "A" = some d ∧ (2 : Int) > d.Expiration :=
    Or.inr ⟨{ Value := 10.0, Expiration := 1 }, by simp [staleCache], by decide⟩
  rw [(GetPriceFor_of_miss staleCache "A" 2 2 hmiss).1 0 "down" rfl]
  rfl

/-! ## The steps of a goroutine -/

/-- A step of a goroutine is one of six things: nothing (no such goroutine, or it has
finished), a `Read` that finds a price, a `Read` that misses, a call of the service that
fails, a call of the service that succeeds, a `Write`. -/
theorem Group.step_cases (g : Group) (i : Nat) (now : Int) :
    (g.step i now = g ∧ g.stepEvents i now = [] ∧
      (g.tasks[i]? = none ∨ ∃ p e, g.tasks[i]? = some (.finished p e))) ∨
    (∃ k v, g.tasks[i]? = some (.reading k) ∧ (Read g.cache k now).1 = (v, true) ∧
      g.step i now = { g with tasks := g.tasks.set i (.finished v none),
                              results := g.results.set i v } ∧
      g.stepEvents i now = [.found k v now, .got k v now]) ∨
    (∃ k v, g.tasks[i]? = some (.reading k) ∧ (Read g.cache k now).1 = (v, false) ∧
      g.step i now = { g with cache := (Read g.cache k now).2,
                              tasks := g.tasks.set i (.fetching k) } ∧
      g.stepEvents i now = []) ∨
    (∃ k x err, g.tasks[i]? = some (.fetching k) ∧
      g.cache.actualPriceService.respond g.cache.actualPriceService.asked k = (x, some err) ∧
      g.step i now =
        { g with cache := { g.cache with actualPriceService :=
                   { g.cache.actualPriceService with
                       asked := g.cache.actualPriceService.asked ++ [k] } },
                 tasks := g.tasks.set i
                   (.finished 0 (some ("getting price from service : " ++ err))),
                 err := firstError g.err ("getting price from service : " ++ err) } ∧
      g.stepEvents i now = []) ∨
    (∃ k p, g.tasks[i]? = some (.fetching k) ∧
      g.cache.actualPriceService.respond g.cache.actualPriceService.asked k = (p, none) ∧
      g.step i now =
        { g with cache := { g.cache with actualPriceService :=
                   { g.cache.actualPriceService with
                       asked := g.cache.actualPriceService.asked ++ [k] } },
                 tasks := g.tasks.set i (.writing k p) } ∧
      g.stepEvents i now = []) ∨
    (∃ k p, g.tasks[i]? = some (.writing k p) ∧
      g.step i now = { g with cache := Write g.cache k p now,
                              tasks := g.tasks.set i (.finished p none),
                              results := g.results.set i p } ∧
      g.stepEvents i now = [.wrote k p now, .got k p now]) := by
  cases ht : g.tasks[i]? with
  | none => exact Or.inl ⟨by simp [Group.step, ht], by simp [Group.stepEvents, ht], Or.inl rfl⟩
  | some task =>
    cases task with
    | reading k =>
      rcases hR : Read g.cache k now with ⟨⟨v, found⟩, c1⟩
      cases found with
      | true =>
        have hc := (Read_found g.cache k now v (by rw [hR])).1
        rw [hR] at hc
        have hc1 : c1 = g.cache := by injection hc
        subst hc1
        exact Or.inr (Or.inl ⟨k, v, rfl, by rw [hR], by simp [Group.step, ht, hR],
          by simp [Group.stepEvents, ht, hR]⟩)
      | false =>
        exact Or.inr (Or.inr (Or.inl ⟨k, v, rfl, by rw [hR], by simp [Group.step, ht, hR],
          by simp [Group.stepEvents, ht, hR]⟩))
    | fetching k =>
      rcases hresp : g.cache.actualPriceService.respond g.cache.actualPriceService.asked k
        with ⟨x, _ | err⟩
      · exact Or.inr (Or.inr (Or.inr (Or.inr (Or.inl ⟨k, x, rfl, hresp,
          by simp [Group.step, ht, PriceService.GetPriceFor, hresp],
          by simp [Group.stepEvents, ht]⟩))))
      · exact Or.inr (Or.inr (Or.inr (Or.inl ⟨k, x, err, rfl, hresp,
          by simp [Group.step, ht, PriceService.GetPriceFor, hresp],
          by simp [Group.stepEvents, ht]⟩)))
    | writing k p =>
      exact Or.inr (Or.inr (Or.inr (Or.inr (Or.inr ⟨k, p, rfl,
        by simp [Group.step, ht], by simp [Group.stepEvents, ht]⟩))))
    | finished p e =>
      exact Or.inl ⟨by simp [Group.step, ht], by simp [Group.stepEvents, ht],
        Or.inr ⟨p, e, rfl⟩⟩

theorem Group.run_nil (g : Group) : g.run [] = g := rfl

theorem Group.run_cons (g : Group) (s : Nat × Int) (steps : List (Nat × Int)) :
    g.run (s :: steps) = (g.step s.1 s.2).run steps := rfl

theorem forall_mem_set {α : Type} {P : α → Prop} {l : List α} (i : Nat) {a : α}
    (hl : ∀ x ∈ l, P x) (ha : P a) : ∀ x ∈ l.set i a, P x := by
  intro x hx
  rcases List.mem_or_eq_of_mem_set hx with h | h
  · exact hl x h
  · rw [h]; exact ha

/-- Three steps of a goroutine that nothing interrupts are one `GetPriceFor`: the same
cache afterwards, and the goroutine has finished with what `GetPriceFor` returns. -/
theorem Group.three_steps (g : Group) (i : Nat) (k : String) (nowR x nowW : Int)
    (ht : g.tasks[i]? = some (Task.reading k)) :
    (((g.step i nowR).step i x).step i nowW).cache = (GetPriceFor g.cache k nowR nowW).2 ∧
    (((g.step i nowR).step i x).step i nowW).tasks[i]? =
      some (Task.finished (GetPriceFor g.cache k nowR nowW).1.1
        (GetPriceFor g.cache k nowR nowW).1.2) := by
  have hi : i < g.tasks.length := by
    rcases List.getElem?_eq_some.1 ht with ⟨h, _⟩
    exact h
  rcases hR : Read g.cache k nowR with ⟨⟨v, found⟩, c1⟩
  cases found with
  | true =>
    have hc := (Read_found g.cache k nowR v (by rw [hR])).1
    rw [GetPriceFor_of_hit g.cache k nowR nowW v (by rw [hR])]
    simp [Group.step, ht, hc, hi]
  | false =>
    have hmiss := (Read_not_found g.cache k nowR v (by rw [hR])).2
    have hc1 : c1 = (Read g.cache k nowR).2 := by rw [hR]
    have hr := Read_of_miss g.cache k nowR hmiss
    rw [hr] at hc1
    subst hc1
    rcases hresp : g.cache.actualPriceService.respond g.cache.actualPriceService.asked k
      with ⟨p, _ | err⟩
    · rw [(GetPriceFor_of_miss g.cache k nowR nowW hmiss).2 p hresp]
      simp [Group.step, ht, hR, hi, PriceService.GetPriceFor, hresp]
    · rw [(GetPriceFor_of_miss g.cache k nowR nowW hmiss).1 p err hresp]
      simp [Group.step, ht, hR, hi, PriceService.GetPriceFor, hresp]

/-! ## An entry that is fresh, or a key that nobody asks for, during other calls -/

/-- While the entry of `k` has not expired, a step of a goroutine leaves it in place, and
no goroutine comes to fetch or store a price for `k`. -/
theorem Group.step_keeps_fresh (g : Group) (i : Nat) (now : Int) (k : String) (d : Data)
    (hk : g.cache.prices k = some d) (hnow : ¬ now > d.Expiration)
    (hT : ∀ task ∈ g.tasks, task ≠ Task.fetching k ∧ ∀ p, task ≠ Task.writing k p) :
    (g.step i now).cache.prices k = some d ∧
    ∀ task ∈ (g.step i now).tasks, task ≠ Task.fetching k ∧ ∀ p, task ≠ Task.writing k p := by
  rcases g.step_cases i now with ⟨h, _, _⟩ | ⟨j, v, _, _, h, _⟩ | ⟨j, v, _, hr, h, _⟩ |
    ⟨j, x, err, _, _, h, _⟩ | ⟨j, p, ht, _, h, _⟩ | ⟨j, p, ht, h, _⟩
  · rw [h]; exact ⟨hk, hT⟩
  · rw [h]; exact ⟨hk, forall_mem_set i hT ⟨by simp, by simp⟩⟩
  · have hj : j ≠ k := by
      rintro rfl
      rw [Read_fresh g.cache j now d hk hnow] at hr
      simp at hr
    rw [h]
    refine ⟨?_, forall_mem_set i hT ⟨?_, by simp⟩⟩
    · show (Read g.cache j now).2.prices k = some d
      rw [Read_prices_other g.cache j k now (Ne.symm hj)]; exact hk
    · intro hc; injection hc with hc; exact hj hc
  · rw [h]; exact ⟨hk, forall_mem_set i hT ⟨by simp, by simp⟩⟩
  · have hj : j ≠ k := by
      rintro rfl
      exact (hT _ (List.getElem?_mem ht)).1 rfl
    rw [h]
    refine ⟨hk, forall_mem_set i hT ⟨by simp, ?_⟩⟩
    intro q hc; injection hc with hc _; exact hj hc
  · have hj : j ≠ k := by
      rintro rfl
      exact (hT _ (List.getElem?_mem ht)).2 p rfl
    rw [h]
    refine ⟨?_, forall_mem_set i hT ⟨by simp, by simp⟩⟩
    show (Write g.cache j p now).prices k = some d
    rw [Write_prices_other g.cache j k p now (Ne.symm hj)]; exact hk

theorem Group.run_keeps_fresh (steps : List (Nat × Int)) (g : Group) (k : String) (d : Data)
    (hk : g.cache.prices k = some d) (hnow : ∀ s ∈ steps, ¬ s.2 > d.Expiration)
    (hT : ∀ task ∈ g.tasks, task ≠ Task.fetching k ∧ ∀ p, task ≠ Task.writing k p) :
    (g.run steps).cache.prices k = some d := by
  induction steps generalizing g with
  | nil => exact hk
  | cons s steps ih =>
    obtain ⟨h1, h2⟩ := g.step_keeps_fresh s.1 s.2 k d hk (hnow s (List.mem_cons_self _ _)) hT
    rw [Group.run_cons]
    exact ih (g.step s.1 s.2) h1 (fun s1 hs1 => hnow s1 (List.mem_cons_of_mem _ hs1)) h2

/-- While no goroutine works on `k`, a step leaves the entry of `k` as it is. -/
theorem Group.step_keeps_other (g : Group) (i : Nat) (now : Int) (k : String)
    (hT : ∀ task ∈ g.tasks,
      task ≠ Task.reading k ∧ task ≠ Task.fetching k ∧ ∀ p, task ≠ Task.writing k p) :
    (g.step i now).cache.prices k = g.cache.prices k ∧
    ∀ task ∈ (g.step i now).tasks,
      task ≠ Task.reading k ∧ task ≠ Task.fetching k ∧ ∀ p, task ≠ Task.writing k p := by
  rcases g.step_cases i now with ⟨h, _, _⟩ | ⟨j, v, _, _, h, _⟩ | ⟨j, v, ht, _, h, _⟩ |
    ⟨j, x, err, _, _, h, _⟩ | ⟨j, p, ht, _, h, _⟩ | ⟨j, p, ht, h, _⟩
  · rw [h]; exact ⟨rfl, hT⟩
  · rw [h]; exact ⟨rfl, forall_mem_set i hT ⟨by simp, by simp, by simp⟩⟩
  · have hj : j ≠ k := by
      rintro rfl
      exact (hT _ (List.getElem?_mem ht)).1 rfl
    rw [h]
    refine ⟨Read_prices_other g.cache j k now (Ne.symm hj),
      forall_mem_set i hT ⟨by simp, ?_, by simp⟩⟩
    intro hc; injection hc with hc; exact hj hc
  · rw [h]; exact ⟨rfl, forall_mem_set i hT ⟨by simp, by simp, by simp⟩⟩
  · have hj : j ≠ k := by
      rintro rfl
      exact (hT _ (List.getElem?_mem ht)).2.1 rfl
    rw [h]
    refine ⟨rfl, forall_mem_set i hT ⟨by simp, by simp, ?_⟩⟩
    intro q hc; injection hc with hc _; exact hj hc
  · have hj : j ≠ k := by
      rintro rfl
      exact (hT _ (List.getElem?_mem ht)).2.2 p rfl
    rw [h]
    exact ⟨Write_prices_other g.cache j k p now (Ne.symm hj),
      forall_mem_set i hT ⟨by simp, by simp, by simp⟩⟩

theorem Group.run_keeps_other (steps : List (Nat × Int)) (g : Group) (k : String)
    (hT : ∀ task ∈ g.tasks,
      task ≠ Task.reading k ∧ task ≠ Task.fetching k ∧ ∀ p, task ≠ Task.writing k p) :
    (g.run steps).cache.prices k = g.cache.prices k := by
  induction steps generalizing g with
  | nil => rfl
  | cons s steps ih =>
    obtain ⟨h1, h2⟩ := g.step_keeps_other s.1 s.2 k hT
    rw [Group.run_cons, ih (g.step s.1 s.2) h2, h1]

theorem GetPricesFor_cache (c : TransparentCache) (itemCodes : List String)
    (sched : List (Nat × Int)) (nowEnd : Int) :
    (GetPricesFor c itemCodes sched nowEnd).2 =
      ((Group.start c itemCodes).run (GetPricesFor.steps itemCodes sched nowEnd)).cache := by
  simp only [GetPricesFor]
  split <;> rfl

/-- A `GetPriceFor` for another key leaves the entry of `k` as it is. -/
theorem GetPriceFor_prices_other (c : TransparentCache) (j k : String) (nowR nowW : Int)
    (h : k ≠ j) : (GetPriceFor c j nowR nowW).2.prices k = c.prices k := by
  rcases hR : Read c j nowR with ⟨⟨v, found⟩, c1⟩
  cases found with
  | true => rw [GetPriceFor_of_hit c j nowR nowW v (by rw [hR])]
  | false =>
    have hmiss := (Read_not_found c j nowR v (by rw [hR])).2
    rcases hresp : c.actualPriceService.respond c.actualPriceService.asked j with ⟨x, _ | err⟩
    · rw [(GetPriceFor_of_miss c j nowR nowW hmiss).2 x hresp]
      simp [Write, Function.update_noteq h]
    · rw [(GetPriceFor_of_miss c j nowR nowW hmiss).1 x err hresp]
      simp [Function.update_noteq h]

/-- A call that is no `Write` to `k`, made while the entry of `k` has not expired, leaves
that entry in place. -/
theorem Call.exec_keeps_fresh (c : TransparentCache) (call : Call) (k : String) (d : Data)
    (hk : c.prices k = some d) (hw : ∀ v0 now, call ≠ Call.Write k v0 now)
    (hnow : ∀ u ∈ call.clock, ¬ u > d.Expiration) :
    (call.exec c).prices k = some d := by
  cases call with
  | Write j v0 now =>
    have hj : k ≠ j := by rintro rfl; exact hw v0 now rfl
    show (Sample1.Write c j v0 now).prices k = some d
    rw [Write_prices_other c j k v0 now hj]; exact hk
  | Read j now =>
    show (Sample1.Read c j now).2.prices k = some d
    by_cases hj : k = j
    · subst hj
      rw [Read_fresh c k now d hk (hnow now (by simp [Call.clock]))]; exact hk
    · rw [Read_prices_other c j k now hj]; exact hk
  | GetPriceFor j nowR nowW =>
    show (Sample1.GetPriceFor c j nowR nowW).2.prices k = some d
    by_cases hj : k = j
    · subst hj
      have hr := Read_fresh c k nowR d hk (hnow nowR (by simp [Call.clock]))
      rw [GetPriceFor_of_hit c k nowR nowW d.Value (by rw [hr])]; exact hk
    · rw [GetPriceFor_prices_other c j k nowR nowW hj]; exact hk
  | GetPricesFor itemCodes sched nowEnd =>
    show (Sample1.GetPricesFor c itemCodes sched nowEnd).2.prices k = some d
    rw [GetPricesFor_cache]
    apply Group.run_keeps_fresh _ _ k d hk
    · intro s hs
      exact hnow s.2 (by simp only [Call.clock]; exact List.mem_map_of_mem _ hs)
    · intro task htask
      simp only [Group.start, List.mem_map] at htask
      obtain ⟨j, _, rfl⟩ := htask
      exact ⟨by simp, by simp⟩

/-- A call that cannot store a price for `k` leaves the entry of `k` as it is, or removes
it. -/
theorem Call.exec_keeps_other (c : TransparentCache) (call : Call) (k : String)
    (hw : call.mayWrite k = false) :
    (call.exec c).prices k = c.prices k ∨ (call.exec c).prices k = none := by
  cases call with
  | Write j v0 now =>
    have hj : k ≠ j := by rintro rfl; simp [Call.mayWrite] at hw
    exact Or.inl (Write_prices_other c j k v0 now hj)
  | Read j now => exact Read_prices_cases c j k now
  | GetPriceFor j nowR nowW =>
    have hj : k ≠ j := by rintro rfl; simp [Call.mayWrite] at hw
    exact Or.inl (GetPriceFor_prices_other c j k nowR nowW hj)
  | GetPricesFor itemCodes sched nowEnd =>
    left
    show (Sample1.GetPricesFor c itemCodes sched nowEnd).2.prices k = c.prices k
    rw [GetPricesFor_cache]
    apply Group.run_keeps_other _ _ k
    intro task htask
    simp only [Group.start, List.mem_map] at htask
    obtain ⟨j, hjmem, rfl⟩ := htask
    have hj : j ≠ k := by
      rintro rfl
      simp [Call.mayWrite] at hw
      exact hw hjmem
    refine ⟨?_, by simp, by simp⟩
    intro hc; injection hc with hc; exact hj hc

theorem runCalls_nil (c : TransparentCache) : runCalls c [] = c := rfl

theorem runCalls_cons (c : TransparentCache) (call : Call) (calls : List Call) :
    runCalls c (call :: calls) = runCalls (call.exec c) calls := rfl

theorem runCalls_keeps_fresh (calls : List Call) (c : TransparentCache) (k : String) (d : Data)
    (hk : c.prices k = some d)
    (hw : ∀ call ∈ calls, ∀ v0 now, call ≠ Call.Write k v0 now)
    (hnow : ∀ call ∈ calls, ∀ u ∈ call.clock, ¬ u > d.Expiration) :
    (runCalls c calls).prices k = some d := by
  induction calls generalizing c with
  | nil => exact hk
  | cons call calls ih =>
    rw [runCalls_cons]
    apply ih
    · exact Call.exec_keeps_fresh c call k d hk (hw call (List.mem_cons_self _ _))
        (hnow call (List.mem_cons_self _ _))
    · exact fun c1 h1 => hw c1 (List.mem_cons_of_mem _ h1)
    · exact fun c1 h1 => hnow c1 (List.mem_cons_of_mem _ h1)

theorem runCalls_keeps_other (calls : List Call) (c : TransparentCache) (k : String)
    (hw : ∀ call ∈ calls, call.mayWrite k = false) :
    (runCalls c calls).prices k = c.prices k ∨ (runCalls c calls).prices k = none := by
  induction calls generalizing c with
  | nil => exact Or.inl rfl
  | cons call calls ih =>
    rw [runCalls_cons]
    have hrest := ih (call.exec c) (fun c1 h1 => hw c1 (List.mem_cons_of_mem _ h1))
    rcases Call.exec_keeps_other c call k (hw call (List.mem_cons_self _ _)) with h | h
    · rw [h] at hrest; exact hrest
    · rw [h] at hrest
      exact Or.inr (by rcases hrest with h1 | h1 <;> exact h1)

/-! ## Every price returned was written, and not long ago -/

theorem allJustified_append (m : Int) (xs ys before : List Event) :
    allJustified m before (xs ++ ys) ↔
      allJustified m before xs ∧ allJustified m (before ++ xs) ys := by
  induction xs generalizing before with
  | nil => simp [allJustified]
  | cons x xs ih =>
    show (x.justified m before ∧ allJustified m (before ++ [x]) (xs ++ ys)) ↔ _
    rw [ih]
    simp only [allJustified, List.append_assoc, List.singleton_append, and_assoc]

theorem Backed.mono {m : Int} {c : TransparentCache} {log : List Event} {fut : List Int}
    (h : Backed m c log fut) (log1 : List Event) (fut1 : List Int)
    (hlog : ∀ e ∈ log, e ∈ log1) (hfut : ∀ u ∈ fut1, u ∈ fut) : Backed m c log1 fut1 := by
  refine ⟨h.1, fun k d hk => ?_⟩
  obtain ⟨t, h1, h2, h3⟩ := h.2 k d hk
  exact ⟨t, hlog _ h1, h2, fun u hu => h3 u (hfut u hu)⟩

theorem Backed.of_prices {m : Int} {c c1 : TransparentCache} {log : List Event}
    {fut : List Int} (h : Backed m c log fut) (hm : c1.maxAge = c.maxAge)
    (hp : ∀ k, c1.prices k = c.prices k ∨ c1.prices k = none) : Backed m c1 log fut := by
  refine ⟨hm.trans h.1, fun k d hk => ?_⟩
  rcases hp k with h1 | h1
  · exact h.2 k d (h1 ▸ hk)
  · rw [h1] at hk; cases hk

theorem Backed.Read {m : Int} {c : TransparentCache} {log : List Event} {fut : List Int}
    (h : Backed m c log fut) (k : String) (now : Int) :
    Backed m (Sample1.Read c k now).2 log fut :=
  h.of_prices (Read_maxAge c k now) (fun j => Read_prices_cases c k j now)

/-- A price that `Read` finds was written at most `maxAge` ago, and not in the future. -/
theorem Backed.Read_justified {m : Int} {c : TransparentCache} {log : List Event}
    {fut : List Int} {k : String} {now : Int} {v : Float}
    (h : Backed m c log (now :: fut)) (hr : (Sample1.Read c k now).1 = (v, true)) :
    ∃ t, Event.wrote k v t ∈ log ∧ t ≤ now ∧ now ≤ t + m := by
  obtain ⟨_, d, hd, hv, hfresh⟩ := Read_found c k now v hr
  obtain ⟨t, h1, h2, h3⟩ := h.2 k d hd
  refine ⟨t, hv ▸ h1, h3 now (List.mem_cons_self _ _), ?_⟩
  rw [h2] at hfresh
  omega

theorem Backed.Write {m : Int} {c : TransparentCache} {log : List Event} {fut : List Int}
    (h : Backed m c log (now :: fut)) (hnow : ∀ u ∈ fut, now ≤ u) (k : String) (v : Float)
    (log1 : List Event) (hlog : ∀ e ∈ log, e ∈ log1) (hw : Event.wrote k v now ∈ log1) :
    Backed m (Sample1.Write c k v now) log1 fut := by
  refine ⟨h.1, fun j d hj => ?_⟩
  by_cases hjk : j = k
  · subst hjk
    rw [Write_prices_same] at hj
    cases hj
    exact ⟨now, hw, by rw [h.1], hnow⟩
  · rw [Write_prices_other c k j v now hjk] at hj
    obtain ⟨t, h1, h2, h3⟩ := h.2 j d hj
    exact ⟨t, hlog _ h1, h2, fun u hu => h3 u (List.mem_cons_of_mem _ hu)⟩

theorem justified_after_wrote (m : Int) (hAge : 0 ≤ m) (before : List Event) (k : String)
    (v : Float) (now : Int) :
    allJustified m before [Event.wrote k v now, Event.got k v now] := by
  refine ⟨trivial, ⟨now, by simp, le_refl _, by omega⟩, trivial⟩

theorem justified_after_found (m : Int) (before : List Event) (k : String) (v : Float)
    (now : Int) (h : ∃ t, Event.wrote k v t ∈ before ∧ t ≤ now ∧ now ≤ t + m) :
    allJustified m before [Event.found k v now, Event.got k v now] := by
  obtain ⟨t, h1, h2, h3⟩ := h
  exact ⟨⟨t, h1, h2, h3⟩, ⟨t, List.mem_append_left _ h1, h2, h3⟩, trivial⟩

/-- One step of a goroutine: its events are justified, and the map stays backed. -/
theorem Group.step_backed (m : Int) (hAge : 0 ≤ m) (g : Group) (i : Nat) (now : Int)
    (before : List Event) (fut : List Int)
    (hB : Backed m g.cache before (now :: fut)) (hnow : ∀ u ∈ fut, now ≤ u) :
    allJustified m before (g.stepEvents i now) ∧
    Backed m (g.step i now).cache (before ++ g.stepEvents i now) fut := by
  have hB0 : Backed m g.cache before fut :=
    hB.mono before fut (fun _ h => h) (fun u hu => List.mem_cons_of_mem _ hu)
  rcases g.step_cases i now with ⟨h, he, _⟩ | ⟨j, v, _, hr, h, he⟩ | ⟨j, v, _, _, h, he⟩ |
    ⟨j, x, err, _, _, h, he⟩ | ⟨j, p, _, _, h, he⟩ | ⟨j, p, _, h, he⟩
  · rw [h, he]; exact ⟨trivial, by simpa using hB0⟩
  · rw [h, he]
    exact ⟨justified_after_found m before j v now (hB.Read_justified hr),
      hB0.mono _ fut (fun _ h => List.mem_append_left _ h) (fun _ h => h)⟩
  · rw [h, he]; exact ⟨trivial, by simpa using hB0.Read j now⟩
  · rw [h, he]; exact ⟨trivial, by simpa using hB0.of_prices rfl (fun _ => Or.inl rfl)⟩
  · rw [h, he]; exact ⟨trivial, by simpa using hB0.of_prices rfl (fun _ => Or.inl rfl)⟩
  · rw [h, he]
    exact ⟨justified_after_wrote m hAge before j p now,
      hB.Write hnow j p _ (fun _ h => List.mem_append_left _ h) (by simp)⟩

theorem Group.run_backed (m : Int) (hAge : 0 ≤ m) (steps : List (Nat × Int)) (g : Group)
    (before : List Event) (fut : List Int)
    (hB : Backed m g.cache before (steps.map Prod.snd ++ fut))
    (hP : (steps.map Prod.snd ++ fut).Pairwise (· ≤ ·)) :
    allJustified m before (g.runEvents steps) ∧
    Backed m (g.run steps).cache (before ++ g.runEvents steps) fut := by
  induction steps generalizing g before with
  | nil => exact ⟨trivial, by simpa [Group.runEvents, Group.run_nil] using hB⟩
  | cons s steps ih =>
    simp only [List.map_cons, List.cons_append, List.pairwise_cons] at hB hP
    obtain ⟨h1, h2⟩ := Group.step_backed m hAge g s.1 s.2 before _ hB hP.1
    obtain ⟨h3, h4⟩ := ih (g.step s.1 s.2) (before ++ g.stepEvents s.1 s.2) h2 hP.2
    rw [Group.run_cons]
    simp only [Group.runEvents]
    exact ⟨(allJustified_append m _ _ before).2 ⟨h1, h3⟩, by simpa using h4⟩

/-- One call: its events are justified, and the map stays backed. -/
theorem Call.exec_backed (m : Int) (hAge : 0 ≤ m) (c : TransparentCache) (call : Call)
    (before : List Event) (fut : List Int)
    (hB : Backed m c before (call.clock ++ fut))
    (hP : (call.clock ++ fut).Pairwise (· ≤ ·)) :
    allJustified m before (call.events c) ∧
    Backed m (call.exec c) (before ++ call.events c) fut := by
  cases call with
  | Write k v now =>
    simp only [Call.clock, List.singleton_append, List.pairwise_cons] at hB hP
    exact ⟨⟨trivial, trivial⟩,
      hB.Write hP.1 k v _ (fun _ h => List.mem_append_left _ h) (by simp [Call.events])⟩
  | Read k now =>
    simp only [Call.clock, List.singleton_append] at hB
    have hB0 : Backed m c before fut :=
      hB.mono before fut (fun _ h => h) (fun u hu => List.mem_cons_of_mem _ hu)
    have hB1 : Backed m (Sample1.Read c k now).2 (before ++ Read.events c k now) fut :=
      (hB0.Read k now).mono _ fut (fun _ h => List.mem_append_left _ h) (fun _ h => h)
    refine ⟨?_, hB1⟩
    show allJustified m before (Read.events c k now)
    unfold Read.events
    split
    · rename_i price c1 heq
      exact ⟨hB.Read_justified (by rw [heq]), trivial⟩
    · trivial
  | GetPriceFor k nowR nowW =>
    simp only [Call.clock, List.cons_append, List.nil_append, List.pairwise_cons] at hB hP
    have hB0 : Backed m c before fut :=
      hB.mono before fut (fun _ h => h)
        (fun u hu => List.mem_cons_of_mem _ (List.mem_cons_of_mem _ hu))
    show allJustified m before (GetPriceFor.events c k nowR nowW) ∧
      Backed m (Sample1.GetPriceFor c k nowR nowW).2
        (before ++ GetPriceFor.events c k nowR nowW) fut
    rcases hR : Sample1.Read c k nowR with ⟨⟨v, found⟩, c1⟩
    cases found with
    | true =>
      have hc1 := (Read_found c k nowR v (by rw [hR])).1
      rw [GetPriceFor_of_hit c k nowR nowW v (by rw [hR])]
      simp only [GetPriceFor.events, hR]
      exact ⟨justified_after_found m before k v nowR (hB.Read_justified (by rw [hR])),
        hB0.mono _ fut (fun _ h => List.mem_append_left _ h) (fun _ h => h)⟩
    | false =>
      have hmiss := (Read_not_found c k nowR v (by rw [hR])).2
      have hc1 : c1 = (Sample1.Read c k nowR).2 := by rw [hR]
      have hsvc : c1.actualPriceService = c.actualPriceService := by
        rw [hc1]; exact Read_service c k nowR
      rcases hresp : c.actualPriceService.respond c.actualPriceService.asked k
        with ⟨x, _ | err⟩
      · rw [(GetPriceFor_of_miss c k nowR nowW hmiss).2 x hresp]
        simp only [GetPriceFor.events, hR, hsvc, PriceService.GetPriceFor, hresp]
        refine ⟨justified_after_wrote m hAge before k x nowW, ?_⟩
        have hB2 : Backed m c before (nowW :: fut) :=
          hB.mono before _ (fun _ h => h) (fun u hu => List.mem_cons_of_mem _ hu)
        have hB3 : Backed m
            { c with prices := Function.update c.prices k none,
                     actualPriceService :=
                       { c.actualPriceService with
                           asked := c.actualPriceService.asked ++ [k] } }
            before (nowW :: fut) :=
          hB2.of_prices rfl (fun j => by
            by_cases hj : j = k
            · right; subst hj; simp
            · left; simp [Function.update_noteq hj])
        exact hB3.Write hP.2.1 k x _ (fun _ h => List.mem_append_left _ h) (by simp)
      · rw [(GetPriceFor_of_miss c k nowR nowW hmiss).1 x err hresp]
        simp only [GetPriceFor.events, hR, hsvc, PriceService.GetPriceFor, hresp]
        refine ⟨trivial, ?_⟩
        simp only [List.append_nil]
        exact hB0.of_prices rfl (fun j => by
            by_cases hj : j = k
            · right; subst hj; simp
            · left; simp [Function.update_noteq hj])
  | GetPricesFor itemCodes sched nowEnd =>
    simp only [Call.clock] at hB hP
    show allJustified m before
        ((Group.start c itemCodes).runEvents (GetPricesFor.steps itemCodes sched nowEnd)) ∧
      Backed m (Sample1.GetPricesFor c itemCodes sched nowEnd).2
        (before ++ (Group.start c itemCodes).runEvents
          (GetPricesFor.steps itemCodes sched nowEnd)) fut
    rw [GetPricesFor_cache]
    exact Group.run_backed m hAge _ (Group.start c itemCodes) before fut hB hP

theorem history_justified (m : Int) (hAge : 0 ≤ m) (calls : List Call) (c : TransparentCache)
    (before : List Event)
    (hB : Backed m c before (calls.flatMap Call.clock))
    (hP : (calls.flatMap Call.clock).Pairwise (· ≤ ·)) :
    allJustified m before (history c calls) := by
  induction calls generalizing c before with
  | nil => trivial
  | cons call calls ih =>
    simp only [List.flatMap_cons] at hB hP
    obtain ⟨h1, h2⟩ := Call.exec_backed m hAge c call before _ hB hP
    simp only [history]
    exact (allJustified_append m _ _ before).2
      ⟨h1, ih (call.exec c) _ h2 (List.pairwise_append.1 hP).2.1⟩

theorem Backed_New (svc : PriceService) (m : Int) (fut : List Int) :
    Backed m (NewTransparentCache svc m) [] fut :=
  ⟨rfl, fun k d hk => by simp [NewTransparentCache] at hk⟩

/-! ## No stale value (C1) -/

/-- C1: on a cache made by `NewTransparentCache` with `maxAge ≥ 0`, whatever sequence of
`Write`, `Read`, `GetPriceFor` and `GetPricesFor` calls is run under a clock that never
goes back (`GetPricesFor` under any interleaving of its goroutines), every price `v` that a
`Read(k)` returns with `found = true` at an instant `t'`, and every price that a
`GetPriceFor(k)` returns with a `nil` error at an instant `t'`, was stored for `k` by a
`Write` earlier in the run, at an instant `t` with `t ≤ t' ≤ t + maxAge`. -/
theorem no_stale_value_returned (svc : PriceService) (maxAge : Int) (hAge : 0 ≤ maxAge)
    (calls : List Call) (hClock : (calls.flatMap Call.clock).Pairwise (· ≤ ·))
    (pre post : List Event) (k : String) (v : Float) (t' : Int)
    (hev : history (NewTransparentCache svc maxAge) calls = pre ++ Event.found k v t' :: post ∨
      history (NewTransparentCache svc maxAge) calls = pre ++ Event.got k v t' :: post) :
    ∃ t, Event.wrote k v t ∈ pre ∧ t ≤ t' ∧ t' ≤ t + maxAge := by
  have h := history_justified maxAge hAge calls (NewTransparentCache svc maxAge) []
    (Backed_New svc maxAge _) hClock
  rcases hev with hev | hev
  · rw [hev] at h
    have h2 := ((allJustified_append maxAge pre _ []).1 h).2.1
    simpa [Event.justified] using h2
  · rw [hev] at h
    have h2 := ((allJustified_append maxAge pre _ []).1 h).2.1
    simpa [Event.justified] using h2

/-- The events of a run with all four methods: a `Write`, a `GetPriceFor` that fetches, a
`GetPricesFor` whose two goroutines find their prices, a `Read`. -/
theorem history_example :
    history (NewTransparentCache (fixedService 12.0) 1000000000)
        [Call.Write "A" 10.0 0, Call.GetPriceFor "B" 5 6,
          Call.GetPricesFor ["A", "B"] [(1, 7), (0, 8)] 9, Call.Read "B" 10] =
      [Event.wrote "A" 10.0 0, Event.wrote "B" 12.0 6, Event.got "B" 12.0 6,
        Event.found "B" 12.0 7, Event.got "B" 12.0 7, Event.found "A" 10.0 8,
        Event.got "A" 10.0 8] ++ Event.found "B" 12.0 10 :: [] := by
  rfl

/-- C1 at an input: the `Read("B")` at instant 10 that ends the run of `history_example`
returns the 12.0 that was written at instant 6. -/
theorem no_stale_value_returned_witness :
    ∃ t, Event.wrote "B" 12.0 t ∈
        [Event.wrote "A" 10.0 0, Event.wrote "B" 12.0 6, Event.got "B" 12.0 6,
          Event.found "B" 12.0 7, Event.got "B" 12.0 7, Event.found "A" 10.0 8,
          Event.got "A" 10.0 8] ∧
      t ≤ 10 ∧ 10 ≤ t + 1000000000 :=
  no_stale_value_returned (fixedService 12.0) 1000000000 (by decide)
    [Call.Write "A" 10.0 0, Call.GetPriceFor "B" 5 6,
      Call.GetPricesFor ["A", "B"] [(1, 7), (0, 8)] 9, Call.Read "B" 10]
    (by decide)
    _ [] "B" 12.0 10 (Or.inl history_example)

/-! ## The events of `Read` and `Write` are those of the methods -/

theorem applyEvents_ReadEvents (c : TransparentCache) (k : String) (now : Int) :
    applyEvents c.prices (ReadEvents c k now) = (Read c k now).2.prices := by
  unfold ReadEvents Read
  split
  · rfl
  · split <;> rfl

theorem applyEvents_WriteEvents (c : TransparentCache) (k : String) (v : Float) (now : Int) :
    applyEvents c.prices (WriteEvents c k v now) = (Write c k v now).prices := rfl

theorem mutationsExclusive_WriteEvents (c : TransparentCache) (k : String) (v : Float)
    (now : Int) : mutationsExclusive .unlocked (WriteEvents c k v now) = true := rfl

/-- The `delete` of `Read` runs between `RLock` and `RUnlock`, whenever it runs. -/
theorem mutationsExclusive_ReadEvents (c : TransparentCache) (k : String) (now : Int) (d : Data)
    (hk : c.prices k = some d) (hexp : now > d.Expiration) :
    mutationsExclusive .unlocked (ReadEvents c k now) = false := by
  simp [ReadEvents, hk, hexp, mutationsExclusive, MxEvent.mutates, LockMode.after]

/-! ## Freshness: within the age, at the boundary (C3), beyond it -/

/-- With the sum `t + maxAge` taken exactly: after `Write(k, v)` at instant `t`, and whatever
calls follow that are no `Write` to `k` and take their clock readings up to `t'`, `Read(k)` at
an instant `t' < t + maxAge` returns `(v, true)` (and leaves the cache as it is); this holds for
every such `t'`, those with `t ≤ t'` among them. -/
theorem fresh_read_finds (c : TransparentCache) (k : String) (v : Float) (t t' : Int)
    (mid : List Call)
    (hw : ∀ call ∈ mid, ∀ v0 now, call ≠ Call.Write k v0 now)
    (hclock : ∀ call ∈ mid, ∀ u ∈ call.clock, u ≤ t')
    (hfresh : t' < t + c.maxAge) :
    Read (runCalls (Write c k v t) mid) k t' =
      ((v, true), runCalls (Write c k v t) mid) := by
  have hk := runCalls_keeps_fresh mid (Write c k v t) k
    { Value := v, Expiration := t + c.maxAge } (Write_prices_same c k v t) hw
    (fun call hcall u hu => by
      have := hclock call hcall u hu
      show ¬ u > t + c.maxAge
      omega)
  exact Read_fresh _ k t' _ hk (by show ¬ t' > t + c.maxAge; omega)

/-- `fresh_read_finds` at an input: in the scenario, a `Read` of another key and a
`GetPriceFor("A")` come between the write at 0 and the `Read("A")` at 0.5 s. -/
theorem fresh_read_finds_witness :
    Read (runCalls (Write (NewTransparentCache (fixedService 12.0) 1000000000) "A" 10.0 0)
        [Call.Read "B" 100, Call.GetPriceFor "A" 200 200]) "A" 500000000 =
      ((10.0, true),
        runCalls (Write (NewTransparentCache (fixedService 12.0) 1000000000) "A" 10.0 0)
          [Call.Read "B" 100, Call.GetPriceFor "A" 200 200]) :=
  fresh_read_finds (NewTransparentCache (fixedService 12.0) 1000000000) "A" 10.0 0 500000000
    [Call.Read "B" 100, Call.GetPriceFor "A" 200 200]
    (by simp)
    (by simp [Call.clock])
    (by simp [NewTransparentCache])

/-- C3 as stated fails at the boundary: in the scenario (`Write("A", 10.0)` at instant 0,
`maxAge` one second) the `Read("A")` at instant `0 + maxAge` still returns `(10.0, true)`,
and the entry stays in the map. -/
theorem read_at_expiration_finds :
    (1000000000 : Int) ≥ 0 + (NewTransparentCache (fixedService 12.0) 1000000000).maxAge ∧
    (Read (Write (NewTransparentCache (fixedService 12.0) 1000000000) "A" 10.0 0) "A"
      1000000000).1 = (10.0, true) ∧
    (Read (Write (NewTransparentCache (fixedService 12.0) 1000000000) "A" 10.0 0) "A"
      1000000000).2.prices "A" = some { Value := 10.0, Expiration := 1000000000 } := by
  have h := Read_fresh (Write (NewTransparentCache (fixedService 12.0) 1000000000) "A" 10.0 0)
    "A" 1000000000 { Value := 10.0, Expiration := 1000000000 }
    (by simp [Write, NewTransparentCache]) (by decide)
  rw [h]
  exact ⟨by simp [NewTransparentCache], rfl, by simp [Write, NewTransparentCache]⟩

/-- C3, as the code has it: after `Write(k, v)` at instant `t`, and whatever calls follow
that cannot store a price for `k`, `Read(k)` at an instant `t' > t + maxAge` returns
`(0, false)`, and after that `Read` the map holds no entry for `k`. -/
theorem expired_read_misses (c : TransparentCache) (k : String) (v : Float) (t t' : Int)
    (mid : List Call)
    (hw : ∀ call ∈ mid, call.mayWrite k = false)
    (hexp : t' > t + c.maxAge) :
    (Read (runCalls (Write c k v t) mid) k t').1 = (0, false) ∧
    (Read (runCalls (Write c k v t) mid) k t').2.prices k = none := by
  rcases runCalls_keeps_other mid (Write c k v t) k hw with h | h
  · rw [Write_prices_same] at h
    rw [Read_expired _ k t' _ h hexp]
    exact ⟨rfl, by simp⟩
  · rw [Read_absent _ k t' h]
    exact ⟨rfl, h⟩

/-- C3 (amended) at an input: in the scenario, a `GetPriceFor("B")` comes between the write
at 0 and the `Read("A")` at 1.5 s. -/
theorem expired_read_misses_witness :
    (Read (runCalls (Write (NewTransparentCache (fixedService 12.0) 1000000000) "A" 10.0 0)
        [Call.GetPriceFor "B" 200 200]) "A" 1500000000).1 = (0, false) ∧
    (Read (runCalls (Write (NewTransparentCache (fixedService 12.0) 1000000000) "A" 10.0 0)
        [Call.GetPriceFor "B" 200 200]) "A" 1500000000).2.prices "A" = none :=
  expired_read_misses (NewTransparentCache (fixedService 12.0) 1000000000) "A" 10.0 0
    1500000000 [Call.GetPriceFor "B" 200 200]
    (by simp [Call.mayWrite])
    (by simp [NewTransparentCache])

/-! ## The mutex (C4) -/

/-- C4 fails on the code: on the cache whose entry for `A` expired at instant 1, `Read("A")`
at instant 2 deletes the entry between `RLock` and `RUnlock`, that is while it holds `mx`
shared only; the events are those of `Read` (they yield the map `Read` returns). -/
theorem Read_deletes_under_shared_lock :
    ReadEvents staleCache "A" 2 =
      [MxEvent.RLock, MxEvent.mapGet "A", MxEvent.mapDelete "A", MxEvent.RUnlock] ∧
    mutationsExclusive LockMode.unlocked (ReadEvents staleCache "A" 2) = false ∧
    applyEvents staleCache.prices (ReadEvents staleCache "A" 2) =
      (Read staleCache "A" 2).2.prices ∧
    (Read staleCache "A" 2).2.prices "A" = none := by
  refine ⟨by simp [ReadEvents, staleCache], ?_, applyEvents_ReadEvents staleCache "A" 2, ?_⟩
  · exact mutationsExclusive_ReadEvents staleCache "A" 2 { Value := 10.0, Expiration := 1 }
      (by simp [staleCache]) (by decide)
  · rw [Read_expired staleCache "A" 2 { Value := 10.0, Expiration := 1 }
      (by simp [staleCache]) (by decide)]
    simp

/-! ## `Read` and `Write` on their own (C5) -/

/-- C5: `Read` follows its three cases.  (1) No entry for `k`: it returns `(0, false)` and
the cache is unchanged.  (2) An entry with `now > Expiration`: it returns `(0, false)` and
the resulting map is the original one with exactly the entry of `k` removed.  (3) Otherwise
it returns the stored value with `true` and the cache is unchanged.  In every case the
entries of the other keys, `maxAge` and the service are unchanged. -/
theorem Read_three_cases (c : TransparentCache) (k : String) (now : Int) :
    (c.prices k = none → Read c k now = ((0, false), c)) ∧
    (∀ d, c.prices k = some d → now > d.Expiration →
      (Read c k now).1 = (0, false) ∧ (Read c k now).2.prices k = none) ∧
    (∀ d, c.prices k = some d → ¬ now > d.Expiration →
      Read c k now = ((d.Value, true), c)) ∧
    (∀ j, j ≠ k → (Read c k now).2.prices j = c.prices j) ∧
    (Read c k now).2.maxAge = c.maxAge ∧
    (Read c k now).2.actualPriceService = c.actualPriceService := by
  refine ⟨Read_absent c k now, ?_, Read_fresh c k now, ?_, Read_maxAge c k now,
    Read_service c k now⟩
  · intro d hd hexp
    rw [Read_expired c k now d hd hexp]
    exact ⟨rfl, by simp⟩
  · intro j hj
    exact Read_prices_other c k j now hj

/-- With the sum `now + maxAge` taken exactly, `Write` replaces unconditionally: afterwards `k`
is mapped to exactly `(v, now + maxAge)` whatever was stored before, every other key keeps its
entry, and a `Write` that follows another `Write` to the same key alone determines the cache. -/
theorem Write_full_replacement (c : TransparentCache) (k : String) (v : Float) (now : Int) :
    (Write c k v now).prices k = some { Value := v, Expiration := now + c.maxAge } ∧
    (∀ j, j ≠ k → (Write c k v now).prices j = c.prices j) ∧
    (∀ (v0 : Float) (t0 : Int), Write (Write c k v0 t0) k v now = Write c k v now) := by
  refine ⟨Write_prices_same c k v now, fun j hj => Write_prices_other c k j v now hj, ?_⟩
  intro v0 t0
  simp [Write]

/-! ## `GetPriceFor` (C7, C9, C10) -/

/-- C7: when `Read` finds the price `v` for `k`, `GetPriceFor` returns `(v, nil)` and the
cache afterwards is the cache before: the map is unchanged and the service has been asked
nothing. -/
theorem GetPriceFor_hit (c : TransparentCache) (k : String) (nowR nowW : Int) (v : Float)
    (h : (Read c k nowR).1 = (v, true)) :
    (GetPriceFor c k nowR nowW).1 = (v, none) ∧
    (GetPriceFor c k nowR nowW).2.actualPriceService.asked = c.actualPriceService.asked ∧
    (GetPriceFor c k nowR nowW).2.prices = c.prices ∧
    (GetPriceFor c k nowR nowW).2 = c := by
  rw [GetPriceFor_of_hit c k nowR nowW v h]
  exact ⟨rfl, rfl, rfl, rfl⟩

/-- With the sum `nowW + maxAge` taken exactly: for a key that is absent or expired and a
service that answers `(p, nil)`, `GetPriceFor` asks the service exactly once, returns `(p,
nil)`, and afterwards the map holds `(p, nowW + maxAge)` for the key, `nowW` being the instant
of the write; the other keys keep their entries. -/
theorem GetPriceFor_miss_success (c : TransparentCache) (k : String) (nowR nowW : Int)
    (p : Float)
    (hmiss : c.prices k = none ∨ ∃ d, c.prices k = some d ∧ nowR > d.Expiration)
    (hsvc : c.actualPriceService.respond c.actualPriceService.asked k = (p, none)) :
    (GetPriceFor c k nowR nowW).1 = (p, none) ∧
    (GetPriceFor c k nowR nowW).2.actualPriceService.asked = c.actualPriceService.asked ++ [k] ∧
    (GetPriceFor c k nowR nowW).2.prices k = some { Value := p, Expiration := nowW + c.maxAge } ∧
    (∀ j, j ≠ k → (GetPriceFor c k nowR nowW).2.prices j = c.prices j) := by
  rw [(GetPriceFor_of_miss c k nowR nowW hmiss).2 p hsvc]
  refine ⟨rfl, rfl, by simp [Write], ?_⟩
  intro j hj
  simp [Write, Function.update_noteq hj]

/-- C9, as the code has it: when `GetPriceFor` returns an error, the map afterwards is the
map before without the entry of `k`, and an entry removed that way had expired; every
other key keeps its entry, and when `k` had no entry the map is identical to the map
before. -/
theorem failed_fetch_store (c : TransparentCache) (k : String) (nowR nowW : Int) (e : String)
    (h : (GetPriceFor c k nowR nowW).1.2 = some e) :
    (GetPriceFor c k nowR nowW).2.prices = Function.update c.prices k none ∧
    (∀ j, j ≠ k → (GetPriceFor c k nowR nowW).2.prices j = c.prices j) ∧
    (∀ d, c.prices k = some d → nowR > d.Expiration) ∧
    (c.prices k = none → (GetPriceFor c k nowR nowW).2.prices = c.prices) := by
  obtain ⟨hmiss, hc⟩ := GetPriceFor_error c k nowR nowW e h
  rw [hc]
  refine ⟨rfl, fun j hj => by simp [Function.update_noteq hj], ?_, ?_⟩
  · intro d hd
    rcases hmiss with h0 | ⟨d1, hd1, hexp⟩
    · rw [h0] at hd; cases hd
    · rw [hd1] at hd; cases hd; exact hexp
  · intro h0
    show Function.update c.prices k none = c.prices
    rw [← h0]; exact Function.update_eq_self k c.prices

/-- C10: after a `GetPriceFor` whose fetch failed the map has no entry for `k` (so it holds
one only if one existed before), and the `GetPriceFor` that follows immediately asks the
service again. -/
theorem no_negative_caching (c : TransparentCache) (k : String) (nowR nowW : Int) (e : String)
    (h : (GetPriceFor c k nowR nowW).1.2 = some e) :
    (GetPriceFor c k nowR nowW).2.prices k = none ∧
    ((GetPriceFor c k nowR nowW).2.prices k ≠ none → c.prices k ≠ none) ∧
    (∀ nowR2 nowW2 : Int,
      (GetPriceFor (GetPriceFor c k nowR nowW).2 k nowR2 nowW2).2.actualPriceService.asked =
        (GetPriceFor c k nowR nowW).2.actualPriceService.asked ++ [k]) := by
  obtain ⟨_, hc⟩ := GetPriceFor_error c k nowR nowW e h
  have hnone : (GetPriceFor c k nowR nowW).2.prices k = none := by rw [hc]; simp
  refine ⟨hnone, fun hne => absurd hnone hne, ?_⟩
  intro nowR2 nowW2
  generalize (GetPriceFor c k nowR nowW).2 = c1 at hnone ⊢
  rcases hresp : c1.actualPriceService.respond c1.actualPriceService.asked k with ⟨x, _ | err⟩
  · rw [(GetPriceFor_of_miss c1 k nowR2 nowW2 (Or.inl hnone)).2 x hresp]; rfl
  · rw [(GetPriceFor_of_miss c1 k nowR2 nowW2 (Or.inl hnone)).1 x err hresp]

/-! ## The operations on concrete caches -/

/-- C7 at an input: in the scenario, `GetPriceFor("A")` half a second after the write. -/
theorem GetPriceFor_hit_witness :
    (Read scenarioCache "A" 500000000).1 = (10.0, true) ∧
    (GetPriceFor scenarioCache "A" 500000000 500000000).1 = (10.0, none) ∧
    (GetPriceFor scenarioCache "A" 500000000 500000000).2.actualPriceService.asked =
      scenarioCache.actualPriceService.asked ∧
    (GetPriceFor scenarioCache "A" 500000000 500000000).2.prices = scenarioCache.prices ∧
    (GetPriceFor scenarioCache "A" 500000000 500000000).2 = scenarioCache :=
  ⟨by rw [scenario_read_fresh],
   GetPriceFor_hit scenarioCache "A" 500000000 500000000 10.0 (by rw [scenario_read_fresh])⟩

/-- `GetPriceFor_miss_success` at the input of the specification: the entry of `A` written at 0
was read as expired at 1.5 s; `GetPriceFor("A")` then returns the 12.0 of the service, asks it
once and leaves an entry that expires at 2.5 s. -/
theorem GetPriceFor_miss_success_witness :
    (Read scenarioCache "A" 1500000000).1 = (0, false) ∧
    (GetPriceFor (Read scenarioCache "A" 1500000000).2 "A" 1500000000 1500000000).1
      = (12.0, none) ∧
    (GetPriceFor (Read scenarioCache "A" 1500000000).2 "A" 1500000000
      1500000000).2.actualPriceService.asked = ["A"] ∧
    (GetPriceFor (Read scenarioCache "A" 1500000000).2 "A" 1500000000 1500000000).2.prices "A"
      = some { Value := 12.0, Expiration := 2500000000 } := by
  obtain ⟨h1, h2, h3, h4⟩ := scenario_read_expired
  have h := GetPriceFor_miss_success (Read scenarioCache "A" 1500000000).2 "A" 1500000000
    1500000000 12.0 (Or.inl h2) (by rw [h4]; rfl)
  rw [h3, h4] at h
  exact ⟨h1, h.1, h.2.1, h.2.2.1⟩

/-- C9 as stated fails: the cache holds an entry for `A` that expired at instant 1; at
instant 2 `GetPriceFor("A")` returns the error of the failing service, and the map
afterwards is not the map before (the expired entry is gone). -/
theorem failed_fetch_store_changed :
    (GetPriceFor staleCache "A" 2 2).1.2 = some "getting price from service : down" ∧
    staleCache.prices "A" = some { Value := 10.0, Expiration := 1 } ∧
    (GetPriceFor staleCache "A" 2 2).2.prices "A" = none ∧
    (GetPriceFor staleCache "A" 2 2).2.prices ≠ staleCache.prices := by
  rw [staleCache_error]
  refine ⟨rfl, by simp [staleCache], by simp, ?_⟩
  intro h
  have := congrFun h "A"
  simp [staleCache] at this

/-- C9 (amended) at an input: the failing call on the cache with the expired entry. -/
theorem failed_fetch_store_witness :
    (GetPriceFor staleCache "A" 2 2).1.2 = some "getting price from service : down" ∧
    (GetPriceFor staleCache "A" 2 2).2.prices = Function.update staleCache.prices "A" none ∧
    (∀ j, j ≠ "A" → (GetPriceFor staleCache "A" 2 2).2.prices j = staleCache.prices j) ∧
    (∀ d, staleCache.prices "A" = some d → (2 : Int) > d.Expiration) ∧
    (staleCache.prices "A" = none →
      (GetPriceFor staleCache "A" 2 2).2.prices = staleCache.prices) :=
  ⟨by rw [staleCache_error],
   failed_fetch_store staleCache "A" 2 2 "getting price from service : down"
     (by rw [staleCache_error])⟩

/-- C10 at an input: the failing call on the cache with the expired entry, and the call
after it. -/
theorem no_negative_caching_witness :
    (GetPriceFor staleCache "A" 2 2).1.2 = some "getting price from service : down" ∧
    (GetPriceFor staleCache "A" 2 2).2.prices "A" = none ∧
    ((GetPriceFor staleCache "A" 2 2).2.prices "A" ≠ none → staleCache.prices "A" ≠ none) ∧
    (∀ nowR2 nowW2 : Int,
      (GetPriceFor (GetPriceFor staleCache "A" 2 2).2 "A" nowR2 nowW2).2.actualPriceService.asked =
        (GetPriceFor staleCache "A" 2 2).2.actualPriceService.asked ++ ["A"]) :=
  ⟨by rw [staleCache_error],
   no_negative_caching staleCache "A" 2 2 "getting price from service : down"
     (by rw [staleCache_error])⟩

/-! ## The error of `GetPriceFor` (C17) -/

/-- C17: when the key is absent or expired and the service fails with the message `err`,
`GetPriceFor` returns the value 0 and an error whose message is exactly
`getting price from service : ` followed by `err`; so `err` is a part of that message. -/
theorem GetPriceFor_error_message (c : TransparentCache) (k : String) (nowR nowW : Int)
    (x : Float) (err : String)
    (hmiss : c.prices k = none ∨ ∃ d, c.prices k = some d ∧ nowR > d.Expiration)
    (hsvc : c.actualPriceService.respond c.actualPriceService.asked k = (x, some err)) :
    (GetPriceFor c k nowR nowW).1 = (0, some ("getting price from service : " ++ err)) ∧
    ∃ pre post : String, "getting price from service : " ++ err = pre ++ err ++ post := by
  rw [(GetPriceFor_of_miss c k nowR nowW hmiss).1 x err hsvc]
  exact ⟨rfl, "getting price from service : ", "", by simp⟩

/-- C17 at an input: the failing service and the cache whose entry for `A` has expired. -/
theorem GetPriceFor_error_message_witness :
    (GetPriceFor staleCache "A" 2 2).1 = (0, some ("getting price from service : " ++ "down")) ∧
    ∃ pre post : String, "getting price from service : " ++ "down" = pre ++ "down" ++ post :=
  GetPriceFor_error_message staleCache "A" 2 2 0 "down"
    (Or.inr ⟨{ Value := 10.0, Expiration := 1 }, by simp [staleCache], by decide⟩) rfl

/-! ## An expired value never comes back (C18) -/

theorem Read_idempotent (c : TransparentCache) (k : String) (t : Int) :
    Read (Read c k t).2 k t = Read c k t := by
  cases hk : c.prices k with
  | none => rw [Read_absent c k t hk, Read_absent c k t hk]
  | some d =>
    by_cases hexp : t > d.Expiration
    · rw [Read_expired c k t d hk hexp]
      exact Read_absent _ k t (by simp)
    · rw [Read_fresh c k t d hk hexp, Read_fresh c k t d hk hexp]

/-- C18: once `Read(k)` has returned `found = false`, and whatever calls follow that cannot
store a price for `k` (no `Write(k, _)`, no `GetPriceFor` or `GetPricesFor` for `k`), a
`Read(k)` at any instant returns `(0, false)`; and a `Read(k)` repeated at the same instant
returns the same result and leaves the same cache as the single `Read(k)`. -/
theorem expired_never_comes_back (c : TransparentCache) (k : String) (t t' : Int)
    (mid : List Call)
    (hmiss : (Read c k t).1.2 = false)
    (hmid : ∀ call ∈ mid, call.mayWrite k = false) :
    (Read (runCalls (Read c k t).2 mid) k t').1 = (0, false) ∧
    Read (Read c k t).2 k t = Read c k t := by
  refine ⟨?_, Read_idempotent c k t⟩
  have h0 : (Read c k t).2.prices k = none :=
    (Read_not_found c k t (Read c k t).1.1 (Prod.ext rfl hmiss)).1
  have h1 : (runCalls (Read c k t).2 mid).prices k = none := by
    rcases runCalls_keeps_other mid (Read c k t).2 k hmid with h | h
    · rw [h]; exact h0
    · exact h
  rw [Read_absent _ k t' h1]

/-- C18 at an input: in the scenario the entry of `A` is read as expired at 1.5 s; after a
`Read("A")` and a `GetPriceFor("B")`, `Read("A")` at 2 s finds nothing. -/
theorem expired_never_comes_back_witness :
    (Read (runCalls (Read scenarioCache "A" 1500000000).2
        [Call.Read "A" 1600000000, Call.GetPriceFor "B" 1700000000 1700000000])
      "A" 2000000000).1 = (0, false) ∧
    Read (Read scenarioCache "A" 1500000000).2 "A" 1500000000 =
      Read scenarioCache "A" 1500000000 :=
  expired_never_comes_back scenarioCache "A" 1500000000 2000000000
    [Call.Read "A" 1600000000, Call.GetPriceFor "B" 1700000000 1700000000]
    (by rw [scenario_read_expired.1])
    (by simp [Call.mayWrite])

/-! ## Cache short-circuit, with exact expirations -/

/-- While no goroutine works on `k`, a step does not ask the service for `k`. -/
theorem Group.step_count_other (g : Group) (i : Nat) (now : Int) (k : String)
    (hT : ∀ task ∈ g.tasks,
      task ≠ Task.reading k ∧ task ≠ Task.fetching k ∧ ∀ p, task ≠ Task.writing k p) :
    (g.step i now).cache.actualPriceService.asked.count k =
      g.cache.actualPriceService.asked.count k := by
  rcases g.step_cases i now with ⟨h, _, _⟩ | ⟨j, v, _, _, h, _⟩ | ⟨j, v, _, _, h, _⟩ |
    ⟨j, x, err, ht, _, h, _⟩ | ⟨j, p, ht, _, h, _⟩ | ⟨j, p, _, h, _⟩
  · rw [h]
  · rw [h]
  · rw [h]
    show (Read g.cache j now).2.actualPriceService.asked.count k = _
    rw [Read_service]
  · have hj : j ≠ k := by
      rintro rfl
      exact (hT _ (List.getElem?_mem ht)).2.1 rfl
    rw [h]
    simp [List.count_singleton, hj]
  · have hj : j ≠ k := by
      rintro rfl
      exact (hT _ (List.getElem?_mem ht)).2.1 rfl
    rw [h]
    simp [List.count_singleton, hj]
  · rw [h]
    rfl

theorem Group.run_count_other (steps : List (Nat × Int)) (g : Group) (k : String)
    (hT : ∀ task ∈ g.tasks,
      task ≠ Task.reading k ∧ task ≠ Task.fetching k ∧ ∀ p, task ≠ Task.writing k p) :
    (g.run steps).cache.actualPriceService.asked.count k =
      g.cache.actualPriceService.asked.count k := by
  induction steps generalizing g with
  | nil => rfl
  | cons s steps ih =>
    rw [Group.run_cons, ih (g.step s.1 s.2) (g.step_keeps_other s.1 s.2 k hT).2,
      g.step_count_other s.1 s.2 k hT]

/-- A `GetPriceFor` for another key does not ask the service for `k`. -/
theorem GetPriceFor_count_other (c : TransparentCache) (j k : String) (nowR nowW : Int)
    (h : j ≠ k) :
    (GetPriceFor c j nowR nowW).2.actualPriceService.asked.count k =
      c.actualPriceService.asked.count k := by
  rcases hR : Read c j nowR with ⟨⟨v, found⟩, c1⟩
  cases found with
  | true => rw [GetPriceFor_of_hit c j nowR nowW v (by rw [hR])]
  | false =>
    have hmiss := (Read_not_found c j nowR v (by rw [hR])).2
    rcases hresp : c.actualPriceService.respond c.actualPriceService.asked j with ⟨x, _ | err⟩
    · rw [(GetPriceFor_of_miss c j nowR nowW hmiss).2 x hresp]
      simp [Write, List.count_singleton, h]
    · rw [(GetPriceFor_of_miss c j nowR nowW hmiss).1 x err hresp]
      simp [List.count_singleton, h]

/-- A call that does not operate on `k` leaves the entry of `k` as it is and does not ask
the service for `k`. -/
theorem Call.exec_untouched (c : TransparentCache) (call : Call) (k : String)
    (hm : call.mentions k = false) :
    (call.exec c).prices k = c.prices k ∧
    (call.exec c).actualPriceService.asked.count k = c.actualPriceService.asked.count k := by
  cases call with
  | Write j v0 now =>
    have hj : k ≠ j := by rintro rfl; simp [Call.mentions] at hm
    exact ⟨Write_prices_other c j k v0 now hj, rfl⟩
  | Read j now =>
    have hj : k ≠ j := by rintro rfl; simp [Call.mentions] at hm
    refine ⟨Read_prices_other c j k now hj, ?_⟩
    show (Sample1.Read c j now).2.actualPriceService.asked.count k = _
    rw [Read_service]
  | GetPriceFor j nowR nowW =>
    have hj : k ≠ j := by rintro rfl; simp [Call.mentions] at hm
    exact ⟨GetPriceFor_prices_other c j k nowR nowW hj,
      GetPriceFor_count_other c j k nowR nowW (Ne.symm hj)⟩
  | GetPricesFor itemCodes sched nowEnd =>
    have hT : ∀ task ∈ (Group.start c itemCodes).tasks,
        task ≠ Task.reading k ∧ task ≠ Task.fetching k ∧ ∀ p, task ≠ Task.writing k p := by
      intro task htask
      simp only [Group.start, List.mem_map] at htask
      obtain ⟨j, hjmem, rfl⟩ := htask
      have hj : j ≠ k := by
        rintro rfl
        simp [Call.mentions] at hm
        exact hm hjmem
      refine ⟨?_, by simp, by simp⟩
      intro hc; injection hc with hc; exact hj hc
    show (Sample1.GetPricesFor c itemCodes sched nowEnd).2.prices k = c.prices k ∧
      (Sample1.GetPricesFor c itemCodes sched nowEnd).2.actualPriceService.asked.count k = _
    rw [GetPricesFor_cache]
    exact ⟨Group.run_keeps_other _ _ k hT, Group.run_count_other _ _ k hT⟩

theorem runCalls_untouched (calls : List Call) (c : TransparentCache) (k : String)
    (hm : ∀ call ∈ calls, call.mentions k = false) :
    (runCalls c calls).prices k = c.prices k ∧
    (runCalls c calls).actualPriceService.asked.count k =
      c.actualPriceService.asked.count k := by
  induction calls generalizing c with
  | nil => exact ⟨rfl, rfl⟩
  | cons call calls ih =>
    rw [runCalls_cons]
    obtain ⟨h1, h2⟩ := ih (call.exec c) (fun c1 hc1 => hm c1 (List.mem_cons_of_mem _ hc1))
    obtain ⟨h3, h4⟩ := Call.exec_untouched c call k (hm call (List.mem_cons_self _ _))
    exact ⟨h1.trans h3, h2.trans h4⟩

/-- With the expiration taken exactly: `GetPriceFor(k)` is called twice; the first call returns
`(v, nil)`; between the two calls come only calls that do not operate on `k`; and the `Read` of
the second call is within `maxAge` of the write of the first call (when the first call was
itself served by the cache: not after the expiration of the entry it returned). Then the second
call returns `(v, nil)` without asking the service, and over the whole run the service is asked
for `k` at most once. -/
theorem cache_short_circuit (c : TransparentCache) (k : String) (nowR1 nowW1 nowR2 nowW2 : Int)
    (v : Float) (mid : List Call)
    (h1 : (GetPriceFor c k nowR1 nowW1).1 = (v, none))
    (hmid : ∀ call ∈ mid, call.mentions k = false)
    (hwithin : (c.prices k = none ∨ ∃ d, c.prices k = some d ∧ nowR1 > d.Expiration) →
      nowR2 ≤ nowW1 + c.maxAge)
    (hstill : ∀ d, c.prices k = some d → ¬ nowR1 > d.Expiration → nowR2 ≤ d.Expiration) :
    (GetPriceFor (runCalls (GetPriceFor c k nowR1 nowW1).2 mid) k nowR2 nowW2).1 = (v, none) ∧
    (GetPriceFor (runCalls (GetPriceFor c k nowR1 nowW1).2 mid) k nowR2
        nowW2).2.actualPriceService.asked =
      (runCalls (GetPriceFor c k nowR1 nowW1).2 mid).actualPriceService.asked ∧
    (GetPriceFor (runCalls (GetPriceFor c k nowR1 nowW1).2 mid) k nowR2
        nowW2).2.actualPriceService.asked.count k ≤ c.actualPriceService.asked.count k + 1 := by
  -- the entry that the first call leaves, and what it asked
  have hfirst : ∃ d, (GetPriceFor c k nowR1 nowW1).2.prices k = some d ∧ d.Value = v ∧
      nowR2 ≤ d.Expiration ∧
      (GetPriceFor c k nowR1 nowW1).2.actualPriceService.asked.count k ≤
        c.actualPriceService.asked.count k + 1 := by
    rcases hR : Read c k nowR1 with ⟨⟨v1, found⟩, c1⟩
    cases found with
    | true =>
      obtain ⟨_, d, hd, hv, hfresh⟩ := Read_found c k nowR1 v1 (by rw [hR])
      rw [GetPriceFor_of_hit c k nowR1 nowW1 v1 (by rw [hR])] at h1 ⊢
      have hv1 : v1 = v := by simpa using h1
      exact ⟨d, hd, hv.trans hv1, hstill d hd hfresh, Nat.le_succ _⟩
    | false =>
      have hmiss := (Read_not_found c k nowR1 v1 (by rw [hR])).2
      rcases hresp : c.actualPriceService.respond c.actualPriceService.asked k
        with ⟨x, _ | err⟩
      · rw [(GetPriceFor_of_miss c k nowR1 nowW1 hmiss).2 x hresp] at h1 ⊢
        have hx : x = v := by simpa using h1
        refine ⟨{ Value := x, Expiration := nowW1 + c.maxAge }, by simp [Write], hx,
          hwithin hmiss, ?_⟩
        simp [Write]
      · rw [(GetPriceFor_of_miss c k nowR1 nowW1 hmiss).1 x err hresp] at h1
        simp at h1
  obtain ⟨d, hd, hv, hfresh, hcount⟩ := hfirst
  obtain ⟨hp, hc⟩ := runCalls_untouched mid (GetPriceFor c k nowR1 nowW1).2 k hmid
  have hr := Read_fresh (runCalls (GetPriceFor c k nowR1 nowW1).2 mid) k nowR2 d
    (hp.trans hd) (by omega)
  rw [GetPriceFor_of_hit _ k nowR2 nowW2 d.Value (by rw [hr])]
  exact ⟨by rw [hv], rfl, by rw [hc]; exact hcount⟩

/-- `cache_short_circuit` at an input: in the scenario the entry of `A` has been read as expired
at 1.5 s; `GetPriceFor("A")` then fetches 12.0 and writes it at 1.5 s, a `GetPriceFor("B")`
follows, and `GetPriceFor("A")` at 2 s returns 12.0 without asking the service. -/
theorem cache_short_circuit_witness :
    (GetPriceFor (runCalls (GetPriceFor (Read scenarioCache "A" 1500000000).2 "A" 1500000000
        1500000000).2 [Call.GetPriceFor "B" 1600000000 1600000000]) "A" 2000000000
      2000000000).1 = (12.0, none) ∧
    (GetPriceFor (runCalls (GetPriceFor (Read scenarioCache "A" 1500000000).2 "A" 1500000000
        1500000000).2 [Call.GetPriceFor "B" 1600000000 1600000000]) "A" 2000000000
      2000000000).2.actualPriceService.asked =
      (runCalls (GetPriceFor (Read scenarioCache "A" 1500000000).2 "A" 1500000000
        1500000000).2 [Call.GetPriceFor "B" 1600000000 1600000000]).actualPriceService.asked ∧
    (GetPriceFor (runCalls (GetPriceFor (Read scenarioCache "A" 1500000000).2 "A" 1500000000
        1500000000).2 [Call.GetPriceFor "B" 1600000000 1600000000]) "A" 2000000000
      2000000000).2.actualPriceService.asked.count "A" ≤
      (Read scenarioCache "A" 1500000000).2.actualPriceService.asked.count "A" + 1 :=
  cache_short_circuit (Read scenarioCache "A" 1500000000).2 "A" 1500000000 1500000000
    2000000000 2000000000 12.0 [Call.GetPriceFor "B" 1600000000 1600000000]
    (by
      rw [(GetPriceFor_of_miss _ "A" 1500000000 1500000000
        (Or.inl scenario_read_expired.2.1)).2 12.0
        (by rw [scenario_read_expired.2.2.2]; rfl)])
    (by simp [Call.mentions])
    (by intro _; rw [scenario_read_expired.2.2.1]; decide)
    (by intro d hd; rw [scenario_read_expired.2.1] at hd; cases hd)

/-! ## Every goroutine finishes, and `results` and the error agree with the goroutines -/

theorem getElem?_set_cases {α : Type} {l : List α} {i j : Nat} {a b : α}
    (h : (l.set i a)[j]? = some b) : (j = i ∧ b = a) ∨ (j ≠ i ∧ l[j]? = some b) := by
  rw [List.getElem?_set] at h
  by_cases hij : i = j
  · subst hij
    rw [if_pos rfl] at h
    split at h
    · left; exact ⟨rfl, by injection h with h; exact h.symm⟩
    · cases h
  · rw [if_neg hij] at h
    exact Or.inr ⟨fun hc => hij hc.symm, h⟩

theorem getElem?_lt {α : Type} {l : List α} {i : Nat} {a : α} (h : l[i]? = some a) :
    i < l.length := by
  rcases List.getElem?_eq_some.1 h with ⟨h1, _⟩
  exact h1

/-- A goroutine that has not finished moves on: `tasks` changes at its position only. -/
theorem Sound.set_unfinished {c c1 : TransparentCache} {tasks : List Task}
    {results : List Float} {err : Option String} {i : Nat} {t t1 : Task}
    (hS : Group.Sound { cache := c, tasks := tasks, results := results, err := err })
    (ht : tasks[i]? = some t) (hu : ∀ p e, t ≠ Task.finished p e)
    (hu1 : ∀ p e, t1 ≠ Task.finished p e) :
    Group.Sound { cache := c1, tasks := tasks.set i t1, results := results, err := err } := by
  obtain ⟨h1, h2, h3, h4⟩ := hS
  refine ⟨by simpa using h1, ?_, ?_, ?_⟩
  · intro j p hj
    rcases getElem?_set_cases hj with ⟨_, h⟩ | ⟨_, h⟩
    · exact absurd h.symm (hu1 p none)
    · exact h2 j p h
  · intro e he
    obtain ⟨j, p, hj⟩ := h3 e he
    have hji : i ≠ j := by
      rintro rfl
      rw [ht] at hj
      exact hu p (some e) (by injection hj)
    exact ⟨j, p, by simpa [List.getElem?_set_ne hji] using hj⟩
  · intro j p e hj
    rcases getElem?_set_cases hj with ⟨_, h⟩ | ⟨_, h⟩
    · exact absurd h.symm (hu1 p (some e))
    · exact h4 j p e h

/-- A goroutine finishes without error and stores its price. -/
theorem Sound.set_finished {c c1 : TransparentCache} {tasks : List Task}
    {results : List Float} {err : Option String} {i : Nat} {t : Task} (v : Float)
    (hS : Group.Sound { cache := c, tasks := tasks, results := results, err := err })
    (ht : tasks[i]? = some t) (hu : ∀ p e, t ≠ Task.finished p e) :
    Group.Sound { cache := c1, tasks := tasks.set i (Task.finished v none),
                  results := results.set i v, err := err } := by
  obtain ⟨h1, h2, h3, h4⟩ := hS
  have hi := getElem?_lt ht
  refine ⟨by simpa using h1, ?_, ?_, ?_⟩
  · intro j p hj
    rcases getElem?_set_cases hj with ⟨hji, h⟩ | ⟨hji, h⟩
    · subst hji
      injection h with hp _
      subst hp
      exact List.getElem?_set_self (by show j < results.length; rw [h1]; exact hi)
    · have := h2 j p h
      simpa [List.getElem?_set_ne (Ne.symm hji)] using this
  · intro e he
    obtain ⟨j, p, hj⟩ := h3 e he
    have hji : i ≠ j := by
      rintro rfl
      rw [ht] at hj
      exact hu p (some e) (by injection hj)
    exact ⟨j, p, by simpa [List.getElem?_set_ne hji] using hj⟩
  · intro j p e hj
    rcases getElem?_set_cases hj with ⟨_, h⟩ | ⟨_, h⟩
    · cases h
    · exact h4 j p e h

/-- A goroutine fails: its error is kept unless one was kept before. -/
theorem Sound.set_failed {c c1 : TransparentCache} {tasks : List Task}
    {results : List Float} {err : Option String} {i : Nat} {t : Task} (v : Float)
    (msg : String)
    (hS : Group.Sound { cache := c, tasks := tasks, results := results, err := err })
    (ht : tasks[i]? = some t) (hu : ∀ p e, t ≠ Task.finished p e) :
    Group.Sound { cache := c1, tasks := tasks.set i (Task.finished v (some msg)),
                  results := results, err := firstError err msg } := by
  obtain ⟨h1, h2, h3, h4⟩ := hS
  have hi := getElem?_lt ht
  refine ⟨by simpa using h1, ?_, ?_, ?_⟩
  · intro j p hj
    rcases getElem?_set_cases hj with ⟨_, h⟩ | ⟨_, h⟩
    · cases h
    · exact h2 j p h
  · intro e he
    cases herr : err with
    | none =>
      rw [herr] at he
      simp only [firstError] at he
      injection he with he
      subst he
      exact ⟨i, v, List.getElem?_set_self hi⟩
    | some e0 =>
      rw [herr] at he
      simp only [firstError] at he
      injection he with he
      subst he
      obtain ⟨j, p, hj⟩ := h3 e0 herr
      have hji : i ≠ j := by
        rintro rfl
        rw [ht] at hj
        exact hu p (some e0) (by injection hj)
      exact ⟨j, p, by simpa [List.getElem?_set_ne hji] using hj⟩
  · intro j p e _
    cases err <;> simp [firstError]

theorem Group.step_sound (g : Group) (i : Nat) (now : Int) (hS : g.Sound) :
    (g.step i now).Sound := by
  rcases g.step_cases i now with ⟨h, _, _⟩ | ⟨j, v, ht, _, h, _⟩ | ⟨j, v, ht, _, h, _⟩ |
    ⟨j, x, err, ht, _, h, _⟩ | ⟨j, p, ht, _, h, _⟩ | ⟨j, p, ht, h, _⟩
  · rw [h]; exact hS
  · rw [h]; exact Sound.set_finished v hS ht (by simp)
  · rw [h]; exact Sound.set_unfinished hS ht (by simp) (by simp)
  · rw [h]; exact Sound.set_failed 0 _ hS ht (by simp)
  · rw [h]; exact Sound.set_unfinished hS ht (by simp) (by simp)
  · rw [h]; exact Sound.set_finished p hS ht (by simp)

theorem Group.run_sound (steps : List (Nat × Int)) (g : Group) (hS : g.Sound) :
    (g.run steps).Sound := by
  induction steps generalizing g with
  | nil => exact hS
  | cons s steps ih => exact ih _ (g.step_sound s.1 s.2 hS)

theorem Group.start_sound (c : TransparentCache) (itemCodes : List String) :
    (Group.start c itemCodes).Sound := by
  refine ⟨by simp [Group.start], ?_, ?_, ?_⟩
  · intro i p h
    simp only [Group.start, List.getElem?_map] at h
    cases hk : itemCodes[i]? <;> simp [hk] at h
  · intro e he
    simp [Group.start] at he
  · intro i p e h
    simp only [Group.start, List.getElem?_map] at h
    cases hk : itemCodes[i]? <;> simp [hk] at h

/-- A step changes the state of no other goroutine, and never adds or removes one. -/
theorem Group.step_tasks (g : Group) (i : Nat) (now : Int) :
    (g.step i now).tasks.length = g.tasks.length ∧
    ∀ j, j ≠ i → (g.step i now).tasks[j]? = g.tasks[j]? := by
  rcases g.step_cases i now with ⟨h, _, _⟩ | ⟨_, _, _, _, h, _⟩ | ⟨_, _, _, _, h, _⟩ |
    ⟨_, _, _, _, _, h, _⟩ | ⟨_, _, _, _, h, _⟩ | ⟨_, _, _, h, _⟩ <;>
  · rw [h]
    exact ⟨by simp, fun j hj => by simp [List.getElem?_set_ne (Ne.symm hj)]⟩

/-- A step brings its goroutine nearer to the end. -/
theorem Group.step_rank (g : Group) (i : Nat) (now : Int) (t : Task)
    (ht : g.tasks[i]? = some t) :
    ∃ t1, (g.step i now).tasks[i]? = some t1 ∧ t1.rank ≤ t.rank - 1 ∧
      (∀ p e, t = Task.finished p e → t1 = t) := by
  have hi := getElem?_lt ht
  rcases g.step_cases i now with ⟨h, _, _⟩ | ⟨_, _, ht1, _, h, _⟩ | ⟨_, _, ht1, _, h, _⟩ |
    ⟨_, _, _, ht1, _, h, _⟩ | ⟨_, _, ht1, _, h, _⟩ | ⟨_, _, ht1, h, _⟩
  · rename_i hfin
    rcases hfin with hn | ⟨p, e, hf⟩
    · rw [hn] at ht; cases ht
    · rw [hf] at ht
      injection ht with ht
      subst ht
      exact ⟨_, by rw [h]; exact hf, by simp [Task.rank], fun _ _ _ => rfl⟩
  all_goals
    rw [ht1] at ht
    injection ht with ht
    subst ht
    rw [h]
    exact ⟨_, List.getElem?_set_self hi, by simp [Task.rank], fun _ _ hc => by cases hc⟩

theorem Task.rank_le (t : Task) : t.rank ≤ 3 := by
  cases t <;> simp [Task.rank]

theorem Task.finished_of_rank (t : Task) (h : t.rank = 0) : ∃ p e, t = Task.finished p e := by
  cases t <;> simp [Task.rank] at h
  exact ⟨_, _, rfl⟩

/-- A goroutine that has finished stays as it is. -/
theorem Group.step_finished (g : Group) (i j : Nat) (now : Int) (p : Float)
    (e : Option String) (h : g.tasks[j]? = some (Task.finished p e)) :
    (g.step i now).tasks[j]? = some (Task.finished p e) := by
  by_cases hji : j = i
  · subst hji
    obtain ⟨t1, h1, _, h3⟩ := g.step_rank j now _ h
    rw [h1, h3 p e rfl]
  · rw [(g.step_tasks i now).2 j hji]; exact h

theorem Group.run_finished (steps : List (Nat × Int)) (g : Group) (j : Nat) (p : Float)
    (e : Option String) (h : g.tasks[j]? = some (Task.finished p e)) :
    (g.run steps).tasks[j]? = some (Task.finished p e) := by
  induction steps generalizing g with
  | nil => exact h
  | cons s steps ih => exact ih _ (g.step_finished s.1 j s.2 p e h)

theorem Group.run_length (steps : List (Nat × Int)) (g : Group) :
    (g.run steps).tasks.length = g.tasks.length := by
  induction steps generalizing g with
  | nil => rfl
  | cons s steps ih => rw [Group.run_cons, ih, (g.step_tasks s.1 s.2).1]

theorem Group.run_append (g : Group) (xs ys : List (Nat × Int)) :
    g.run (xs ++ ys) = (g.run xs).run ys := by
  simp [Group.run, List.foldl_append]

/-- Three steps finish a goroutine. -/
theorem Group.three_steps_finish (g : Group) (i : Nat) (now : Int) (hi : i < g.tasks.length) :
    ∃ p e, (g.run [(i, now), (i, now), (i, now)]).tasks[i]? = some (Task.finished p e) := by
  obtain ⟨t1, h1, r1, _⟩ := g.step_rank i now _ (List.getElem?_eq_getElem hi)
  obtain ⟨t2, h2, r2, _⟩ := (g.step i now).step_rank i now _ h1
  obtain ⟨t3, h3, r3, _⟩ := ((g.step i now).step i now).step_rank i now _ h2
  have hr := Task.rank_le (g.tasks[i])
  obtain ⟨p, e, hp⟩ := Task.finished_of_rank t3 (by omega)
  exact ⟨p, e, by rw [← hp]; exact h3⟩

/-- After three steps for each goroutine of `idx`, each of them has finished. -/
theorem Group.run_drain (idx : List Nat) (now : Int) (g : Group) (i : Nat) (hmem : i ∈ idx)
    (hi : i < g.tasks.length) :
    ∃ p e, (g.run (idx.flatMap fun i => [(i, now), (i, now), (i, now)])).tasks[i]? =
      some (Task.finished p e) := by
  induction idx generalizing g with
  | nil => cases hmem
  | cons a idx ih =>
    rw [List.flatMap_cons, Group.run_append]
    by_cases hia : i = a
    · subst hia
      obtain ⟨p, e, h⟩ := g.three_steps_finish i now hi
      exact ⟨p, e, Group.run_finished _ _ i p e h⟩
    · rcases List.mem_cons.1 hmem with h | h
      · exact absurd h hia
      · exact ih _ h (by rw [Group.run_length]; exact hi)

/-- When `g.Wait()` returns, every goroutine has finished. -/
theorem GetPricesFor.group_finished (c : TransparentCache) (itemCodes : List String)
    (sched : List (Nat × Int)) (nowEnd : Int) (i : Nat) (hi : i < itemCodes.length) :
    ∃ p e, (GetPricesFor.group c itemCodes sched nowEnd).tasks[i]? =
      some (Task.finished p e) := by
  unfold GetPricesFor.group GetPricesFor.steps drain
  rw [Group.run_append]
  exact Group.run_drain _ nowEnd _ i (List.mem_range.2 hi)
    (by rw [Group.run_length]; simpa [Group.start] using hi)

theorem GetPricesFor.group_sound (c : TransparentCache) (itemCodes : List String)
    (sched : List (Nat × Int)) (nowEnd : Int) :
    (GetPricesFor.group c itemCodes sched nowEnd).Sound :=
  Group.run_sound _ _ (Group.start_sound c itemCodes)

theorem GetPricesFor.group_length (c : TransparentCache) (itemCodes : List String)
    (sched : List (Nat × Int)) (nowEnd : Int) :
    (GetPricesFor.group c itemCodes sched nowEnd).tasks.length = itemCodes.length := by
  unfold GetPricesFor.group
  rw [Group.run_length]
  simp [Group.start]

theorem GetPricesFor_eq (c : TransparentCache) (itemCodes : List String)
    (sched : List (Nat × Int)) (nowEnd : Int) :
    GetPricesFor c itemCodes sched nowEnd =
      match (GetPricesFor.group c itemCodes sched nowEnd).err with
      | some err => ((none, some err), (GetPricesFor.group c itemCodes sched nowEnd).cache)
      | none => ((some (GetPricesFor.group c itemCodes sched nowEnd).results, none),
          (GetPricesFor.group c itemCodes sched nowEnd).cache) := rfl

/-! ## The batch fails as soon as one position fails (C13) -/

theorem Group.step_err (g : Group) (i : Nat) (now : Int) :
    (g.step i now).err =
      match g.err with
      | some e => some e
      | none => (g.stepFailure i).map Prod.snd := by
  rcases g.step_cases i now with ⟨h, _, hn | ⟨p, e, hf⟩⟩ | ⟨_, _, ht, _, h, _⟩ |
    ⟨_, _, ht, _, h, _⟩ | ⟨_, _, _, ht, hr, h, _⟩ | ⟨_, _, ht, hr, h, _⟩ | ⟨_, _, ht, h, _⟩
  all_goals rw [h]
  all_goals cases he : g.err <;> simp [Group.stepFailure, *, firstError]

theorem Group.run_err (steps : List (Nat × Int)) (g : Group) :
    (g.run steps).err =
      match g.err with
      | some e => some e
      | none => ((g.failures steps).head?).map Prod.snd := by
  induction steps generalizing g with
  | nil => cases he : g.err <;> simp [Group.run, Group.failures, he]
  | cons s steps ih =>
    rw [Group.run_cons, ih, Group.step_err]
    cases he : g.err with
    | some e => rfl
    | none =>
      simp only [Group.failures]
      cases hf : g.stepFailure s.1 <;> simp

/-- A goroutine has finished with the error `e` after a step exactly when it had before,
or when the step is its call of the service and the service fails with what makes `e`. -/
theorem Group.step_failed (g : Group) (j : Nat) (now : Int) (i : Nat) (e : String) :
    (∃ p, (g.step j now).tasks[i]? = some (Task.finished p (some e))) ↔
      (∃ p, g.tasks[i]? = some (Task.finished p (some e))) ∨
        (i, e) ∈ (g.stepFailure j).toList := by
  by_cases hij : i = j
  · subst hij
    rcases g.step_cases i now with ⟨h, _, hn | ⟨p, e0, hf⟩⟩ | ⟨_, _, ht, _, h, _⟩ |
      ⟨_, _, ht, _, h, _⟩ | ⟨_, _, _, ht, hr, h, _⟩ | ⟨_, _, ht, hr, h, _⟩ | ⟨_, _, ht, h, _⟩
    · rw [h]; simp [Group.stepFailure, hn]
    · rw [h]; simp [Group.stepFailure, hf]
    all_goals
      have hi := getElem?_lt ht
      rw [h]
      simp [Group.stepFailure, ht, hi, List.getElem?_set_self, eq_comm, *]
  · rw [(g.step_tasks j now).2 i hij]
    constructor
    · intro h; exact Or.inl h
    · rintro (h | h)
      · exact h
      · exfalso
        cases hf : g.stepFailure j with
        | none => simp [hf] at h
        | some x =>
          have hx : x.1 = j := by
            unfold Group.stepFailure at hf
            split at hf
            · split at hf
              · injection hf with hf; rw [← hf]
              · cases hf
            · cases hf
          simp [hf] at h
          rw [← h] at hx
          exact hij hx

theorem Group.run_failed (steps : List (Nat × Int)) (g : Group) (i : Nat) (e : String) :
    (∃ p, (g.run steps).tasks[i]? = some (Task.finished p (some e))) ↔
      (∃ p, g.tasks[i]? = some (Task.finished p (some e))) ∨ (i, e) ∈ g.failures steps := by
  induction steps generalizing g with
  | nil => simp [Group.run, Group.failures]
  | cons s steps ih =>
    rw [Group.run_cons, ih, Group.step_failed, Group.failures, List.mem_append, or_assoc]

/-- Three steps of a goroutine leave the other goroutines where they are. -/
theorem Group.three_steps_others (g : Group) (i : Nat) (now : Int) (j : Nat) (hj : j ≠ i) :
    (g.run [(i, now), (i, now), (i, now)]).tasks[j]? = g.tasks[j]? := by
  show (((g.step i now).step i now).step i now).tasks[j]? = g.tasks[j]?
  rw [(Group.step_tasks _ i now).2 j hj, (Group.step_tasks _ i now).2 j hj,
    (Group.step_tasks _ i now).2 j hj]

/-- Goroutines that run one after the other, each to its end, are the calls of
`GetPriceFor` one after the other. -/
theorem Group.run_each (ks : List String) (now : Int) (g : Group) (m : Nat)
    (hks : ∀ j, j < ks.length → g.tasks[m + j]? = ks[j]?.map Task.reading) :
    (g.run ((List.range' m ks.length).flatMap
      fun i => [(i, now), (i, now), (i, now)])).cache = (GetPriceFor.each g.cache now ks).2 ∧
    (∀ j, j < ks.length →
      (g.run ((List.range' m ks.length).flatMap
        fun i => [(i, now), (i, now), (i, now)])).tasks[m + j]? =
      ((GetPriceFor.each g.cache now ks).1)[j]?.map fun r => Task.finished r.1 r.2) ∧
    (∀ i, i < m →
      (g.run ((List.range' m ks.length).flatMap
        fun i => [(i, now), (i, now), (i, now)])).tasks[i]? = g.tasks[i]?) := by
  induction ks generalizing g m with
  | nil => exact ⟨rfl, fun j hj => absurd hj (Nat.not_lt_zero j), fun i _ => rfl⟩
  | cons k ks ih =>
    have h0 : g.tasks[m]? = some (Task.reading k) := by
      have := hks 0 (Nat.succ_pos _)
      simpa using this
    obtain ⟨hc, ht⟩ := g.three_steps m k now now now h0
    have hrun : g.run [(m, now), (m, now), (m, now)] =
        ((g.step m now).step m now).step m now := rfl
    have hnext : ∀ j, j < ks.length →
        (g.run [(m, now), (m, now), (m, now)]).tasks[m + 1 + j]? = ks[j]?.map Task.reading := by
      intro j hj
      rw [Group.three_steps_others g m now (m + 1 + j) (by omega)]
      have := hks (j + 1) (by simp; omega)
      rw [show m + 1 + j = m + (j + 1) by omega]
      simpa using this
    obtain ⟨ih1, ih2, ih3⟩ := ih (g.run [(m, now), (m, now), (m, now)]) (m + 1) hnext
    have hlist : (List.range' m (k :: ks).length).flatMap
        (fun i => [(i, now), (i, now), (i, now)]) =
        [(m, now), (m, now), (m, now)] ++ (List.range' (m + 1) ks.length).flatMap
          (fun i => [(i, now), (i, now), (i, now)]) := by
      simp [List.range'_succ]
    have he : GetPriceFor.each g.cache now (k :: ks) =
        ((GetPriceFor g.cache k now now).1 ::
            (GetPriceFor.each (GetPriceFor g.cache k now now).2 now ks).1,
          (GetPriceFor.each (GetPriceFor g.cache k now now).2 now ks).2) := rfl
    rw [hlist, Group.run_append, he]
    refine ⟨?_, ?_, ?_⟩
    · rw [ih1, hrun, hc]
    · intro j hj
      cases j with
      | zero =>
        rw [show m + 0 = m from rfl, ih3 m (Nat.lt_succ_self m), hrun, ht]
        simp
      | succ j =>
        have := ih2 j (by simpa using hj)
        rw [show m + (j + 1) = m + 1 + j by omega, this, hrun, hc]
        simp
    · intro i hi
      rw [ih3 i (by omega), Group.three_steps_others g m now i (by omega)]

theorem GetPriceFor.each_length (ks : List String) (c : TransparentCache) (now : Int) :
    (GetPriceFor.each c now ks).1.length = ks.length := by
  induction ks generalizing c with
  | nil => rfl
  | cons k ks ih => simp [GetPriceFor.each, ih]

/-- With no interleaving, `GetPricesFor` is the calls of `GetPriceFor` one after the
other. -/
theorem GetPricesFor.group_each (c : TransparentCache) (itemCodes : List String)
    (nowEnd : Int) :
    (GetPricesFor.group c itemCodes [] nowEnd).cache =
      (GetPriceFor.each c nowEnd itemCodes).2 ∧
    ∀ (i : Nat), (GetPricesFor.group c itemCodes [] nowEnd).tasks[i]? =
      ((GetPriceFor.each c nowEnd itemCodes).1)[i]?.map fun r => Task.finished r.1 r.2 := by
  have hstart : ∀ j, j < itemCodes.length →
      (Group.start c itemCodes).tasks[0 + j]? = itemCodes[j]?.map Task.reading := by
    intro j _
    simp [Group.start]
  obtain ⟨h1, h2, _⟩ := Group.run_each itemCodes nowEnd (Group.start c itemCodes) 0 hstart
  have hsteps : GetPricesFor.steps itemCodes [] nowEnd =
      (List.range' 0 itemCodes.length).flatMap fun i => [(i, nowEnd), (i, nowEnd), (i, nowEnd)] := by
    simp [GetPricesFor.steps, drain, List.range_eq_range']
  unfold GetPricesFor.group
  rw [hsteps]
  refine ⟨h1, fun i => ?_⟩
  by_cases hi : i < itemCodes.length
  · have := h2 i hi
    rw [Nat.zero_add] at this
    exact this
  · have hl := GetPricesFor.group_length c itemCodes [] nowEnd
    unfold GetPricesFor.group at hl
    rw [hsteps] at hl
    rw [List.getElem?_eq_none (by omega),
      List.getElem?_eq_none (by rw [GetPriceFor.each_length]; omega)]
    rfl

/-- A step keeps `Group.Failing`. -/
theorem Group.step_failing (c : TransparentCache) (k : String) (i : Nat)
    (hfail : ∀ asked, (c.actualPriceService.respond asked k).2 ≠ none)
    (g : Group) (j : Nat) (now : Int) (hF : g.Failing c k i) :
    (g.step j now).Failing c k i := by
  obtain ⟨hp, hr, hw, hi⟩ := hF
  have hset : ∀ (t0 t1 : Task), g.tasks[j]? = some t0 →
      (j = i → t1 = Task.fetching k ∨ ∃ p e, t1 = Task.finished p (some e)) →
      ((g.tasks.set j t1)[i]? = some (Task.reading k) ∨
        (g.tasks.set j t1)[i]? = some (Task.fetching k) ∨
        ∃ p e, (g.tasks.set j t1)[i]? = some (Task.finished p (some e))) := by
    intro t0 t1 ht0 h1
    by_cases hji : j = i
    · subst hji
      have hlt := getElem?_lt ht0
      rw [List.getElem?_set_self hlt]
      rcases h1 rfl with h | ⟨p, e, h⟩
      · exact Or.inr (Or.inl (by rw [h]))
      · exact Or.inr (Or.inr ⟨p, e, by rw [h]⟩)
    · rw [List.getElem?_set_ne hji]
      exact hi
  rcases g.step_cases j now with ⟨h, _, _⟩ | ⟨k1, v, ht, hR, h, _⟩ | ⟨k1, v, ht, hR, h, _⟩ |
    ⟨k1, x, err, ht, hresp, h, _⟩ | ⟨k1, p, ht, hresp, h, _⟩ | ⟨k1, p, ht, h, _⟩
  · rw [h]; exact ⟨hp, hr, hw, hi⟩
  · rw [h]
    refine ⟨hp, hr, forall_mem_set j hw (by intro p hc; cases hc), hset _ _ ht ?_⟩
    intro hji
    subst hji
    exfalso
    rcases hi with h1 | h1 | ⟨p, e, h1⟩ <;> rw [ht] at h1
    · injection h1 with h1
      injection h1 with h1
      subst h1
      rw [Read_absent g.cache k1 now hp] at hR
      cases hR
    · injection h1 with h1; cases h1
    · injection h1 with h1; cases h1
  · rw [h]
    refine ⟨?_, by simpa using hr, forall_mem_set j hw (by intro p hc; cases hc),
      hset _ _ ht ?_⟩
    · show (Read g.cache k1 now).2.prices k = none
      rcases Read_prices_cases g.cache k1 k now with h1 | h1
      · rw [h1]; exact hp
      · exact h1
    · intro hji
      subst hji
      rcases hi with h1 | h1 | ⟨p, e, h1⟩ <;> rw [ht] at h1
      · injection h1 with h1
        injection h1 with h1
        subst h1
        exact Or.inl rfl
      · injection h1 with h1; cases h1
      · injection h1 with h1; cases h1
  · rw [h]
    exact ⟨hp, hr, forall_mem_set j hw (by intro p hc; cases hc),
      hset _ _ ht (fun _ => Or.inr ⟨0, _, rfl⟩)⟩
  · have hk1 : k1 ≠ k := by
      intro hk
      subst hk
      have := hfail g.cache.actualPriceService.asked
      rw [← hr, hresp] at this
      exact this rfl
    rw [h]
    refine ⟨hp, hr, forall_mem_set j hw ?_, hset _ _ ht ?_⟩
    · intro p0 hc
      injection hc with hc1 _
      exact hk1 hc1
    · intro hji
      subst hji
      exfalso
      rcases hi with h1 | h1 | ⟨p0, e, h1⟩ <;> rw [ht] at h1
      · injection h1 with h1; cases h1
      · injection h1 with h1
        injection h1 with h1
        exact hk1 h1
      · injection h1 with h1; cases h1
  · have hmem : Task.writing k1 p ∈ g.tasks := List.getElem?_mem ht
    have hk1 : k ≠ k1 := by
      intro hk
      subst hk
      exact hw _ hmem p rfl
    rw [h]
    refine ⟨?_, hr, forall_mem_set j hw (by intro p hc; cases hc), hset _ _ ht ?_⟩
    · show (Write g.cache k1 p now).prices k = none
      rw [Write_prices_other g.cache k1 k p now hk1]
      exact hp
    · intro hji
      subst hji
      exfalso
      rcases hi with h1 | h1 | ⟨p0, e, h1⟩ <;> rw [ht] at h1
      · injection h1 with h1; cases h1
      · injection h1 with h1; cases h1
      · injection h1 with h1; cases h1

theorem Group.run_failing (c : TransparentCache) (k : String) (i : Nat)
    (hfail : ∀ asked, (c.actualPriceService.respond asked k).2 ≠ none)
    (steps : List (Nat × Int)) (g : Group) (hF : g.Failing c k i) :
    (g.run steps).Failing c k i := by
  induction steps generalizing g with
  | nil => exact hF
  | cons s steps ih => exact ih _ (Group.step_failing c k i hfail g s.1 s.2 hF)

/-- A position whose key has no entry and for which the service fails has failed when
`g.Wait()` returns. -/
theorem GetPricesFor.group_fails (c : TransparentCache) (itemCodes : List String)
    (sched : List (Nat × Int)) (nowEnd : Int) (i : Nat) (k : String)
    (hk : itemCodes[i]? = some k) (habs : c.prices k = none)
    (hfail : ∀ asked, (c.actualPriceService.respond asked k).2 ≠ none) :
    ∃ p e, (GetPricesFor.group c itemCodes sched nowEnd).tasks[i]? =
      some (Task.finished p (some e)) := by
  have hstart : (Group.start c itemCodes).Failing c k i := by
    refine ⟨habs, rfl, ?_, Or.inl ?_⟩
    · intro t ht p hc
      simp only [Group.start, List.mem_map] at ht
      obtain ⟨_, _, hx⟩ := ht
      rw [hc] at hx
      cases hx
    · simp [Group.start, hk]
  obtain ⟨_, _, _, hi⟩ := Group.run_failing c k i hfail
    (GetPricesFor.steps itemCodes sched nowEnd) _ hstart
  obtain ⟨p, e, hfin⟩ := GetPricesFor.group_finished c itemCodes sched nowEnd i
    (getElem?_lt hk)
  unfold GetPricesFor.group at hfin ⊢
  rcases hi with h1 | h1 | h1
  · rw [hfin] at h1; injection h1 with h1; cases h1
  · rw [hfin] at h1; injection h1 with h1; cases h1
  · exact h1

/-- C13: when `GetPricesFor` returns, every position has finished.  A position has
finished with an error exactly when its call of the service failed during the run, the
error being what `GetPriceFor` makes of the failure.  `GetPricesFor` returns a `nil` slice
with the error of the first such failure, and when there is none it returns the slice, with
the price of each position, and a `nil` error: it returns an error exactly when at least
one position failed, and the error is that of a position.  When the goroutines run one
after the other, the positions finish with what the calls `GetPriceFor(itemCodes[i])`
return, called one after the other, and `GetPricesFor` returns an error exactly when one
of these calls does.  And under every interleaving, a position whose key has no entry and
for which the service fails makes `GetPricesFor` return a `nil` slice and an error. -/
theorem GetPricesFor_fail_fast (c : TransparentCache) (itemCodes : List String)
    (sched : List (Nat × Int)) (nowEnd : Int) :
    (∀ i, i < itemCodes.length → ∃ p e,
      (GetPricesFor.group c itemCodes sched nowEnd).tasks[i]? = some (Task.finished p e)) ∧
    (∀ (i : Nat) (e : String),
      (∃ p, (GetPricesFor.group c itemCodes sched nowEnd).tasks[i]? =
        some (Task.finished p (some e))) ↔
      (i, e) ∈ (Group.start c itemCodes).failures
        (GetPricesFor.steps itemCodes sched nowEnd)) ∧
    ((GetPricesFor c itemCodes sched nowEnd).1 =
      match (Group.start c itemCodes).failures (GetPricesFor.steps itemCodes sched nowEnd) with
      | [] => (some (GetPricesFor.group c itemCodes sched nowEnd).results, none)
      | (_, e) :: _ => (none, some e)) ∧
    ((GetPricesFor c itemCodes sched nowEnd).1.2 ≠ none ↔
      ∃ (i : Nat) (p : Float) (e : String),
        (GetPricesFor.group c itemCodes sched nowEnd).tasks[i]? =
          some (Task.finished p (some e))) ∧
    (∀ e, (GetPricesFor c itemCodes sched nowEnd).1.2 = some e →
      (GetPricesFor c itemCodes sched nowEnd).1.1 = none ∧
      ∃ (i : Nat) (p : Float),
        (GetPricesFor.group c itemCodes sched nowEnd).tasks[i]? =
          some (Task.finished p (some e))) ∧
    (∀ (i : Nat) (p : Float),
      (GetPricesFor.group c itemCodes sched nowEnd).tasks[i]? = some (Task.finished p none) →
      (GetPricesFor.group c itemCodes sched nowEnd).results[i]? = some p) ∧
    (GetPricesFor c itemCodes [] nowEnd).2 = (GetPriceFor.each c nowEnd itemCodes).2 ∧
    (∀ (i : Nat), (GetPricesFor.group c itemCodes [] nowEnd).tasks[i]? =
      ((GetPriceFor.each c nowEnd itemCodes).1)[i]?.map fun r => Task.finished r.1 r.2) ∧
    ((GetPricesFor c itemCodes [] nowEnd).1.2 ≠ none ↔
      ∃ r ∈ (GetPriceFor.each c nowEnd itemCodes).1, r.2 ≠ none) ∧
    (∀ (i : Nat) (k : String), itemCodes[i]? = some k → c.prices k = none →
      (∀ asked, (c.actualPriceService.respond asked k).2 ≠ none) →
      (GetPricesFor c itemCodes sched nowEnd).1.1 = none ∧
      (GetPricesFor c itemCodes sched nowEnd).1.2 ≠ none) := by
  obtain ⟨_, h2, h3, h4⟩ := GetPricesFor.group_sound c itemCodes sched nowEnd
  have hiff : ∀ (sch : List (Nat × Int)),
      (GetPricesFor c itemCodes sch nowEnd).1.2 ≠ none ↔
        ∃ (i : Nat) (p : Float) (e : String),
          (GetPricesFor.group c itemCodes sch nowEnd).tasks[i]? =
            some (Task.finished p (some e)) := by
    intro sch
    obtain ⟨_, _, k3, k4⟩ := GetPricesFor.group_sound c itemCodes sch nowEnd
    rw [GetPricesFor_eq]
    cases herr : (GetPricesFor.group c itemCodes sch nowEnd).err with
    | none =>
      refine ⟨fun h => absurd rfl h, ?_⟩
      rintro ⟨i, p, e, h⟩
      exact absurd herr (k4 i p e h)
    | some e =>
      refine ⟨fun _ => ?_, fun _ => by simp⟩
      obtain ⟨i, p, h⟩ := k3 e herr
      exact ⟨i, p, e, h⟩
  have hstart : ∀ (i : Nat) (e : String),
      ¬ ∃ p, (Group.start c itemCodes).tasks[i]? = some (Task.finished p (some e)) := by
    rintro i e ⟨p, h⟩
    simp only [Group.start, List.getElem?_map] at h
    cases hk : itemCodes[i]? <;> simp [hk] at h
  refine ⟨GetPricesFor.group_finished c itemCodes sched nowEnd, ?_, ?_, hiff sched, ?_, h2,
    ?_, (GetPricesFor.group_each c itemCodes nowEnd).2, ?_, ?_⟩
  · intro i e
    unfold GetPricesFor.group
    rw [Group.run_failed]
    constructor
    · rintro (h | h)
      · exact absurd h (hstart i e)
      · exact h
    · exact Or.inr
  · rw [GetPricesFor_eq]
    have herr := Group.run_err (GetPricesFor.steps itemCodes sched nowEnd)
      (Group.start c itemCodes)
    have hnone : (Group.start c itemCodes).err = none := rfl
    rw [hnone] at herr
    simp only at herr
    have hg : (GetPricesFor.group c itemCodes sched nowEnd).err =
        (((Group.start c itemCodes).failures
          (GetPricesFor.steps itemCodes sched nowEnd)).head?).map Prod.snd := herr
    rw [hg]
    cases (Group.start c itemCodes).failures (GetPricesFor.steps itemCodes sched nowEnd) with
    | nil => rfl
    | cons x xs => rfl
  · intro e he
    rw [GetPricesFor_eq] at he ⊢
    cases herr : (GetPricesFor.group c itemCodes sched nowEnd).err with
    | none => rw [herr] at he; cases he
    | some e0 =>
      rw [herr] at he
      have he0 : e0 = e := by injection he
      subst he0
      exact ⟨rfl, h3 e0 herr⟩
  · rw [GetPricesFor_eq]
    cases (GetPricesFor.group c itemCodes [] nowEnd).err <;>
      exact (GetPricesFor.group_each c itemCodes nowEnd).1
  · rw [hiff []]
    constructor
    · rintro ⟨i, p, e, h⟩
      rw [(GetPricesFor.group_each c itemCodes nowEnd).2 i] at h
      cases hr : ((GetPriceFor.each c nowEnd itemCodes).1)[i]? with
      | none => rw [hr] at h; cases h
      | some r =>
        rw [hr] at h
        have h1 : Task.finished r.1 r.2 = Task.finished p (some e) := by
          simpa using h
        have h2 : r.2 = some e := by injection h1
        exact ⟨r, List.getElem?_mem hr, by rw [h2]; simp⟩
    · rintro ⟨r, hr, hne⟩
      obtain ⟨i, hi⟩ := List.mem_iff_getElem?.1 hr
      cases he : r.2 with
      | none => exact absurd he hne
      | some e =>
        refine ⟨i, r.1, e, ?_⟩
        rw [(GetPricesFor.group_each c itemCodes nowEnd).2 i, hi, ← he]
        rfl
  · intro i k hk habs hfail
    obtain ⟨p, e, h⟩ := GetPricesFor.group_fails c itemCodes sched nowEnd i k hk habs hfail
    have hne := (hiff sched).2 ⟨i, p, e, h⟩
    refine ⟨?_, hne⟩
    rw [GetPricesFor_eq] at hne ⊢
    cases herr : (GetPricesFor.group c itemCodes sched nowEnd).err with
    | none => rw [herr] at hne; exact absurd rfl hne
    | some e0 => rfl

/-- C13 at an input: the service fails for `B` and answers 12.0 for every other key.  In the
batch `A, B, A` the goroutine of `B` calls the service first and fails: `GetPricesFor`
returns a `nil` slice and the error of that position, while the batch `A, A` returns its two
prices and a `nil` error. -/
theorem GetPricesFor_fail_fast_witness :
    (Group.start (NewTransparentCache downForB 1000000000) ["A", "B", "A"]).failures
      (GetPricesFor.steps ["A", "B", "A"] [(2, 1), (1, 1), (0, 2), (1, 2)] 5) =
      [(1, "getting price from service : down")] ∧
    (GetPricesFor (NewTransparentCache downForB 1000000000) ["A", "B", "A"]
      [(2, 1), (1, 1), (0, 2), (1, 2)] 5).1 =
      (none, some "getting price from service : down") ∧
    (GetPricesFor (NewTransparentCache downForB 1000000000) ["A", "A"] [(1, 1)] 5).1 =
      (some [12.0, 12.0], none) :=
  ⟨rfl,
   (GetPricesFor_fail_fast (NewTransparentCache downForB 1000000000) ["A", "B", "A"]
      [(2, 1), (1, 1), (0, 2), (1, 2)] 5).2.2.1.trans rfl,
   (GetPricesFor_fail_fast (NewTransparentCache downForB 1000000000) ["A", "A"]
      [(1, 1)] 5).2.2.1.trans rfl⟩

/-! ## The positions of a batch (C12) -/

theorem expectedPrice_stale (c : TransparentCache) (f : String → Float × Option String)
    (now : Int) (k : String) (h : staleAt c now k = true) :
    expectedPrice c f now k = (f k).1 := by
  unfold staleAt at h
  unfold expectedPrice
  cases hk : c.prices k with
  | none => rfl
  | some d =>
    rw [hk] at h
    simp only [decide_eq_true_eq] at h
    simp [h]

theorem expectedPrice_fresh (c : TransparentCache) (f : String → Float × Option String)
    (now : Int) (k : String) (d : Data) (hd : c.prices k = some d)
    (h : ¬ now > d.Expiration) : expectedPrice c f now k = d.Value := by
  unfold expectedPrice
  rw [hd]
  simp only [h, if_false]

theorem staleAt_of_miss (c : TransparentCache) (now : Int) (k : String)
    (h : c.prices k = none ∨ ∃ d, c.prices k = some d ∧ now > d.Expiration) :
    staleAt c now k = true := by
  unfold staleAt
  rcases h with h | ⟨d, hd, hexp⟩
  · rw [h]
  · rw [hd]; simpa using hexp

theorem Det.tasks_set {c : TransparentCache} {f : String → Float × Option String} {now : Int}
    {keys : List String} {tasks : List Task} {i : Nat} {t0 t1 : Task}
    (h : ∀ (i : Nat) t, tasks[i]? = some t → ∃ k, keys[i]? = some k ∧ t.okFor c f now k)
    (ht : tasks[i]? = some t0)
    (h1 : ∀ k, keys[i]? = some k → t0.okFor c f now k → t1.okFor c f now k) :
    ∀ (j : Nat) t, (tasks.set i t1)[j]? = some t →
      ∃ k, keys[j]? = some k ∧ t.okFor c f now k := by
  intro j t hj
  rcases getElem?_set_cases hj with ⟨hji, ht1⟩ | ⟨_, hold⟩
  · subst hji
    subst ht1
    obtain ⟨k, hk, hok⟩ := h j t0 ht
    exact ⟨k, hk, h1 k hk hok⟩
  · exact h j t hold

/-- A step at a clock reading that tells the same as `now` about the entries of `c`
keeps the batch as `Group.Det` describes it. -/
theorem Group.step_det (c : TransparentCache) (f : String → Float × Option String)
    (now : Int) (keys : List String) (g : Group) (i : Nat) (u : Int)
    (hclk : ∀ k ∈ keys, ∀ d, c.prices k = some d → (u > d.Expiration ↔ now > d.Expiration))
    (hD : g.Det c f now keys) : (g.step i u).Det c f now keys := by
  obtain ⟨hD1, hD2, hD3⟩ := hD
  rcases g.step_cases i u with ⟨h, _, _⟩ | ⟨j, v, ht, hr, h, _⟩ | ⟨j, v, ht, hr, h, _⟩ |
    ⟨j, x, err, ht, _, h, _⟩ | ⟨j, p, ht, hresp, h, _⟩ | ⟨j, p, ht, h, _⟩
  · rw [h]; exact ⟨hD1, hD2, hD3⟩
  · -- a `Read` that finds a price
    rw [h]
    refine ⟨hD1, hD2, Det.tasks_set hD3 ht ?_⟩
    intro k hk hok
    have hjk : j = k := hok
    subst hjk
    obtain ⟨_, d, hd, hv, hfresh⟩ := Read_found g.cache j u v hr
    show v = expectedPrice c f now j
    rcases hD2 j (List.getElem?_mem hk) with hsame | ⟨hst, hnone | ⟨d1, hd1, hval⟩⟩
    · rw [hsame] at hd
      rw [expectedPrice_fresh c f now j d hd
        (fun hc => hfresh ((hclk j (List.getElem?_mem hk) d hd).2 hc)), hv]
    · rw [hnone] at hd; cases hd
    · rw [hd1] at hd
      injection hd with hd
      subst hd
      rw [expectedPrice_stale c f now j hst, ← hval, hv]
  · -- a `Read` that misses
    obtain ⟨k, hk, hok⟩ := hD3 i _ ht
    have hjk : j = k := hok
    subst hjk
    obtain ⟨hgone, hmiss⟩ := Read_not_found g.cache j u v hr
    have hst : staleAt c now j = true := by
      rcases hD2 j (List.getElem?_mem hk) with hsame | ⟨hst, _⟩
      · rw [hsame] at hmiss
        rcases hmiss with h0 | ⟨d, hd, hexp⟩
        · exact staleAt_of_miss c now j (Or.inl h0)
        · exact staleAt_of_miss c now j
            (Or.inr ⟨d, hd, (hclk j (List.getElem?_mem hk) d hd).1 hexp⟩)
      · exact hst
    rw [h]
    refine ⟨?_, ?_, Det.tasks_set hD3 ht ?_⟩
    · intro asked k1
      show (Read g.cache j u).2.actualPriceService.respond asked k1 = f k1
      rw [Read_service]; exact hD1 asked k1
    · intro k1 hk1
      show (Read g.cache j u).2.prices k1 = c.prices k1 ∨ _
      by_cases hkj : k1 = j
      · subst hkj
        exact Or.inr ⟨hst, Or.inl hgone⟩
      · rw [Read_prices_other g.cache j k1 u hkj]
        exact hD2 k1 hk1
    · intro k1 hk1 _
      rw [hk] at hk1
      injection hk1 with hk1
      subst hk1
      exact ⟨rfl, hst⟩
  · -- the service fails
    rw [h]
    exact ⟨hD1, hD2, Det.tasks_set hD3 ht (fun _ _ _ => trivial)⟩
  · -- the service answers
    rw [h]
    refine ⟨hD1, hD2, Det.tasks_set hD3 ht ?_⟩
    intro k _ hok
    obtain ⟨hjk, hst⟩ : j = k ∧ staleAt c now k = true := hok
    subst hjk
    have hp : p = (f j).1 := by
      have := hD1 g.cache.actualPriceService.asked j
      rw [hresp] at this
      rw [← this]
    exact ⟨rfl, hp, hst⟩
  · -- a `Write`
    obtain ⟨k, hk, hok⟩ := hD3 i _ ht
    obtain ⟨hjk, hp, hst⟩ : j = k ∧ p = (f k).1 ∧ staleAt c now k = true := hok
    subst hjk
    rw [h]
    refine ⟨hD1, ?_, Det.tasks_set hD3 ht ?_⟩
    · intro k1 hk1
      show (Write g.cache j p u).prices k1 = c.prices k1 ∨ _
      by_cases hkj : k1 = j
      · subst hkj
        exact Or.inr ⟨hst, Or.inr ⟨_, Write_prices_same g.cache k1 p u, hp⟩⟩
      · rw [Write_prices_other g.cache j k1 p u hkj]
        exact hD2 k1 hk1
    · intro k1 hk1 _
      rw [hk] at hk1
      injection hk1 with hk1
      subst hk1
      show p = expectedPrice c f now j
      rw [expectedPrice_stale c f now j hst, hp]

theorem Group.run_det (c : TransparentCache) (f : String → Float × Option String)
    (now : Int) (keys : List String) (steps : List (Nat × Int)) (g : Group)
    (hclk : ∀ s ∈ steps, ∀ k ∈ keys, ∀ d, c.prices k = some d →
      (s.2 > d.Expiration ↔ now > d.Expiration))
    (hD : g.Det c f now keys) : (g.run steps).Det c f now keys := by
  induction steps generalizing g with
  | nil => exact hD
  | cons s steps ih =>
    exact ih _ (fun s1 hs1 => hclk s1 (List.mem_cons_of_mem _ hs1))
      (g.step_det c f now keys s.1 s.2 (hclk s (List.mem_cons_self _ _)) hD)

theorem Group.start_det (c : TransparentCache) (f : String → Float × Option String)
    (now : Int) (keys : List String)
    (hf : ∀ asked k, c.actualPriceService.respond asked k = f k) :
    (Group.start c keys).Det c f now keys := by
  refine ⟨hf, fun k _ => Or.inl rfl, ?_⟩
  intro i t ht
  simp only [Group.start, List.getElem?_map] at ht
  cases hk : keys[i]? with
  | none => simp [hk] at ht
  | some k =>
    simp only [hk, Option.map_some', Option.some.injEq] at ht
    subst ht
    exact ⟨k, rfl, rfl⟩

/-- C12: when `GetPricesFor` returns a slice `out` and a `nil` error, `out` has the length
of the input, and `out[i]` is the price with which position `i` finished its `GetPriceFor`,
for every `i`, whatever the interleaving.  When moreover the service is a function `f` of
the key and no clock reading of the call tells otherwise than `nowEnd` whether an entry of
the initial cache has expired, `out` is the same under every interleaving: at each position
the cached value if the key is fresh in the initial cache, otherwise the price of `f`. -/
theorem GetPricesFor_order (c : TransparentCache) (itemCodes : List String)
    (sched : List (Nat × Int)) (nowEnd : Int) (out : List Float)
    (hok : (GetPricesFor c itemCodes sched nowEnd).1 = (some out, none)) :
    out.length = itemCodes.length ∧
    (∀ i, i < itemCodes.length → ∃ p,
      (GetPricesFor.group c itemCodes sched nowEnd).tasks[i]? = some (Task.finished p none) ∧
      out[i]? = some p) ∧
    (∀ f : String → Float × Option String,
      (∀ asked k, c.actualPriceService.respond asked k = f k) →
      (∀ s ∈ GetPricesFor.steps itemCodes sched nowEnd, ∀ k ∈ itemCodes, ∀ d,
        c.prices k = some d → (s.2 > d.Expiration ↔ nowEnd > d.Expiration)) →
      out = itemCodes.map (expectedPrice c f nowEnd)) := by
  obtain ⟨hlen, hres, _, herrs⟩ := GetPricesFor.group_sound c itemCodes sched nowEnd
  have hglen := GetPricesFor.group_length c itemCodes sched nowEnd
  -- the call returned `results`, and no error was kept
  have hfinal : (GetPricesFor.group c itemCodes sched nowEnd).err = none ∧
      out = (GetPricesFor.group c itemCodes sched nowEnd).results := by
    rw [GetPricesFor_eq] at hok
    cases herr : (GetPricesFor.group c itemCodes sched nowEnd).err with
    | none =>
      rw [herr] at hok
      simp only [Prod.mk.injEq, Option.some.injEq, and_true] at hok
      exact ⟨rfl, hok.symm⟩
    | some e =>
      rw [herr] at hok
      simp at hok
  obtain ⟨herr, hout⟩ := hfinal
  have hpos : ∀ i, i < itemCodes.length → ∃ p,
      (GetPricesFor.group c itemCodes sched nowEnd).tasks[i]? = some (Task.finished p none) ∧
      out[i]? = some p := by
    intro i hi
    obtain ⟨p, e, h⟩ := GetPricesFor.group_finished c itemCodes sched nowEnd i hi
    cases e with
    | none => exact ⟨p, h, by rw [hout]; exact hres i p h⟩
    | some e => exact absurd herr (herrs i p e h)
  refine ⟨by rw [hout, hlen, hglen], hpos, ?_⟩
  intro f hf hclk
  have hD : (GetPricesFor.group c itemCodes sched nowEnd).Det c f nowEnd itemCodes :=
    Group.run_det c f nowEnd itemCodes _ _ hclk (Group.start_det c f nowEnd itemCodes hf)
  apply List.ext_getElem?
  intro i
  by_cases hi : i < itemCodes.length
  · obtain ⟨p, hp, hpo⟩ := hpos i hi
    obtain ⟨k, hk, hokf⟩ := hD.2.2 i _ hp
    have hpe : p = expectedPrice c f nowEnd k := hokf
    rw [hpo, List.getElem?_map, hk, hpe]
    rfl
  · have h1 : out.length ≤ i := by rw [hout, hlen, hglen]; omega
    rw [List.getElem?_eq_none h1, List.getElem?_eq_none (by simpa using hi)]

theorem scenario_prices (k : String) (d : Data) (h : scenarioCache.prices k = some d) :
    d.Expiration = 1000000000 := by
  by_cases hk : k = "A"
  · subst hk
    simp [scenarioCache, Write, NewTransparentCache] at h
    rw [← h]
  · simp [scenarioCache, Write, NewTransparentCache, Function.update_noteq hk] at h

/-- C12 at an input: in the scenario (`A` cached with 10.0, the service answering 12.0) the
batch `B, A, B` returns `12.0, 10.0, 12.0`, here with the goroutine of the last position
reading first. -/
theorem GetPricesFor_order_witness :
    (GetPricesFor scenarioCache ["B", "A", "B"] [(2, 5), (0, 6), (2, 7)] 8).1 =
      (some [12.0, 10.0, 12.0], none) ∧
    [(12.0 : Float), 10.0, 12.0].length = ["B", "A", "B"].length ∧
    (∀ i, i < ["B", "A", "B"].length → ∃ p,
      (GetPricesFor.group scenarioCache ["B", "A", "B"] [(2, 5), (0, 6), (2, 7)] 8).tasks[i]? =
        some (Task.finished p none) ∧
      [(12.0 : Float), 10.0, 12.0][i]? = some p) ∧
    [(12.0 : Float), 10.0, 12.0] =
      ["B", "A", "B"].map (expectedPrice scenarioCache (fun _ => (12.0, none)) 8) :=
  have h := GetPricesFor_order scenarioCache ["B", "A", "B"] [(2, 5), (0, 6), (2, 7)] 8
    [12.0, 10.0, 12.0] rfl
  ⟨rfl, h.1, h.2.1, h.2.2 (fun _ => (12.0, none)) (fun _ _ => rfl) (by
    intro s hs k _ d hd
    have hexp := scenario_prices k d hd
    have hs8 : ∀ s ∈ GetPricesFor.steps ["B", "A", "B"] [(2, 5), (0, 6), (2, 7)] 8,
        s.2 ≤ 8 := by decide
    have := hs8 s hs
    constructor <;> intro hc <;> omega)⟩

/-! ## What the error says (C16) -/

theorem containsText_append (pre msg : String) : containsText (pre ++ msg) msg = true := by
  simp only [containsText, List.any_eq_true, String.data_append]
  exact ⟨msg.data, (List.mem_tails _ _).2 (List.suffix_append _ _),
    List.isPrefixOf_iff_prefix.2 (List.prefix_refl _)⟩

theorem forall_tasks_set {P : String → Task → Prop} {keys : List String} {tasks : List Task}
    {i : Nat} {t0 t1 : Task}
    (h : ∀ (i : Nat) t, tasks[i]? = some t → ∃ k, keys[i]? = some k ∧ P k t)
    (ht : tasks[i]? = some t0)
    (h1 : ∀ k, keys[i]? = some k → P k t0 → P k t1) :
    ∀ (j : Nat) t, (tasks.set i t1)[j]? = some t → ∃ k, keys[j]? = some k ∧ P k t := by
  intro j t hj
  rcases getElem?_set_cases hj with ⟨hji, ht1⟩ | ⟨_, hold⟩
  · subst hji
    subst ht1
    obtain ⟨k, hk, hok⟩ := h j t0 ht
    exact ⟨k, hk, h1 k hk hok⟩
  · exact h j t hold

theorem Group.step_prov (c : TransparentCache) (keys : List String) (g : Group) (i : Nat)
    (now : Int) (hP : g.Prov c keys) : (g.step i now).Prov c keys := by
  obtain ⟨hP1, hP2⟩ := hP
  rcases g.step_cases i now with ⟨h, _, _⟩ | ⟨j, v, ht, _, h, _⟩ | ⟨j, v, ht, _, h, _⟩ |
    ⟨j, x, err, ht, hresp, h, _⟩ | ⟨j, p, ht, _, h, _⟩ | ⟨j, p, ht, h, _⟩
  · rw [h]; exact ⟨hP1, hP2⟩
  · rw [h]; exact ⟨hP1, forall_tasks_set hP2 ht (fun _ _ _ => trivial)⟩
  · rw [h]
    refine ⟨?_, forall_tasks_set hP2 ht (fun _ _ hk => hk)⟩
    show (Read g.cache j now).2.actualPriceService.respond = _
    rw [Read_service]; exact hP1
  · rw [h]
    refine ⟨hP1, forall_tasks_set hP2 ht ?_⟩
    intro k _ hk
    have hjk : j = k := hk
    subst hjk
    refine ⟨rfl, g.cache.actualPriceService.asked, x, err, ?_, rfl⟩
    rw [← hP1]; exact hresp
  · rw [h]; exact ⟨hP1, forall_tasks_set hP2 ht (fun _ _ hk => hk)⟩
  · rw [h]; exact ⟨hP1, forall_tasks_set hP2 ht (fun _ _ _ => trivial)⟩

theorem Group.run_prov (c : TransparentCache) (keys : List String) (steps : List (Nat × Int))
    (g : Group) (hP : g.Prov c keys) : (g.run steps).Prov c keys := by
  induction steps generalizing g with
  | nil => exact hP
  | cons s steps ih => exact ih _ (g.step_prov c keys s.1 s.2 hP)

theorem Group.start_prov (c : TransparentCache) (keys : List String) :
    (Group.start c keys).Prov c keys := by
  refine ⟨rfl, ?_⟩
  intro i t ht
  simp only [Group.start, List.getElem?_map] at ht
  cases hk : keys[i]? with
  | none => simp [hk] at ht
  | some k =>
    simp only [hk, Option.map_some', Option.some.injEq] at ht
    subst ht
    exact ⟨k, rfl, rfl⟩

theorem staleCache_batch_error :
    GetPricesFor staleCache ["B", "A"] [(1, 2), (0, 2)] 3 =
      ((none, some "getting price from service : down"),
        (GetPricesFor.group staleCache ["B", "A"] [(1, 2), (0, 2)] 3).cache) := rfl

/-- C16 as stated fails: the service fails with the message `down`; the error that
`GetPriceFor("A")` returns, and the error that a `GetPricesFor` returns whose failing keys
are `B` and `A`, is `getting price from service : down`, in which `A` does not occur. -/
theorem error_does_not_name_key :
    (GetPriceFor staleCache "A" 2 2).1.2 = some "getting price from service : down" ∧
    (GetPricesFor staleCache ["B", "A"] [(1, 2), (0, 2)] 3).1.2 =
      some "getting price from service : down" ∧
    containsText "getting price from service : down" "A" = false := by
  rw [staleCache_error, staleCache_batch_error]
  exact ⟨rfl, rfl, by decide⟩

/-- C16, as the code has it: the error that `GetPricesFor` returns is the error of a
position `i` that failed, namely `getting price from service : ` followed by the message
`msg` of an error that the service gave for the key of that position; `msg` occurs in it,
and nothing else about the key does.  The error of a single `GetPriceFor(k)` is of the same
form, with the error that the service gave for `k`. -/
theorem error_names_failure (c : TransparentCache) (itemCodes : List String)
    (sched : List (Nat × Int)) (nowEnd : Int) (e : String)
    (herr : (GetPricesFor c itemCodes sched nowEnd).1.2 = some e) :
    (∃ (i : Nat) (k : String) (asked : List String) (x : Float) (msg : String),
      itemCodes[i]? = some k ∧
      (GetPricesFor.group c itemCodes sched nowEnd).tasks[i]? =
        some (Task.finished 0 (some e)) ∧
      c.actualPriceService.respond asked k = (x, some msg) ∧
      e = "getting price from service : " ++ msg ∧ containsText e msg = true) ∧
    (∀ (c1 : TransparentCache) (k : String) (nowR nowW : Int) (e1 : String),
      (GetPriceFor c1 k nowR nowW).1.2 = some e1 →
      ∃ (x : Float) (msg : String),
        c1.actualPriceService.respond c1.actualPriceService.asked k = (x, some msg) ∧
        e1 = "getting price from service : " ++ msg ∧ containsText e1 msg = true) := by
  constructor
  · obtain ⟨_, _, h3, _⟩ := GetPricesFor.group_sound c itemCodes sched nowEnd
    have hP : (GetPricesFor.group c itemCodes sched nowEnd).Prov c itemCodes :=
      Group.run_prov c itemCodes _ _ (Group.start_prov c itemCodes)
    have hge : (GetPricesFor.group c itemCodes sched nowEnd).err = some e := by
      rw [GetPricesFor_eq] at herr
      cases hg : (GetPricesFor.group c itemCodes sched nowEnd).err with
      | none => rw [hg] at herr; cases herr
      | some e0 => rw [hg] at herr; exact herr
    obtain ⟨i, p, hi⟩ := h3 e hge
    obtain ⟨k, hk, hfrom⟩ := hP.2 i _ hi
    obtain ⟨hp0, asked, x, msg, hresp, hmsg⟩ :
        p = 0 ∧ ∃ asked x msg, c.actualPriceService.respond asked k = (x, some msg) ∧
          e = "getting price from service : " ++ msg := hfrom
    subst hp0
    exact ⟨i, k, asked, x, msg, hk, hi, hresp, hmsg, by rw [hmsg]; exact containsText_append _ _⟩
  · intro c1 k nowR nowW e1 h1
    obtain ⟨hmiss, _⟩ := GetPriceFor_error c1 k nowR nowW e1 h1
    rcases hresp : c1.actualPriceService.respond c1.actualPriceService.asked k with ⟨x, _ | msg⟩
    · rw [(GetPriceFor_of_miss c1 k nowR nowW hmiss).2 x hresp] at h1
      cases h1
    · rw [(GetPriceFor_of_miss c1 k nowR nowW hmiss).1 x msg hresp] at h1
      injection h1 with h1
      exact ⟨x, msg, rfl, h1.symm, by rw [← h1]; exact containsText_append _ _⟩

/-- C16 (amended) at an input: the batch `B, A` on the failing service. -/
theorem error_names_failure_witness :
    ∃ (i : Nat) (k : String) (asked : List String) (x : Float) (msg : String),
      ["B", "A"][i]? = some k ∧
      (GetPricesFor.group staleCache ["B", "A"] [(1, 2), (0, 2)] 3).tasks[i]? =
        some (Task.finished 0 (some "getting price from service : down")) ∧
      staleCache.actualPriceService.respond asked k = (x, some msg) ∧
      "getting price from service : down" = "getting price from service : " ++ msg ∧
      containsText "getting price from service : down" msg = true :=
  (error_names_failure staleCache ["B", "A"] [(1, 2), (0, 2)] 3
    "getting price from service : down" (by rw [staleCache_batch_error])).1

/-! ## Properties kept along every run -/

theorem Group.step_preserved {R : Int → Int → Prop}
    {I : TransparentCache → List Event → List Int → Prop} (hI : Preserved R I)
    (g : Group) (i : Nat) (now : Int) (log : List Event) (fut : List Int)
    (h0 : I g.cache log (now :: fut)) (hnow : ∀ u ∈ fut, R now u) :
    I (g.step i now).cache (log ++ g.stepEvents i now) fut := by
  rcases g.step_cases i now with ⟨h, he, _⟩ | ⟨j, v, _, hr, h, he⟩ | ⟨j, v, _, _, h, he⟩ |
    ⟨j, x, err, _, _, h, he⟩ | ⟨j, p, _, _, h, he⟩ | ⟨j, p, _, h, he⟩
  · rw [h, he, List.append_nil]
    exact hI.tick _ _ _ _ h0
  · rw [h, he]
    have h1 := hI.got _ _ _ j v now (hI.hit _ _ _ _ j v h0 hr)
    rw [List.append_assoc] at h1
    exact hI.tick _ _ _ _ h1
  · rw [h, he, List.append_nil]
    exact hI.tick _ _ _ _ (hI.miss _ _ _ _ j h0)
  · rw [h, he, List.append_nil]
    exact hI.tick _ _ _ _ (hI.asked _ _ _ _ h0)
  · rw [h, he, List.append_nil]
    exact hI.tick _ _ _ _ (hI.asked _ _ _ _ h0)
  · rw [h, he]
    have h1 := hI.got _ _ _ j p now (hI.write _ _ _ _ j p h0 hnow)
    rw [List.append_assoc] at h1
    exact hI.tick _ _ _ _ h1

theorem Group.run_preserved {R : Int → Int → Prop}
    {I : TransparentCache → List Event → List Int → Prop} (hI : Preserved R I)
    (steps : List (Nat × Int)) (g : Group) (log : List Event) (fut : List Int)
    (h0 : I g.cache log (steps.map Prod.snd ++ fut))
    (hP : (steps.map Prod.snd ++ fut).Pairwise R) :
    I (g.run steps).cache (log ++ g.runEvents steps) fut := by
  induction steps generalizing g log with
  | nil => simpa [Group.runEvents, Group.run_nil] using h0
  | cons s steps ih =>
    simp only [List.map_cons, List.cons_append, List.pairwise_cons] at h0 hP
    have h1 := Group.step_preserved hI g s.1 s.2 log _ h0 hP.1
    have h2 := ih (g.step s.1 s.2) _ h1 hP.2
    rw [Group.run_cons]
    simp only [Group.runEvents]
    rw [← List.append_assoc]
    exact h2

theorem Call.exec_preserved {R : Int → Int → Prop}
    {I : TransparentCache → List Event → List Int → Prop} (hI : Preserved R I)
    (c : TransparentCache) (call : Call) (log : List Event) (fut : List Int)
    (h0 : I c log (call.clock ++ fut)) (hP : (call.clock ++ fut).Pairwise R) :
    I (call.exec c) (log ++ call.events c) fut := by
  cases call with
  | Write k v now =>
    simp only [Call.clock, List.singleton_append, List.pairwise_cons] at h0 hP
    exact hI.tick _ _ _ _ (hI.write _ _ _ _ k v h0 hP.1)
  | Read k now =>
    simp only [Call.clock, List.singleton_append] at h0
    show I (Sample1.Read c k now).2 (log ++ Read.events c k now) fut
    rcases hR : Sample1.Read c k now with ⟨⟨v, found⟩, c1⟩
    cases found with
    | true =>
      have h1 := hI.miss _ _ _ _ k (hI.hit _ _ _ _ k v h0 (by rw [hR]))
      rw [hR] at h1
      simp only [Read.events, hR]
      exact hI.tick _ _ _ _ h1
    | false =>
      have h1 := hI.miss _ _ _ _ k h0
      rw [hR] at h1
      simp only [Read.events, hR, List.append_nil]
      exact hI.tick _ _ _ _ h1
  | GetPriceFor k nowR nowW =>
    simp only [Call.clock, List.cons_append, List.nil_append, List.pairwise_cons] at h0 hP
    show I (Sample1.GetPriceFor c k nowR nowW).2 (log ++ GetPriceFor.events c k nowR nowW) fut
    rcases hR : Sample1.Read c k nowR with ⟨⟨v, found⟩, c1⟩
    cases found with
    | true =>
      rw [GetPriceFor_of_hit c k nowR nowW v (by rw [hR])]
      simp only [GetPriceFor.events, hR]
      have h1 := hI.got _ _ _ k v nowR (hI.hit _ _ _ _ k v h0 (by rw [hR]))
      rw [List.append_assoc] at h1
      exact hI.tick _ _ _ _ (hI.tick _ _ _ _ h1)
    | false =>
      have hmiss := (Read_not_found c k nowR v (by rw [hR])).2
      have hc1 : c1 = (Sample1.Read c k nowR).2 := by rw [hR]
      have hsvc : c1.actualPriceService = c.actualPriceService := by
        rw [hc1]; exact Read_service c k nowR
      have h1 := hI.tick _ _ _ _ (hI.miss _ _ _ _ k h0)
      rw [Read_of_miss c k nowR hmiss] at h1
      have h2 := hI.asked _ _ _
        { c.actualPriceService with asked := c.actualPriceService.asked ++ [k] } h1
      rcases hresp : c.actualPriceService.respond c.actualPriceService.asked k
        with ⟨x, _ | err⟩
      · rw [(GetPriceFor_of_miss c k nowR nowW hmiss).2 x hresp]
        simp only [GetPriceFor.events, hR, hsvc, PriceService.GetPriceFor, hresp]
        have h3 := hI.got _ _ _ k x nowW (hI.write _ _ _ _ k x h2 hP.2.1)
        rw [List.append_assoc] at h3
        exact hI.tick _ _ _ _ h3
      · rw [(GetPriceFor_of_miss c k nowR nowW hmiss).1 x err hresp]
        simp only [GetPriceFor.events, hR, hsvc, PriceService.GetPriceFor, hresp,
          List.append_nil]
        exact hI.tick _ _ _ _ h2
  | GetPricesFor itemCodes sched nowEnd =>
    simp only [Call.clock] at h0 hP
    show I (Sample1.GetPricesFor c itemCodes sched nowEnd).2
      (log ++ (Group.start c itemCodes).runEvents
        (GetPricesFor.steps itemCodes sched nowEnd)) fut
    rw [GetPricesFor_cache]
    exact Group.run_preserved hI _ (Group.start c itemCodes) log fut h0 hP

theorem history_preserved {R : Int → Int → Prop}
    {I : TransparentCache → List Event → List Int → Prop} (hI : Preserved R I)
    (calls : List Call) (c : TransparentCache) (log : List Event) (fut : List Int)
    (h0 : I c log (calls.flatMap Call.clock ++ fut))
    (hP : (calls.flatMap Call.clock ++ fut).Pairwise R) :
    I (runCalls c calls) (log ++ history c calls) fut := by
  induction calls generalizing c log with
  | nil => simpa [history, runCalls_nil] using h0
  | cons call calls ih =>
    simp only [List.flatMap_cons, List.append_assoc] at h0 hP
    have h1 := Call.exec_preserved hI c call log _ h0 hP
    have h2 := ih (call.exec c) _ h1 (List.pairwise_append.1 hP).2.1
    rw [runCalls_cons]
    simp only [history]
    rw [← List.append_assoc]
    exact h2

/-! ## The expiration of an entry, taken exactly -/

theorem lastWrite_append (k : String) (xs ys : List Event) :
    lastWrite k (xs ++ ys) =
      match lastWrite k ys with
      | some w => some w
      | none => lastWrite k xs := by
  induction xs with
  | nil =>
    simp only [List.nil_append, lastWrite]
    cases lastWrite k ys <;> rfl
  | cons x xs ih =>
    have hx : ∀ l, lastWrite k (x :: l) =
        match lastWrite k l with
        | some w => some w
        | none =>
          match x with
          | .wrote j v t => if j = k then some (v, t) else none
          | _ => none := fun _ => rfl
    rw [List.cons_append, hx, hx, ih]
    cases lastWrite k ys <;> cases lastWrite k xs <;> rfl

theorem lastWrite_found (k : String) (log : List Event) (j : String) (v : Float) (t : Int) :
    lastWrite k (log ++ [Event.found j v t]) = lastWrite k log := by
  rw [lastWrite_append]; rfl

theorem lastWrite_got (k : String) (log : List Event) (j : String) (v : Float) (t : Int) :
    lastWrite k (log ++ [Event.got j v t]) = lastWrite k log := by
  rw [lastWrite_append]; rfl

theorem lastWrite_wrote_same (k : String) (log : List Event) (v : Float) (t : Int) :
    lastWrite k (log ++ [Event.wrote k v t]) = some (v, t) := by
  rw [lastWrite_append]; simp [lastWrite]

theorem lastWrite_wrote_other (k : String) (log : List Event) (j : String) (v : Float)
    (t : Int) (h : j ≠ k) : lastWrite k (log ++ [Event.wrote j v t]) = lastWrite k log := by
  rw [lastWrite_append]; simp [lastWrite, h]

theorem Latest_preserved (m : Int) (k : String) (before : Option Data) :
    Preserved (fun _ _ => True) (fun c log _ => Latest m k before c log) where
  tick := fun _ _ _ _ h => h
  hit := fun c log now _ j v h _ => by
    unfold Latest at h ⊢
    rw [lastWrite_found]; exact h
  got := fun c log _ j v t h => by
    unfold Latest at h ⊢
    rw [lastWrite_got]; exact h
  miss := fun c log now _ j h => by
    unfold Latest at h ⊢
    refine ⟨(Read_maxAge c j now).trans h.1, ?_⟩
    rcases Read_prices_cases c j k now with h1 | h1
    · rw [h1]; exact h.2
    · exact Or.inl h1
  asked := fun _ _ _ _ h => h
  write := fun c log now _ j v h _ => by
    unfold Latest at h ⊢
    refine ⟨h.1, ?_⟩
    by_cases hjk : j = k
    · subst hjk
      right
      rw [lastWrite_wrote_same]
      show (Write c j v now).prices j = _
      rw [Write_prices_same, h.1]
    · rw [lastWrite_wrote_other k log j v now hjk, Write_prices_other c j k v now (Ne.symm hjk)]
      exact h.2

/-- With the expiration taken exactly: in the state reached from a cache `c` by any sequence of
`Write`, `Read`, `GetPriceFor` and `GetPricesFor` calls, an entry `d` stored for `k` is, whole,
what the most recent `Write` to `k` of the run stored: its price, and as expiration the instant
of that `Write` plus `maxAge`; when the run has no `Write` to `k`, `d` is the entry that `c`
had, so that nothing but a `Write` to `k` changes the value or the expiration of an entry. From
a cache made by `NewTransparentCache`, which has no entry, the first case is the only one. -/
theorem expiration_invariant (c : TransparentCache) (calls : List Call) (k : String) (d : Data)
    (h : (runCalls c calls).prices k = some d) :
    (match lastWrite k (history c calls) with
      | some (v, t) => d = { Value := v, Expiration := t + c.maxAge }
      | none => c.prices k = some d) ∧
    (∀ svc maxAge, c = NewTransparentCache svc maxAge →
      ∃ v t, lastWrite k (history c calls) = some (v, t) ∧
        d = { Value := v, Expiration := t + maxAge }) := by
  have h0 : Latest c.maxAge k (c.prices k) c [] := ⟨rfl, Or.inr rfl⟩
  have h1 := history_preserved (Latest_preserved c.maxAge k (c.prices k)) calls c [] []
    (by simpa using h0) (List.pairwise_of_forall (fun _ _ => trivial))
  simp only [List.nil_append] at h1
  have h2 : match lastWrite k (history c calls) with
      | some (v, t) => d = { Value := v, Expiration := t + c.maxAge }
      | none => c.prices k = some d := by
    rcases h1.2 with h3 | h3
    · rw [h3] at h; cases h
    · cases hl : lastWrite k (history c calls) with
      | none =>
        rw [hl] at h3
        show c.prices k = some d
        rw [← h3, h]
      | some w =>
        rw [hl] at h3
        show d = { Value := w.1, Expiration := w.2 + c.maxAge }
        have h4 : (runCalls c calls).prices k =
            some { Value := w.1, Expiration := w.2 + c.maxAge } := h3
        rw [h] at h4
        injection h4
  refine ⟨h2, ?_⟩
  intro svc maxAge hc
  cases hl : lastWrite k (history c calls) with
  | none =>
    rw [hl] at h2
    have h5 : c.prices k = some d := h2
    rw [hc] at h5
    simp [NewTransparentCache] at h5
  | some w =>
    rw [hl] at h2
    have h5 : d = { Value := w.1, Expiration := w.2 + c.maxAge } := h2
    exact ⟨w.1, w.2, rfl, by rw [h5, hc]; rfl⟩

/-- `expiration_invariant` at an input: after `Write("A", 10.0)` at 0, a `GetPriceFor("B")` and
`Write("A", 11.0)` at 7, with `maxAge` one second, the entry of `A` is the 11.0 written at 7 and
expires at 7 plus one second. -/
theorem expiration_invariant_witness :
    ∃ v t, lastWrite "A" (history (NewTransparentCache (fixedService 12.0) 1000000000)
        [Call.Write "A" 10.0 0, Call.GetPriceFor "B" 5 6, Call.Write "A" 11.0 7]) = some (v, t) ∧
      ({ Value := 11.0, Expiration := 1000000007 } : Data) =
        { Value := v, Expiration := t + 1000000000 } :=
  (expiration_invariant (NewTransparentCache (fixedService 12.0) 1000000000)
    [Call.Write "A" 10.0 0, Call.GetPriceFor "B" 5 6, Call.Write "A" 11.0 7] "A"
    { Value := 11.0, Expiration := 1000000007 } rfl).2 (fixedService 12.0) 1000000000 rfl

/-! ## A negative or zero `maxAge` (C19) -/

theorem NeverFound_preserved (m : Int) (hm : m < 0) :
    Preserved (fun a b => a ≤ b) (NeverFound m) where
  tick := fun c log now fut h =>
    ⟨h.1, fun k d hd u hu => h.2.1 k d hd u (List.mem_cons_of_mem _ hu), h.2.2⟩
  hit := fun c log now fut k v h hr => by
    obtain ⟨_, d, hd, _, hfresh⟩ := Read_found c k now v hr
    have := h.2.1 k d hd now (List.mem_cons_self _ _)
    exact absurd (show now > d.Expiration by omega) hfresh
  got := fun c log fut k v t h =>
    ⟨h.1, h.2.1, fun j w u hmem => by
      rcases List.mem_append.1 hmem with h1 | h1
      · exact h.2.2 j w u h1
      · simp at h1⟩
  miss := fun c log now fut k h => by
    refine ⟨(Read_maxAge c k now).trans h.1, fun j d hd => ?_, h.2.2⟩
    rcases Read_prices_cases c k j now with h1 | h1
    · exact h.2.1 j d (h1 ▸ hd)
    · rw [h1] at hd; cases hd
  asked := fun _ _ _ _ h => h
  write := fun c log now fut k v h hnow => by
    refine ⟨h.1, fun j d hd u hu => ?_, fun j w u hmem => ?_⟩
    · by_cases hjk : j = k
      · subst hjk
        rw [Write_prices_same] at hd
        injection hd with hd
        subst hd
        show now + c.maxAge - m ≤ u
        rw [h.1]
        rcases List.mem_cons.1 hu with h1 | h1
        · omega
        · have := hnow u h1; omega
      · rw [Write_prices_other c k j v now hjk] at hd
        exact h.2.1 j d hd u hu
    · rcases List.mem_append.1 hmem with h1 | h1
      · exact h.2.2 j w u h1
      · simp at h1

/-- C19: on a cache made by `NewTransparentCache`, under a clock that never goes back.
With `maxAge < 0`, no `Read` of the run finds a price (those inside `GetPriceFor` and
`GetPricesFor` included), a `Read` that follows the run finds none, and a `GetPriceFor`
that follows the run asks the service.  With `maxAge = 0`, a price that a `Read` finds for
a key at an instant was written for that key at that very instant. -/
theorem negative_maxAge_disables_caching (svc : PriceService) (maxAge : Int)
    (calls : List Call) (k : String) (nowR nowW : Int)
    (hClock : (calls.flatMap Call.clock ++ [nowR]).Pairwise (fun a b => a ≤ b)) :
    (maxAge < 0 →
      (∀ j v t, Event.found j v t ∉ history (NewTransparentCache svc maxAge) calls) ∧
      (Read (runCalls (NewTransparentCache svc maxAge) calls) k nowR).1 = (0, false) ∧
      (GetPriceFor (runCalls (NewTransparentCache svc maxAge) calls) k nowR
          nowW).2.actualPriceService.asked =
        (runCalls (NewTransparentCache svc maxAge) calls).actualPriceService.asked ++ [k]) ∧
    (maxAge = 0 →
      ∀ pre post j v t',
        history (NewTransparentCache svc maxAge) calls = pre ++ Event.found j v t' :: post →
        Event.wrote j v t' ∈ pre) := by
  constructor
  · intro hm
    have h0 : NeverFound maxAge (NewTransparentCache svc maxAge) []
        (calls.flatMap Call.clock ++ [nowR]) :=
      ⟨rfl, fun j d hd => by simp [NewTransparentCache] at hd, fun _ _ _ h => by cases h⟩
    have h1 := history_preserved (NeverFound_preserved maxAge hm) calls _ [] [nowR] h0 hClock
    simp only [List.nil_append] at h1
    have hmiss : (runCalls (NewTransparentCache svc maxAge) calls).prices k = none ∨
        ∃ d, (runCalls (NewTransparentCache svc maxAge) calls).prices k = some d ∧
          nowR > d.Expiration := by
      cases hk : (runCalls (NewTransparentCache svc maxAge) calls).prices k with
      | none => exact Or.inl rfl
      | some d =>
        have := h1.2.1 k d hk nowR (List.mem_singleton.2 rfl)
        exact Or.inr ⟨d, rfl, by omega⟩
    refine ⟨h1.2.2, by rw [Read_of_miss _ k nowR hmiss], ?_⟩
    rcases hresp : (runCalls (NewTransparentCache svc maxAge) calls).actualPriceService.respond
        (runCalls (NewTransparentCache svc maxAge) calls).actualPriceService.asked k
      with ⟨x, _ | err⟩
    · rw [(GetPriceFor_of_miss _ k nowR nowW hmiss).2 x hresp]; rfl
    · rw [(GetPriceFor_of_miss _ k nowR nowW hmiss).1 x err hresp]
  · intro hm pre post j v t' hev
    have h := history_justified maxAge (by omega) calls (NewTransparentCache svc maxAge) []
      (Backed_New svc maxAge _) (List.pairwise_append.1 hClock).1
    rw [hev] at h
    have h2 := ((allJustified_append maxAge pre _ []).1 h).2.1
    obtain ⟨t, hw, h3, h4⟩ : ∃ t, Event.wrote j v t ∈ pre ∧ t ≤ t' ∧ t' ≤ t + maxAge := by
      simpa [Event.justified] using h2
    have : t = t' := by omega
    rw [← this]; exact hw

/-- C19 at an input: with `maxAge` of minus one nanosecond, `Write("A", 10.0)` at 0 and a
`GetPriceFor("B")`, then `Read("A")` at 7 finds nothing and `GetPriceFor("A")` asks the
service. -/
theorem negative_maxAge_disables_caching_witness :
    (∀ j v t, Event.found j v t ∉ history (NewTransparentCache (fixedService 12.0) (-1))
        [Call.Write "A" 10.0 0, Call.GetPriceFor "B" 5 6]) ∧
    (Read (runCalls (NewTransparentCache (fixedService 12.0) (-1))
        [Call.Write "A" 10.0 0, Call.GetPriceFor "B" 5 6]) "A" 7).1 = (0, false) ∧
    (GetPriceFor (runCalls (NewTransparentCache (fixedService 12.0) (-1))
        [Call.Write "A" 10.0 0, Call.GetPriceFor "B" 5 6]) "A" 7 7).2.actualPriceService.asked =
      (runCalls (NewTransparentCache (fixedService 12.0) (-1))
        [Call.Write "A" 10.0 0, Call.GetPriceFor "B" 5 6]).actualPriceService.asked ++ ["A"] :=
  (negative_maxAge_disables_caching (fixedService 12.0) (-1)
    [Call.Write "A" 10.0 0, Call.GetPriceFor "B" 5 6] "A" 7 7 (by decide)).1 (by decide)

/-! ## Two calls for the same key, when `Read` and `Write` are single steps

Two concurrent calls of `GetPriceFor(k)` are the two goroutines of the group started for
`[k, k]`: the slice and the error of the group play no part. -/

theorem mem_set_self {α : Type} {l : List α} {i : Nat} {a b : α} (h : l[i]? = some b) :
    a ∈ l.set i a :=
  List.getElem?_mem (List.getElem?_set_self (getElem?_lt h))

/-- A step of a race at a reading at which the entry of `c` for `k` is absent or expired. -/
theorem Group.step_race (c : TransparentCache) (k : String) (p1 p2 : Float)
    (readings : List Int) (g : Group) (i : Nat) (now : Int)
    (hnow : now ∈ readings)
    (hexp : c.prices k = none ∨ ∃ d, c.prices k = some d ∧ now > d.Expiration)
    (hsvc : ∀ asked, c.actualPriceService.respond asked k = (p1, none) ∨
      c.actualPriceService.respond asked k = (p2, none))
    (hR : g.Race c k p1 p2 readings) : (g.step i now).Race c k p1 p2 readings := by
  obtain ⟨hm, hresp0, hpr, hT, hJ⟩ := hR
  rcases g.step_cases i now with ⟨h, _, _⟩ | ⟨j, v, ht, hr, h, _⟩ | ⟨j, v, ht, hr, h, _⟩ |
    ⟨j, x, err, ht, hresp, h, _⟩ | ⟨j, p, ht, hresp, h, _⟩ | ⟨j, p, ht, h, _⟩
  · rw [h]; exact ⟨hm, hresp0, hpr, hT, hJ⟩
  · -- a `Read` that finds a price: the price was written in the race
    have hjk : j = k := hT _ (List.getElem?_mem ht)
    subst hjk
    obtain ⟨_, d, hd, hv, hfresh⟩ := Read_found g.cache j now v hr
    have hwon : wonBy c j p1 p2 readings g.cache := by
      rcases hpr with h1 | h1 | h1
      · rw [h1] at hd
        rcases hexp with h0 | ⟨d0, hd0, hexp0⟩
        · rw [h0] at hd; cases hd
        · rw [hd0] at hd
          injection hd with hd
          subst hd
          exact absurd hexp0 hfresh
      · rw [h1] at hd; cases hd
      · exact h1
    have hv12 : v = p1 ∨ v = p2 := by
      obtain ⟨d1, _, hd1, hval, _⟩ := hwon
      rw [hd1] at hd
      injection hd with hd
      subst hd
      rw [← hv]; exact hval
    rw [h]
    exact ⟨hm, hresp0, hpr, forall_mem_set i hT hv12, Or.inl hwon⟩
  · -- a `Read` that misses
    have hjk : j = k := hT _ (List.getElem?_mem ht)
    subst hjk
    rw [h]
    refine ⟨(Read_maxAge g.cache j now).trans hm, ?_, Or.inr (Or.inl ?_),
      forall_mem_set i hT rfl, Or.inr ⟨Task.fetching j, mem_set_self ht, by simp⟩⟩
    · show (Read g.cache j now).2.actualPriceService.respond = _
      rw [Read_service]; exact hresp0
    · exact (Read_not_found g.cache j now v hr).1
  · -- the service does not fail
    have hjk : j = k := hT _ (List.getElem?_mem ht)
    subst hjk
    rw [hresp0] at hresp
    rcases hsvc g.cache.actualPriceService.asked with h1 | h1 <;>
    · rw [h1] at hresp
      simp at hresp
  · -- the service answers `p1` or `p2`
    have hjk : j = k := hT _ (List.getElem?_mem ht)
    subst hjk
    have hp : p = p1 ∨ p = p2 := by
      rw [hresp0] at hresp
      rcases hsvc g.cache.actualPriceService.asked with h1 | h1
      · rw [h1] at hresp; left; injection hresp with hp _; exact hp.symm
      · rw [h1] at hresp; right; injection hresp with hp _; exact hp.symm
    rw [h]
    exact ⟨hm, hresp0, hpr, forall_mem_set i hT ⟨rfl, hp⟩,
      Or.inr ⟨Task.writing j p, mem_set_self ht, by simp⟩⟩
  · -- a `Write`
    obtain ⟨hjk, hp⟩ : j = k ∧ (p = p1 ∨ p = p2) := hT _ (List.getElem?_mem ht)
    subst hjk
    have hwon : wonBy c j p1 p2 readings (Write g.cache j p now) :=
      ⟨_, now, Write_prices_same g.cache j p now, hp, hnow, by rw [hm]⟩
    rw [h]
    exact ⟨hm, hresp0, Or.inr (Or.inr hwon), forall_mem_set i hT hp, Or.inl hwon⟩

theorem Group.run_race (c : TransparentCache) (k : String) (p1 p2 : Float)
    (readings : List Int) (steps : List (Nat × Int)) (g : Group)
    (hnow : ∀ s ∈ steps, s.2 ∈ readings)
    (hexp : ∀ s ∈ steps, c.prices k = none ∨ ∃ d, c.prices k = some d ∧ s.2 > d.Expiration)
    (hsvc : ∀ asked, c.actualPriceService.respond asked k = (p1, none) ∨
      c.actualPriceService.respond asked k = (p2, none))
    (hR : g.Race c k p1 p2 readings) : (g.run steps).Race c k p1 p2 readings := by
  induction steps generalizing g with
  | nil => exact hR
  | cons s steps ih =>
    exact ih _ (fun s1 h1 => hnow s1 (List.mem_cons_of_mem _ h1))
      (fun s1 h1 => hexp s1 (List.mem_cons_of_mem _ h1))
      (g.step_race c k p1 p2 readings s.1 s.2 (hnow s (List.mem_cons_self _ _))
        (hexp s (List.mem_cons_self _ _)) hsvc hR)

theorem Group.start_race (c : TransparentCache) (k : String) (p1 p2 : Float)
    (readings : List Int) : (Group.start c [k, k]).Race c k p1 p2 readings := by
  refine ⟨rfl, rfl, Or.inl rfl, ?_, Or.inr ⟨Task.reading k, by simp [Group.start], by simp⟩⟩
  intro t ht
  simp only [Group.start, List.map_cons, List.map_nil, List.mem_cons, List.mem_singleton,
    List.not_mem_nil, or_false, or_self] at ht
  rw [ht]; rfl

/-- When both goroutines read before either has written, both ask the service. -/
theorem racing_both_fetch (c : TransparentCache) (k : String) (p1 p2 : Float) (now : Int)
    (hexp : c.prices k = none ∨ ∃ d, c.prices k = some d ∧ now > d.Expiration)
    (hsvc : ∀ asked, c.actualPriceService.respond asked k = (p1, none) ∨
      c.actualPriceService.respond asked k = (p2, none)) :
    (GetPricesFor.group c [k, k] [(0, now), (1, now)] now).cache.actualPriceService.asked =
      c.actualPriceService.asked ++ [k, k] := by
  have hr0 := Read_of_miss c k now hexp
  have hr1 : Read { c with prices := Function.update c.prices k none } k now =
      ((0, false), { c with prices := Function.update c.prices k none }) :=
    Read_absent _ k now (by simp)
  have hd : GetPricesFor.steps [k, k] [(0, now), (1, now)] now =
      [(0, now), (1, now), (0, now), (0, now), (0, now), (1, now), (1, now), (1, now)] := rfl
  unfold GetPricesFor.group
  rw [hd]
  rcases hsvc c.actualPriceService.asked with ha | ha <;>
  rcases hsvc (c.actualPriceService.asked ++ [k]) with hb | hb <;>
  simp [Group.run, Group.start, Group.step, hr0, hr1, PriceService.GetPriceFor, ha, hb, Write]

/-- The race with `Read` and `Write` as single steps (the goroutines of `Group`): `k` is
absent from the cache, or expired at every clock reading of the run, and every fetch for
`k` returns `p1` or `p2` without error.  Under every interleaving the map holds afterwards
for `k` an entry whose price is `p1` or `p2`, written at a clock reading of the run; both
calls have returned `p1` or `p2`; and when both read before either writes, both ask the
service. -/
theorem racing_misses_atomic (c : TransparentCache) (k : String) (p1 p2 : Float)
    (sched : List (Nat × Int)) (nowEnd : Int)
    (hmiss : c.prices k = none ∨ ∃ d, c.prices k = some d ∧
      ∀ s ∈ GetPricesFor.steps [k, k] sched nowEnd, s.2 > d.Expiration)
    (hsvc : ∀ asked, c.actualPriceService.respond asked k = (p1, none) ∨
      c.actualPriceService.respond asked k = (p2, none)) :
    (∃ d w, (GetPricesFor.group c [k, k] sched nowEnd).cache.prices k = some d ∧
      (d.Value = p1 ∨ d.Value = p2) ∧
      w ∈ (GetPricesFor.steps [k, k] sched nowEnd).map Prod.snd ∧
      d.Expiration = w + c.maxAge ∧
      ∀ t, t ≤ d.Expiration →
        Read (GetPricesFor.group c [k, k] sched nowEnd).cache k t =
          ((d.Value, true), (GetPricesFor.group c [k, k] sched nowEnd).cache)) ∧
    (∀ i, i < 2 → ∃ p,
      (GetPricesFor.group c [k, k] sched nowEnd).tasks[i]? = some (Task.finished p none) ∧
      (p = p1 ∨ p = p2)) ∧
    (GetPricesFor.group c [k, k] [(0, nowEnd), (1, nowEnd)] nowEnd).cache.actualPriceService.asked
      = c.actualPriceService.asked ++ [k, k] := by
  have hexp : ∀ s ∈ GetPricesFor.steps [k, k] sched nowEnd,
      c.prices k = none ∨ ∃ d, c.prices k = some d ∧ s.2 > d.Expiration := by
    intro s hs
    rcases hmiss with h | ⟨d, hd, hall⟩
    · exact Or.inl h
    · exact Or.inr ⟨d, hd, hall s hs⟩
  have hR : (GetPricesFor.group c [k, k] sched nowEnd).Race c k p1 p2
      ((GetPricesFor.steps [k, k] sched nowEnd).map Prod.snd) :=
    Group.run_race c k p1 p2 _ _ _ (fun s hs => List.mem_map_of_mem _ hs) hexp hsvc
      (Group.start_race c k p1 p2 _)
  obtain ⟨_, _, _, hT, hJ⟩ := hR
  have hfin : ∀ i, i < 2 → ∃ p,
      (GetPricesFor.group c [k, k] sched nowEnd).tasks[i]? = some (Task.finished p none) ∧
      (p = p1 ∨ p = p2) := by
    intro i hi
    obtain ⟨p, e, h⟩ := GetPricesFor.group_finished c [k, k] sched nowEnd i hi
    have hr := hT _ (List.getElem?_mem h)
    cases e with
    | none => exact ⟨p, h, hr⟩
    | some e => exact absurd hr (by simp [Task.racing])
  refine ⟨?_, hfin, ?_⟩
  · rcases hJ with hwon | ⟨t, ht, hunf⟩
    · obtain ⟨d, w, hd, hval, hw, hexpd⟩ := hwon
      exact ⟨d, w, hd, hval, hw, hexpd, fun t ht =>
        Read_fresh _ k t d hd (by omega)⟩
    · obtain ⟨i, hi⟩ := List.mem_iff_getElem?.1 ht
      have hlt : i < 2 := by
        have := getElem?_lt hi
        rw [GetPricesFor.group_length] at this
        exact this
      obtain ⟨p, e, h⟩ := GetPricesFor.group_finished c [k, k] sched nowEnd i hlt
      rw [hi] at h
      injection h with h
      exact absurd h (hunf p e)
  · apply racing_both_fetch c k p1 p2 nowEnd _ hsvc
    exact hexp (0, nowEnd) (by simp [GetPricesFor.steps, drain])

theorem twoPriceService_answers (asked : List String) (k : String) :
    twoPriceService.respond asked k = (12.0, none) ∨
      twoPriceService.respond asked k = (13.0, none) := by
  unfold twoPriceService
  by_cases h : asked.length = 0
  · left; simp [h]
  · right; simp [h]

theorem racing_example :
    (GetPricesFor.group (NewTransparentCache twoPriceService 1000000000) ["A", "A"]
        [(0, 1), (1, 2)] 3).cache.prices "A" =
      some { Value := 13.0, Expiration := 1000000003 } ∧
    (GetPricesFor.group (NewTransparentCache twoPriceService 1000000000) ["A", "A"]
        [(0, 1), (1, 2)] 3).cache.actualPriceService.asked = ["A", "A"] := by
  constructor <;> rfl

/-! ## An expiration that an `int64` cannot hold (C2, C6, C8, C11, C14)

`maxAge` is a `time.Duration`, an `int64` of nanoseconds, and `math.MaxInt64` is one:
`NewTransparentCache(svc, time.Duration(math.MaxInt64))`.  At any clock reading after 1970
the sum `now + maxAge` is then more than an `int64` holds, and the expiration that `Write`
stores is negative: the entry has expired as soon as it is written. -/

/-- When an `int64` can hold `x`, it holds `x`. -/
theorem int64_eq (x : Int) (h : -9223372036854775808 ≤ x ∧ x < 9223372036854775808) :
    int64 x = x := by
  unfold int64; omega

/-- What an `int64` holds is in the range of `int64`. -/
theorem int64_range (x : Int) :
    -9223372036854775808 ≤ int64 x ∧ int64 x < 9223372036854775808 := by
  unfold int64; omega

/-- While `now + maxAge` is an `int64`, the `Write` of the machine is `Write`. -/
theorem Machine.Write_eq (c : TransparentCache) (k : String) (v : Float) (now : Int)
    (h : -9223372036854775808 ≤ now + c.maxAge ∧ now + c.maxAge < 9223372036854775808) :
    Machine.Write c k v now = Sample1.Write c k v now := by
  unfold Machine.Write Sample1.Write
  rw [int64_eq _ h]

/-- While `nowW + maxAge` is an `int64`, the `GetPriceFor` of the machine is `GetPriceFor`. -/
theorem Machine.GetPriceFor_eq (c : TransparentCache) (k : String) (nowR nowW : Int)
    (h : -9223372036854775808 ≤ nowW + c.maxAge ∧ nowW + c.maxAge < 9223372036854775808) :
    Machine.GetPriceFor c k nowR nowW = Sample1.GetPriceFor c k nowR nowW := by
  unfold Machine.GetPriceFor Sample1.GetPriceFor
  rcases hR : Read c k nowR with ⟨⟨v, found⟩, c1⟩
  have hm : c1.maxAge = c.maxAge := by
    have := Read_maxAge c k nowR
    rw [hR] at this
    exact this
  cases found with
  | true => rfl
  | false =>
    simp only
    rcases c1.actualPriceService.GetPriceFor k with ⟨⟨p, _ | err⟩, svc⟩
    · simp only
      rw [Machine.Write_eq _ k p nowW (by simpa [hm] using h)]
    · rfl

/-- C2: the claim fails on the code when `t + maxAge` is more than an `int64` holds.  On a
new cache with `maxAge = math.MaxInt64`, `Write("A", 10.0)` at the clock reading
`t = 1257894007501000030` stores the expiration `-7965478029353775779`, and `Read("A")` at
`t' = t`, for which `t ≤ t' < t + maxAge`, returns `(0, false)` and deletes the entry. -/
theorem fresh_read_overflow :
    clock2009 ≤ clock2009 ∧ clock2009 < clock2009 + maxAgeCache.maxAge ∧
    (Machine.Write maxAgeCache "A" 10.0 clock2009).prices "A" =
      some { Value := 10.0, Expiration := -7965478029353775779 } ∧
    (Read (Machine.Write maxAgeCache "A" 10.0 clock2009) "A" clock2009).1 = (0, false) ∧
    (Read (Machine.Write maxAgeCache "A" 10.0 clock2009) "A" clock2009).2.prices "A" = none :=
  ⟨by decide, by decide, rfl, rfl, rfl⟩

/-- C6: the claim fails on the code when `now + maxAge` is more than an `int64` holds.  With
`maxAge = math.MaxInt64`, a `Write("A", 11.0)` at the clock reading `1257894007501000030`
over an earlier entry of `A` leaves `A` mapped to `(11.0, -7965478029353775779)`, whereas
`now + maxAge` is `10481266044355775837`; the entry of another key is unchanged. -/
theorem Write_expiration_overflow :
    (Machine.Write (Machine.Write maxAgeCache "A" 10.0 0) "A" 11.0 clock2009).prices "A" =
      some { Value := 11.0, Expiration := -7965478029353775779 } ∧
    clock2009 + (Machine.Write maxAgeCache "A" 10.0 0).maxAge = 10481266044355775837 ∧
    (-7965478029353775779 : Int) ≠ clock2009 + (Machine.Write maxAgeCache "A" 10.0 0).maxAge ∧
    (Machine.Write (Machine.Write maxAgeCache "A" 10.0 0) "A" 11.0 clock2009).prices "B" =
      (Machine.Write maxAgeCache "A" 10.0 0).prices "B" :=
  ⟨rfl, by decide, by decide, rfl⟩

/-- C8: the claim fails on the code when `w + maxAge` is more than an `int64` holds.  On a
new cache with `maxAge = math.MaxInt64` (so `A` is absent) and a service that answers
`(12.0, nil)`, `GetPriceFor("A")` at the clock reading `w = 1257894007501000030` returns
`(12.0, nil)` and asks the service once, but the entry it leaves for `A` is
`(12.0, -7965478029353775779)`, not `(12.0, w + maxAge)`. -/
theorem GetPriceFor_miss_overflow :
    maxAgeCache.prices "A" = none ∧
    maxAgeCache.actualPriceService.respond maxAgeCache.actualPriceService.asked "A" =
      (12.0, none) ∧
    (Machine.GetPriceFor maxAgeCache "A" clock2009 clock2009).1 = (12.0, none) ∧
    (Machine.GetPriceFor maxAgeCache "A" clock2009 clock2009).2.actualPriceService.asked =
      ["A"] ∧
    (Machine.GetPriceFor maxAgeCache "A" clock2009 clock2009).2.prices "A" =
      some { Value := 12.0, Expiration := -7965478029353775779 } ∧
    (-7965478029353775779 : Int) ≠ clock2009 + maxAgeCache.maxAge :=
  ⟨rfl, rfl, rfl, rfl, rfl, by decide⟩

/-- C11: the claim fails on the code when the expiration is more than an `int64` holds.
On a new cache with `maxAge = math.MaxInt64`, `GetPriceFor("A")` is called at the clock
reading `w = 1257894007501000030` and returns `(12.0, nil)`; it is called again one
nanosecond later, within `maxAge` of that write and with nothing in between.  The second
call finds the entry expired, asks the service again, and returns the 13.0 that the service
answers the second time: the service has been asked twice for `A`. -/
theorem short_circuit_overflow :
    (Machine.GetPriceFor maxAgeCache "A" clock2009 clock2009).1 = (12.0, none) ∧
    clock2009 ≤ clock2009 + 1 ∧ clock2009 + 1 ≤ clock2009 + maxAgeCache.maxAge ∧
    (Machine.GetPriceFor (Machine.GetPriceFor maxAgeCache "A" clock2009 clock2009).2 "A"
      (clock2009 + 1) (clock2009 + 1)).1 = (13.0, none) ∧
    (Machine.GetPriceFor (Machine.GetPriceFor maxAgeCache "A" clock2009 clock2009).2 "A"
      (clock2009 + 1) (clock2009 + 1)).2.actualPriceService.asked = ["A", "A"] ∧
    ((Machine.GetPriceFor (Machine.GetPriceFor maxAgeCache "A" clock2009 clock2009).2 "A"
      (clock2009 + 1) (clock2009 + 1)).2.actualPriceService.asked.count "A") = 2 :=
  ⟨rfl, by decide, by decide, rfl, rfl, rfl⟩

/-- C14: the claim fails on the code when the expiration is more than an `int64` holds.
From a new cache with `maxAge = math.MaxInt64`, after `Write("A", 10.0)` at the clock
reading `t = 1257894007501000030`, `Read("B")` and `GetPriceFor("B")` five nanoseconds
later, the entry of `A` expires at `-7965478029353775779` and the entry of `B` at
`-7965478029353775774`: neither is the instant of the last `Write` to its key plus
`maxAge`, and both lie before that instant. -/
theorem expiration_overflow :
    (Machine.GetPriceFor
      (Read (Machine.Write maxAgeCache "A" 10.0 clock2009) "B" (clock2009 + 5)).2
      "B" (clock2009 + 5) (clock2009 + 5)).2.prices "A" =
      some { Value := 10.0, Expiration := -7965478029353775779 } ∧
    (Machine.GetPriceFor
      (Read (Machine.Write maxAgeCache "A" 10.0 clock2009) "B" (clock2009 + 5)).2
      "B" (clock2009 + 5) (clock2009 + 5)).2.prices "B" =
      some { Value := 12.0, Expiration := -7965478029353775774 } ∧
    (-7965478029353775779 : Int) ≠ clock2009 + maxAgeCache.maxAge ∧
    (-7965478029353775774 : Int) ≠ clock2009 + 5 + maxAgeCache.maxAge ∧
    (-7965478029353775779 : Int) < clock2009 ∧ (-7965478029353775774 : Int) < clock2009 + 5 :=
  ⟨rfl, rfl, by decide, by decide, by decide, by decide⟩

/-! ## Two calls that race, statement by statement (C15) -/

theorem Fine.stmts_nil (f : Fine) : f.run [] = f := rfl

theorem Fine.stmts_cons (f : Fine) (s : Nat × Int) (steps : List (Nat × Int)) :
    f.run (s :: steps) = (f.step s.1 s.2).run steps := rfl

theorem Fine.stmts_append (f : Fine) (xs ys : List (Nat × Int)) :
    f.run (xs ++ ys) = (f.run xs).run ys := by
  simp [Fine.run, List.foldl_append]

/-- After a data race nothing moves any more. -/
theorem Fine.raced_stays (steps : List (Nat × Int)) (f : Fine) (h : f.raced = true) :
    f.run steps = f := by
  induction steps with
  | nil => rfl
  | cons s steps ih =>
    have hs : f.step s.1 s.2 = f := by simp [Fine.step, h]
    rw [Fine.stmts_cons, hs, ih]

/-- A caller that runs alone is one `GetPriceFor`: its nine steps leave the cache that
`GetPriceFor` leaves and end with what `GetPriceFor` returns, and there is no data race. -/
theorem Fine.solo (c : TransparentCache) (k : String) (now : Int) :
    (Fine.start c [k]).run (List.replicate 9 (0, now)) =
      { cache := (Machine.GetPriceFor c k now now).2,
        pcs := [Pc.finished (Machine.GetPriceFor c k now now).1.1
          (Machine.GetPriceFor c k now now).1.2],
        raced := false } := by
  cases hk : c.prices k with
  | none =>
    have hu : Function.update c.prices k none = c.prices := by
      rw [← hk]; exact Function.update_eq_self k c.prices
    rcases hresp : c.actualPriceService.respond c.actualPriceService.asked k with ⟨x, _ | err⟩
    · simp [Fine.run, Fine.start, Fine.step, List.replicate, Machine.GetPriceFor, Read, hk,
        hresp, PriceService.GetPriceFor, Pc.holdsExclusive, Pc.holdsShared, Pc.hasDeleted, hu]
    · simp [Fine.run, Fine.start, Fine.step, List.replicate, Machine.GetPriceFor, Read, hk,
        hresp, PriceService.GetPriceFor, Pc.holdsExclusive, Pc.holdsShared, Pc.hasDeleted, hu]
  | some d =>
    by_cases hexp : now > d.Expiration
    · rcases hresp : c.actualPriceService.respond c.actualPriceService.asked k
        with ⟨x, _ | err⟩
      · simp [Fine.run, Fine.start, Fine.step, List.replicate, Machine.GetPriceFor, Read, hk,
          hresp, hexp, PriceService.GetPriceFor, Pc.holdsExclusive, Pc.holdsShared,
          Pc.hasDeleted]
      · simp [Fine.run, Fine.start, Fine.step, List.replicate, Machine.GetPriceFor, Read, hk,
          hresp, hexp, PriceService.GetPriceFor, Pc.holdsExclusive, Pc.holdsShared,
          Pc.hasDeleted]
    · simp [Fine.run, Fine.start, Fine.step, List.replicate, Machine.GetPriceFor, Read, hk,
        hexp, Pc.holdsExclusive, Pc.holdsShared, Pc.hasDeleted]

/-- Two calls for a key that is absent: both look `A` up before either writes, both ask
the service, the second to write stores its 13.0 over the 12.0 of the first, both return
the price they fetched, and there is no data race. -/
theorem Fine.race_absent_example :
    ((Fine.start (NewTransparentCache twoPriceService 1000000000) ["A", "A"]).run
      [(0, 1), (1, 1), (0, 1), (1, 1), (0, 1), (1, 1), (0, 1), (1, 1),
       (0, 2), (0, 2), (0, 2), (1, 3), (1, 3), (1, 3)]).pcs =
      [Pc.finished 12.0 none, Pc.finished 13.0 none] ∧
    ((Fine.start (NewTransparentCache twoPriceService 1000000000) ["A", "A"]).run
      [(0, 1), (1, 1), (0, 1), (1, 1), (0, 1), (1, 1), (0, 1), (1, 1),
       (0, 2), (0, 2), (0, 2), (1, 3), (1, 3), (1, 3)]).cache.prices "A" =
      some { Value := 13.0, Expiration := 1000000003 } ∧
    ((Fine.start (NewTransparentCache twoPriceService 1000000000) ["A", "A"]).run
      [(0, 1), (1, 1), (0, 1), (1, 1), (0, 1), (1, 1), (0, 1), (1, 1),
       (0, 2), (0, 2), (0, 2), (1, 3), (1, 3), (1, 3)]).cache.actualPriceService.asked =
      ["A", "A"] ∧
    ((Fine.start (NewTransparentCache twoPriceService 1000000000) ["A", "A"]).run
      [(0, 1), (1, 1), (0, 1), (1, 1), (0, 1), (1, 1), (0, 1), (1, 1),
       (0, 2), (0, 2), (0, 2), (1, 3), (1, 3), (1, 3)]).raced = false :=
  ⟨rfl, rfl, rfl, rfl⟩

/-- Two calls for a key that has expired, one after the other: the first deletes the entry
while it alone holds `mx`, fetches 12.0 and stores it; the second finds that entry and
returns it.  There is no data race. -/
theorem Fine.one_by_one_example :
    ((Fine.start raceCache ["A", "A"]).run
      (List.replicate 9 (0, 1500000000) ++ List.replicate 9 (1, 1500000001))).pcs =
      [Pc.finished 12.0 none, Pc.finished 12.0 none] ∧
    ((Fine.start raceCache ["A", "A"]).run
      (List.replicate 9 (0, 1500000000) ++
        List.replicate 9 (1, 1500000001))).cache.prices "A" =
      some { Value := 12.0, Expiration := 2500000000 } ∧
    ((Fine.start raceCache ["A", "A"]).run
      (List.replicate 9 (0, 1500000000) ++
        List.replicate 9 (1, 1500000001))).cache.actualPriceService.asked = ["A"] ∧
    ((Fine.start raceCache ["A", "A"]).run
      (List.replicate 9 (0, 1500000000) ++ List.replicate 9 (1, 1500000001))).raced = false :=
  ⟨rfl, rfl, rfl, rfl⟩

/-- Two calls for a key that has expired, both between `RLock` and `RUnlock` at the same
time: both find the entry expired, and the `delete` of the first is a data race, whatever
the cache and the key. -/
theorem Fine.expired_reads_race (c : TransparentCache) (k : String) (now : Int) (d : Data)
    (hk : c.prices k = some d) (hexp : now > d.Expiration) (rest : List (Nat × Int)) :
    (Fine.start c [k, k]).run
        ([(0, now), (1, now), (0, now), (1, now), (0, now), (1, now), (0, now)] ++ rest) =
      { cache := c, pcs := [Pc.expired k, Pc.expired k], raced := true } := by
  have h7 : (Fine.start c [k, k]).run
      [(0, now), (1, now), (0, now), (1, now), (0, now), (1, now), (0, now)] =
      { cache := c, pcs := [Pc.expired k, Pc.expired k], raced := true } := by
    simp [Fine.run, Fine.start, Fine.step, hk, hexp, Pc.holdsExclusive, Pc.holdsShared,
      Pc.hasDeleted]
  rw [Fine.stmts_append, h7]
  exact Fine.raced_stays rest _ rfl

/-- C15: the claim fails on the code for a key that has expired.  `A` was written at
instant 0 with `maxAge` one second; at 1.5 s two calls of `GetPriceFor("A")` run at the same
time.  Both take `mx` shared, both look `A` up, both find the entry expired.  When the first
comes to `delete(c.prices, "A")` the second is still between `RLock` and `RUnlock`: the
`delete` is a data race on the map, and the run ends there.  Neither call has returned, the
service has not been asked, the map holds no price fetched by either call, and whatever is
scheduled afterwards changes nothing. -/
theorem racing_expired_reads (rest : List (Nat × Int)) :
    raceCache.prices "A" = some { Value := 10.0, Expiration := 1000000000 } ∧
    (1500000000 : Int) > 1000000000 ∧
    (Fine.start raceCache ["A", "A"]).run
        [(0, 1500000000), (1, 1500000000), (0, 1500000000), (1, 1500000000),
         (0, 1500000000), (1, 1500000000)] =
      { cache := raceCache, pcs := [Pc.expired "A", Pc.expired "A"], raced := false } ∧
    (Pc.expired "A").holdsShared = true ∧ (Pc.expired "A").holdsExclusive = false ∧
    (Fine.start raceCache ["A", "A"]).run
        ([(0, 1500000000), (1, 1500000000), (0, 1500000000), (1, 1500000000),
          (0, 1500000000), (1, 1500000000), (0, 1500000000)] ++ rest) =
      { cache := raceCache, pcs := [Pc.expired "A", Pc.expired "A"], raced := true } := by
  refine ⟨rfl, by decide, rfl, rfl, rfl, ?_⟩
  rw [Fine.stmts_append]
  exact Fine.raced_stays rest _ rfl

end Sample1
